import Mathlib

/-!
# Bracetopia: a shallow embedding of the simulation core

The C sources `play_game.c` and `init_board.c` are translated function by function, and of
`bracetopia.c` the option handling and the loop of print mode of `main`.

* A `char board[dimensions][dimensions]` is a function `Nat → Nat → Char`; only the cells
  with both indices below `dimensions` are ever read or written by the code.
* C `int` values are `Int` (or `Nat` for loop indices and sizes, which are never negative).
  The `int` operations that decide how often a loop runs and can leave the range of `int`
  are modelled as undefined there (`intMul`, `intIncr`).
* C `double` values are modelled exactly: IEEE-754 binary64 with round-to-nearest, ties to
  even, every operation rounded once to binary64 (the evaluation of `double` expressions on
  x86-64 and AArch64).  Every finite binary64 value is an integer multiple of `2^-1074`; a
  `Double` stores that integer.  Overflow to infinity and division by zero are outside the
  model (they are not reachable by the functions below on the inputs the theorems
  consider).
* `srandom`/`random` are modelled by a function giving the value returned by each call.

The file has two parts: the definitions (the embedding, then the notions used to state the
properties), then the lemmas and the theorems, one `C<n>` theorem per property.
-/

namespace Bracetopia

/-! ## IEEE-754 binary64 -/

/-- Number of binary digits of `n`, by halving (`fuel` bounds the number of halvings). -/
def bitLenAux : Nat → Nat → Nat
  | 0, _ => 0
  | fuel + 1, n => if n = 0 then 0 else bitLenAux fuel (n / 2) + 1

/-- Number of binary digits of `n` (`0` for `n = 0`). -/
def bitLen (n : Nat) : Nat := bitLenAux n n

/-- The value `1.0` in units of `2^-1074`. -/
def scale : Nat := 1 <<< 1074

/-- A finite binary64 value `units * 2^-1074`. -/
structure Double where
  units : Int
deriving DecidableEq

/-- Nearest binary64 value (in units of `2^-1074`) to the non-negative rational `n / d`
units: the quotient is rounded to 53 significant bits, ties to even.  Below `2^53` units
the spacing is one unit, which is the subnormal spacing. -/
def roundNat (n d : Nat) : Nat :=
  let u := 1 <<< (bitLen (n / d) - 53)
  let q := n / (d * u)
  let r := n % (d * u)
  if 2 * r < d * u then q * u
  else if d * u < 2 * r then (q + 1) * u
  else if q % 2 = 0 then q * u else (q + 1) * u

/-- Nearest binary64 value to the rational `num / den` units (sign handled symmetrically). -/
def round (num den : Int) : Double :=
  if 0 ≤ num * den then ⟨roundNat num.natAbs den.natAbs⟩
  else ⟨-(roundNat num.natAbs den.natAbs : Int)⟩

/-- Conversion `int → double` (exact for `|n| ≤ 2^53`). -/
def ofInt (n : Int) : Double := ⟨n * scale⟩

/-- Binary64 division `x / y`. -/
def fdiv (x y : Double) : Double := round (x.units * scale) y.units

/-- Binary64 multiplication `x * y`. -/
def fmul (x y : Double) : Double := round (x.units * y.units) scale

/-- Binary64 addition `x + y`. -/
def fadd (x y : Double) : Double := round (x.units + y.units) 1

/-- Conversion `double → int`: truncation toward zero. -/
def toInt (x : Double) : Int := Int.tdiv x.units scale

instance : LE Double := ⟨fun x y => x.units ≤ y.units⟩

instance : LT Double := ⟨fun x y => x.units < y.units⟩

instance (x y : Double) : Decidable (x ≤ y) := inferInstanceAs (Decidable (x.units ≤ y.units))

instance (x y : Double) : Decidable (x < y) := inferInstanceAs (Decidable (x.units < y.units))

/-! ## Boards -/

/-- A `char board[dimensions][dimensions]`. -/
abbrev Board := Nat → Nat → Char

/-- The assignment `board[i][j] = v`. -/
def Board.set (board : Board) (i j : Nat) (v : Char) : Board :=
  fun r c => if r = i ∧ c = j then v else board r c

/-- The cells of a `dimensions × dimensions` board in the order of
`for i in 0..dimensions, for j in 0..dimensions`. -/
def cells (dimensions : Nat) : List (Nat × Nat) :=
  (List.range dimensions).flatMap fun i => (List.range dimensions).map fun j => (i, j)

/-- The cells in the order of `for i = dimensions-1 downto 0, for j = dimensions-1 downto 0`. -/
def cellsRev (dimensions : Nat) : List (Nat × Nat) :=
  (List.range dimensions).reverse.flatMap fun i =>
    (List.range dimensions).reverse.map fun j => (i, j)

/-- Number of cells of the board holding `k`. -/
def countKind (dimensions : Nat) (board : Board) (k : Char) : Nat :=
  (cells dimensions).countP fun p => board p.1 p.2 = k

/-! ## The type int -/

/-- `INT_MAX` of `limits.h`, `int` being 32 bits wide. -/
def INT_MAX : Int := 2147483647

/-- The product of two `int` values; it is undefined (`none`) when the mathematical product
is outside the range of `int`. -/
def intMul (a b : Int) : Option Int :=
  if -INT_MAX - 1 ≤ a * b ∧ a * b ≤ INT_MAX then some (a * b) else none

/-- The value a 32-bit two's complement machine leaves for an `int` result `n` that is
outside the range of `int`. -/
def intWrap (n : Int) : Int := (n + 2147483648) % 4294967296 - 2147483648

/-- What ends a run of the model of a loop without a result: the fuel of the model is used
up, or an `int` operation of the code overflows (undefined behaviour). -/
inductive Fault where
  | outOfFuel
  | intOverflow
deriving DecidableEq

/-- `n++` on an `int` variable: undefined (`none`) at `INT_MAX`. -/
def intIncr (n : Int) : Option Int := if n < INT_MAX then some (n + 1) else none

/-! ## play_game.c -/

/-- One neighbour check of `getHappiness`:
`if (guard && cell != '.') { totalNeighbors++; if (cell == current) sameNeighbors++; }`
on the pair `(sameNeighbors, totalNeighbors)`. -/
def checkNeighbor (guard : Bool) (cell current : Char) (st : Nat × Nat) : Nat × Nat :=
  if guard ∧ cell ≠ '.' then
    (if cell = current then st.1 + 1 else st.1, st.2 + 1)
  else st

/-- The pair `(sameNeighbors, totalNeighbors)` at the end of the eight checks of
`getHappiness`, in the order of the source: above, left, below, right, upper left, upper
right, lower left, lower right. -/
def neighborCounts (dimensions : Nat) (board : Board) (row col : Nat) : Nat × Nat :=
  let current := board row col
  let st : Nat × Nat := (0, 0)
  let st := checkNeighbor (row > 0) (board (row - 1) col) current st
  let st := checkNeighbor (col > 0) (board row (col - 1)) current st
  let st := checkNeighbor (row < dimensions - 1) (board (row + 1) col) current st
  let st := checkNeighbor (col < dimensions - 1) (board row (col + 1)) current st
  let st := checkNeighbor (row > 0 ∧ col > 0) (board (row - 1) (col - 1)) current st
  let st := checkNeighbor (row > 0 ∧ col < dimensions - 1) (board (row - 1) (col + 1)) current st
  let st := checkNeighbor (row < dimensions - 1 ∧ col > 0) (board (row + 1) (col - 1)) current st
  let st :=
    checkNeighbor (row < dimensions - 1 ∧ col < dimensions - 1) (board (row + 1) (col + 1))
      current st
  st

/-- `getHappiness`: `100.0` without neighbours, else
`(sameNeighbors / ((double)totalNeighbors)) * 100`. -/
def getHappiness (dimensions : Nat) (board : Board) (row col : Nat) : Double :=
  let sameNeighbors := (neighborCounts dimensions board row col).1
  let totalNeighbors := (neighborCounts dimensions board row col).2
  if totalNeighbors > 0 then
    fmul (fdiv (ofInt sameNeighbors) (ofInt totalNeighbors)) (ofInt 100)
  else ofInt 100

/-- The cell `moveAgent` moves to: the first cell, in scan order (forward when `first` is
non-zero, backward otherwise), that is `'.'` in both `tempBoard` and `board`. -/
def findVacant (dimensions : Nat) (board tempBoard : Board) (first : Int) :
    Option (Nat × Nat) :=
  if first ≠ 0 then
    (cells dimensions).find? fun p => tempBoard p.1 p.2 = '.' ∧ board p.1 p.2 = '.'
  else
    (cellsRev dimensions).find? fun p => tempBoard p.1 p.2 = '.' ∧ board p.1 p.2 = '.'

/-- `moveAgent`: the updated board and the return value. -/
def moveAgent (dimensions : Nat) (board tempBoard : Board) (row col : Nat) (first : Int) :
    Board × Int :=
  match findVacant dimensions board tempBoard first with
  | some (i, j) => (((board.set i j (board row col)).set row col '.'), 1)
  | none => (board, 0)

/-- The variables of `gameMove` that its loop changes. -/
structure MoveState where
  board : Board
  numMoves : Int
  first : Int

/-- The body of the nested loop of `gameMove` at cell `(i, j)`. -/
def gameMoveCell (dimensions : Nat) (tempBoard : Board) (strengthThreshold : Int)
    (st : MoveState) (p : Nat × Nat) : MoveState :=
  if tempBoard p.1 p.2 ≠ '.' ∧ tempBoard p.1 p.2 = st.board p.1 p.2 then
    let happiness : Int := toInt (getHappiness dimensions tempBoard p.1 p.2)
    if happiness < strengthThreshold then
      let r := moveAgent dimensions st.board tempBoard p.1 p.2 st.first
      if r.2 ≠ 0 then ⟨r.1, st.numMoves + 1, (st.first + 1) % 2⟩
      else ⟨r.1, st.numMoves, st.first⟩
    else st
  else st

/-- The nested loop of `gameMove`, run over a list of cells. -/
def gameMoveLoop (dimensions : Nat) (tempBoard : Board) (strengthThreshold : Int)
    (st : MoveState) (l : List (Nat × Nat)) : MoveState :=
  l.foldl (gameMoveCell dimensions tempBoard strengthThreshold) st

/-- `gameMove`: copies the board to `tempBoard`, then visits every cell in row-major order.
The result is the final state; `gameMove` returns its `numMoves`. -/
def gameMove (dimensions : Nat) (board : Board) (strengthThreshold : Int) : MoveState :=
  let tempBoard : Board := fun i j => board i j
  gameMoveLoop dimensions tempBoard strengthThreshold ⟨board, 0, 0⟩ (cells dimensions)

/-- The destination of the relocation the loop body of `gameMove` performs at cell `p` in
state `st`, if it performs one: the guard of the body holds, the truncated happiness is
below the threshold and `moveAgent` finds a cell. -/
def relocation (dimensions : Nat) (tempBoard : Board) (strengthThreshold : Int)
    (st : MoveState) (p : Nat × Nat) : Option (Nat × Nat) :=
  if (tempBoard p.1 p.2 ≠ '.' ∧ tempBoard p.1 p.2 = st.board p.1 p.2) ∧
      toInt (getHappiness dimensions tempBoard p.1 p.2) < strengthThreshold then
    findVacant dimensions st.board tempBoard st.first
  else none

/-- The relocations `(source, destination)` performed by the loop of `gameMove` over the
cells `l` from state `st`, in the order they happen. -/
def relocations (dimensions : Nat) (tempBoard : Board) (strengthThreshold : Int) :
    MoveState → List (Nat × Nat) → List ((Nat × Nat) × (Nat × Nat))
  | _, [] => []
  | st, p :: l =>
    match relocation dimensions tempBoard strengthThreshold st p with
    | some d =>
      (p, d) :: relocations dimensions tempBoard strengthThreshold
        (gameMoveCell dimensions tempBoard strengthThreshold st p) l
    | none =>
      relocations dimensions tempBoard strengthThreshold
        (gameMoveCell dimensions tempBoard strengthThreshold st p) l

/-- Scenario E: two `e` agents at `(1,2)` and `(3,2)` among `n` agents, vacancies at
`(0,0)` and `(4,4)`. -/
def scenarioE : Board := fun i j =>
  if (i = 0 ∧ j = 0) ∨ (i = 4 ∧ j = 4) then '.'
  else if (i = 1 ∧ j = 2) ∨ (i = 3 ∧ j = 2) then 'e' else 'n'

/-- The cells vacant in `board`, in row-major order (`v_1 < ... < v_V`). -/
def vacancies (dimensions : Nat) (board : Board) : List (Nat × Nat) :=
  (cells dimensions).filter fun q => board q.1 q.2 = '.'

/-- The cells `moveAgent` may still choose: `'.'` in both `tempBoard` and `board`, in
row-major order. -/
def available (dimensions : Nat) (tempBoard board : Board) : List (Nat × Nat) :=
  (cells dimensions).filter fun q => tempBoard q.1 q.2 = '.' ∧ board q.1 q.2 = '.'

/-- The destination cells of the relocations of one call of `gameMove`, in the order the
relocations happen. -/
def destinations (dimensions : Nat) (board : Board) (strengthThreshold : Int) :
    List (Nat × Nat) :=
  (relocations dimensions board strengthThreshold ⟨board, 0, 0⟩ (cells dimensions)).map
    Prod.snd

/-- The board after `t` cycles: `gameMove` applied `t` times, each call working on the
board the previous call left. -/
def cycles (dimensions : Nat) (strengthThreshold : Int) (t : Nat) (board : Board) : Board :=
  Nat.iterate (fun b => (gameMove dimensions b strengthThreshold).board) t board

/-! ## init_board.c -/

/-- The variables of `populateBoard` that its loop changes. -/
structure PopulateState where
  board : Board
  numVacant : Int
  numEndline : Int

/-- The body of the nested loop of `populateBoard` at cell `p`. -/
def populateCell (st : PopulateState) (p : Nat × Nat) : PopulateState :=
  if st.numVacant > 0 then ⟨st.board.set p.1 p.2 '.', st.numVacant - 1, st.numEndline⟩
  else if st.numEndline > 0 then ⟨st.board.set p.1 p.2 'e', st.numVacant, st.numEndline - 1⟩
  else ⟨st.board.set p.1 p.2 'n', st.numVacant, st.numEndline⟩

/-- The initial value of `numVacant` in `populateBoard`:
`int numVacant = totalSpaces * (vacant / 100.0)`. -/
def initNumVacant (dimensions : Nat) (vacant : Int) : Int :=
  let totalSpaces : Int := dimensions * dimensions
  toInt (fmul (ofInt totalSpaces) (fdiv (ofInt vacant) (ofInt 100)))

/-- The initial value of `numEndline` in `populateBoard`:
`int numEndline = (totalSpaces - numVacant) * (endline / 100.0)`. -/
def initNumEndline (dimensions : Nat) (vacant endline : Int) : Int :=
  let totalSpaces : Int := dimensions * dimensions
  let numVacant := initNumVacant dimensions vacant
  toInt (fmul (ofInt (totalSpaces - numVacant)) (fdiv (ofInt endline) (ofInt 100)))

/-- `populateBoard`: the board after the nested loop. -/
def populateBoard (dimensions : Nat) (board : Board) (vacant endline : Int) : Board :=
  ((cells dimensions).foldl populateCell
    ⟨board, initNumVacant dimensions vacant, initNumEndline dimensions vacant endline⟩).board

/-- One iteration of the loop of `shuffle` at index `i`, `r` being the value returned by
`random()`. -/
def shuffleStep (dimensions : Nat) (board : Board) (i r : Nat) : Board :=
  let swapIndex := r % (dimensions * dimensions - i) + i
  let temp := board (i / dimensions) (i % dimensions)
  let board := board.set (i / dimensions) (i % dimensions)
    (board (swapIndex / dimensions) (swapIndex % dimensions))
  board.set (swapIndex / dimensions) (swapIndex % dimensions) temp

/-- `shuffle`, the value returned by the call of `random()` in iteration `i` being
`random i`.  The `int` product `dimensions * dimensions` is taken in the naturals: it is
the value of the C expression for `dimensions * dimensions ≤ INT_MAX`; `shuffleLogged`
below carries the check. -/
def shuffle (dimensions : Nat) (board : Board) (random : Nat → Nat) : Board :=
  (List.range (dimensions * dimensions - 2)).foldl
    (fun b i => shuffleStep dimensions b i (random i)) board

/-- The contents of the board read in row-major order. -/
def rowMajor (dimensions : Nat) (board : Board) : List Char :=
  (cells dimensions).map fun p => board p.1 p.2

/-! ## Reference definition of the happiness (spec §4.4) -/

/-- The offsets `(dr, dc)` with `dr, dc` in `{-1, 0, 1}` and `(dr, dc) ≠ (0, 0)`. -/
def mooreOffsets : List (Int × Int) :=
  ([-1, 0, 1].flatMap fun dr => [-1, 0, 1].map fun dc => ((dr, dc) : Int × Int)).filter
    fun o => o ≠ (0, 0)

/-- The position `(x, y)` lies inside the grid of side `D`. -/
def inGrid (D : Nat) (x y : Int) : Prop := 0 ≤ x ∧ x < D ∧ 0 ≤ y ∧ y < D

instance (D : Nat) (x y : Int) : Decidable (inGrid D x y) := by
  unfold inGrid
  infer_instance

/-- The Moore neighbours of `(r, c)` that lie inside the grid. -/
def mooreNeighbors (D r c : Nat) : List (Nat × Nat) :=
  (mooreOffsets.filter fun o => inGrid D (r + o.1) (c + o.2)).map
    fun o => (((r : Int) + o.1).toNat, ((c : Int) + o.2).toNat)

/-- The count `N` of the spec: non-vacant in-grid Moore neighbours of `(r, c)`. -/
def refTotal (D : Nat) (board : Board) (r c : Nat) : Nat :=
  (mooreNeighbors D r c).countP fun q => board q.1 q.2 ≠ '.'

/-- The count `S` of the spec: non-vacant in-grid Moore neighbours of the kind of `(r, c)`. -/
def refSame (D : Nat) (board : Board) (r c : Nat) : Nat :=
  (mooreNeighbors D r c).countP fun q => board q.1 q.2 ≠ '.' ∧ board q.1 q.2 = board r c

/-- The offsets in the order in which `getHappiness` checks them. -/
def sourceOffsets : List (Int × Int) :=
  [(-1, 0), (0, -1), (1, 0), (0, 1), (-1, -1), (-1, 1), (1, -1), (1, 1)]

/-- Row-major order on cells. -/
def cellLt (p q : Nat × Nat) : Prop := p.1 < q.1 ∨ (p.1 = q.1 ∧ p.2 < q.2)

instance (p q : Nat × Nat) : Decidable (cellLt p q) := by
  unfold cellLt
  infer_instance

/-- The cell `p` holds the row-major-first agent of `board` whose happiness is below
`strengthThreshold`. -/
def isFirstUnhappy (dimensions : Nat) (board : Board) (strengthThreshold : Int)
    (p : Nat × Nat) : Prop :=
  (p.1 < dimensions ∧ p.2 < dimensions) ∧
  (board p.1 p.2 ≠ '.' ∧ getHappiness dimensions board p.1 p.2 < ofInt strengthThreshold) ∧
  ∀ q : Nat × Nat, q.1 < dimensions → q.2 < dimensions → cellLt q p →
    ¬ (board q.1 q.2 ≠ '.' ∧ getHappiness dimensions board q.1 q.2 < ofInt strengthThreshold)

/-- The cell `v` is the row-major-last vacant cell of `board`. -/
def isLastVacant (dimensions : Nat) (board : Board) (v : Nat × Nat) : Prop :=
  (v.1 < dimensions ∧ v.2 < dimensions) ∧ board v.1 v.2 = '.' ∧
  ∀ q : Nat × Nat, q.1 < dimensions → q.2 < dimensions → cellLt v q → board q.1 q.2 ≠ '.'

/-- The values written by the loop of `populateBoard` into `n` successive cells, from the
counters `numVacant` and `numEndline`. -/
def populateValues : Int → Int → Nat → List Char
  | _, _, 0 => []
  | numVacant, numEndline, n + 1 =>
    if numVacant > 0 then '.' :: populateValues (numVacant - 1) numEndline n
    else if numEndline > 0 then 'e' :: populateValues numVacant (numEndline - 1) n
    else 'n' :: populateValues numVacant numEndline n

/-- A block of `a` vacant cells, then `b` cells `e`, then `c` cells `n`. -/
def layout (a b c : Nat) : List Char :=
  List.replicate a '.' ++ List.replicate b 'e' ++ List.replicate c 'n'

/-- Scenario C: only `e` agents, one vacant cell at `(2,2)`. -/
def scenarioC : Board := fun i j => if i = 2 ∧ j = 2 then '.' else 'e'

/-- Scenario D: `e` at `(0,0)`, the only vacancy at `(4,4)`, `n` elsewhere. -/
def scenarioD : Board := fun i j =>
  if i = 0 ∧ j = 0 then 'e' else if i = 4 ∧ j = 4 then '.' else 'n'

/-- The variables of `getBoardHappiness` that its loop changes. -/
structure HappinessState where
  totalHappiness : Double
  numCounted : Int

/-- The body of the nested loop of `getBoardHappiness` at cell `p`. -/
def boardHappinessCell (dimensions : Nat) (board : Board) (st : HappinessState)
    (p : Nat × Nat) : HappinessState :=
  if board p.1 p.2 ≠ '.' then
    ⟨fadd st.totalHappiness (getHappiness dimensions board p.1 p.2), st.numCounted + 1⟩
  else st

/-- The state of `getBoardHappiness` after its nested loop. -/
def boardHappinessLoop (dimensions : Nat) (board : Board) : HappinessState :=
  (cells dimensions).foldl (boardHappinessCell dimensions board) ⟨ofInt 0, 0⟩

/-- `getBoardHappiness`: `(totalHappiness / numCounted) / 100.0`. -/
def getBoardHappiness (dimensions : Nat) (board : Board) : Double :=
  let st := boardHappinessLoop dimensions board
  fdiv (fdiv st.totalHappiness (ofInt st.numCounted)) (ofInt 100)

/-- The cells `(r, c)` with `G[r][c] ≠ Vacant`, in row-major order. -/
def agents (D : Nat) (G : Board) : List (Nat × Nat) :=
  (cells D).filter fun p => G p.1 p.2 ≠ '.'

/-- The sum of the happiness of the agents, added up in binary64 in row-major order. -/
def refSum (D : Nat) (G : Board) : Double :=
  ((agents D G).map fun p => getHappiness D G p.1 p.2).foldl fadd (ofInt 0)

/-- The mean happiness of the spec: the sum of `getHappiness` over the agents, divided by
the number of agents, divided by 100 (in binary64). -/
def refBoardHappiness (D : Nat) (G : Board) : Double :=
  fdiv (fdiv (refSum D G) (ofInt (agents D G).length)) (ofInt 100)

/-- The neighbour cells that the eight checks of `getHappiness` read at `(row, col)`: a
check reads its cell only when its guard holds (`&&` evaluates its right operand only then).
The order is the order of the checks in the source. -/
def inspectedNeighbors (dimensions row col : Nat) : List (Nat × Nat) :=
  (if row > 0 then [(row - 1, col)] else []) ++
  (if col > 0 then [(row, col - 1)] else []) ++
  (if row < dimensions - 1 then [(row + 1, col)] else []) ++
  (if col < dimensions - 1 then [(row, col + 1)] else []) ++
  (if row > 0 ∧ col > 0 then [(row - 1, col - 1)] else []) ++
  (if row > 0 ∧ col < dimensions - 1 then [(row - 1, col + 1)] else []) ++
  (if row < dimensions - 1 ∧ col > 0 then [(row + 1, col - 1)] else []) ++
  (if row < dimensions - 1 ∧ col < dimensions - 1 then [(row + 1, col + 1)] else [])

/-- All the cells `getHappiness` reads at `(row, col)`: the cell itself (for `current`),
then the inspected neighbours. -/
def readCells (dimensions row col : Nat) : List (Nat × Nat) :=
  (row, col) :: inspectedNeighbors dimensions row col

/-- The cell `(r, c)` is a corner of the grid of side `D`. -/
def isCorner (D r c : Nat) : Prop := (r = 0 ∨ r = D - 1) ∧ (c = 0 ∨ c = D - 1)

/-- The cell `(r, c)` is on an edge of the grid of side `D` and is not a corner. -/
def isEdge (D r c : Nat) : Prop :=
  ((r = 0 ∨ r = D - 1) ∧ (0 < c ∧ c < D - 1)) ∨ ((0 < r ∧ r < D - 1) ∧ (c = 0 ∨ c = D - 1))

/-- The cell `(r, c)` is in the interior of the grid of side `D`. -/
def isInterior (D r c : Nat) : Prop := (0 < r ∧ r < D - 1) ∧ (0 < c ∧ c < D - 1)

/-- The cell `q` is adjacent to `(r, c)`, orthogonally or diagonally. -/
def adjacent (r c : Nat) (q : Nat × Nat) : Prop :=
  q ≠ (r, c) ∧ (q.1 ≤ r + 1 ∧ r ≤ q.1 + 1) ∧ (q.2 ≤ c + 1 ∧ c ≤ q.2 + 1)

/-- Scenario B: a single `e` at `(2,2)`, every other cell vacant. -/
def scenarioB : Board := fun i j => if i = 2 ∧ j = 2 then 'e' else '.'

/-! ## bracetopia.c -/

/-- The arguments of one call of `printModePrint` that change from call to call: what a
snapshot shows. -/
structure Snapshot where
  board : Board
  cycle : Int
  moves : Int
  happiness : Double

/-- The variables of `main` that the loop of print mode changes. -/
structure DriverState where
  board : Board
  moves : Int
  happiness : Double

/-- The loop `for (...; cycle <= numCycles; cycle++)` of print mode from the value `cycle`:
each iteration prints the board with `cycle`, `moves` and `happiness`, then calls
`gameMove` and `getBoardHappiness`, then increments `cycle`.  The result is the list of
the snapshots printed.  The first argument is the fuel: a bound on the number of
evaluations of the loop test. -/
def printModeLoop (dimensions : Nat) (strengthThreshold numCycles : Int) :
    Nat → DriverState → Int → Except Fault (List Snapshot)
  | 0, _, _ => Except.error Fault.outOfFuel
  | fuel + 1, st, cycle =>
    if cycle ≤ numCycles then
      match intIncr cycle with
      | none => Except.error Fault.intOverflow
      | some next =>
        match printModeLoop dimensions strengthThreshold numCycles fuel
            ⟨(gameMove dimensions st.board strengthThreshold).board,
              (gameMove dimensions st.board strengthThreshold).numMoves,
              getBoardHappiness dimensions
                (gameMove dimensions st.board strengthThreshold).board⟩ next with
        | Except.ok rest => Except.ok (⟨st.board, cycle, st.moves, st.happiness⟩ :: rest)
        | Except.error e => Except.error e
    else Except.ok []

/-- Print mode of `main` from the shuffled board: `moves = 0`, `happiness =
getBoardHappiness(board)`, then `for (cycle = 0; cycle <= numCycles; cycle++)`.  The fuel
`numCycles + 2` is enough for every run of the loop. -/
def printMode (dimensions : Nat) (strengthThreshold : Int) (numCycles : Int)
    (board : Board) : Except Fault (List Snapshot) :=
  printModeLoop dimensions strengthThreshold numCycles (numCycles + 2).toNat
    ⟨board, 0, getBoardHappiness dimensions board⟩ 0

/-- The move count the spec gives to the snapshot `k`: 0 for `k = 0`, else the value
returned by the `k`-th application of `gameMove`. -/
def refMoves (D : Nat) (T : Int) (G0 : Board) (k : Nat) : Int :=
  match k with
  | 0 => 0
  | j + 1 => (gameMove D (cycles D T j G0) T).numMoves

/-- `EXIT_SUCCESS` of `stdlib.h`. -/
def EXIT_SUCCESS : Int := 0

/-- `EXIT_FAILURE` of `stdlib.h`. -/
def EXIT_FAILURE : Int := 1

/-- The configuration variables of `main` that the options set. -/
structure Config where
  time : Int
  infiniteMode : Int
  numCycles : Int
  dimensions : Int
  strengthThreshold : Int
  vacant : Int
  endline : Int

/-- The values of the configuration variables before the options are read (`numCycles`
is not initialised by `main`). -/
def initialConfig (numCycles : Int) : Config := ⟨900000, 1, numCycles, 15, 50, 20, 60⟩

/-- The `switch` of `main` on one option `opt`, `temp` being the value
`(int)strtol(optarg, NULL, 10)`: `error code` when the case returns `code` from `main`,
`ok` with the updated variables when it ends in `break`. -/
def handleOption (opt : Char) (temp : Int) (cfg : Config) : Except Int Config :=
  if opt = 'h' then Except.error EXIT_SUCCESS
  else if opt = 't' then
    if temp > 0 then
      Except.ok ⟨temp, cfg.infiniteMode, cfg.numCycles, cfg.dimensions, cfg.strengthThreshold,
        cfg.vacant, cfg.endline⟩
    else Except.ok cfg
  else if opt = 'c' then
    if temp ≥ 0 then
      Except.ok ⟨cfg.time, 0, temp, cfg.dimensions, cfg.strengthThreshold, cfg.vacant,
        cfg.endline⟩
    else Except.error (1 + EXIT_FAILURE)
  else if opt = 'd' then
    if temp ≥ 5 ∧ temp ≤ 39 then
      Except.ok ⟨cfg.time, cfg.infiniteMode, cfg.numCycles, temp, cfg.strengthThreshold,
        cfg.vacant, cfg.endline⟩
    else Except.error (1 + EXIT_FAILURE)
  else if opt = 's' then
    if temp > 0 ∧ temp < 100 then
      Except.ok ⟨cfg.time, cfg.infiniteMode, cfg.numCycles, cfg.dimensions, temp, cfg.vacant,
        cfg.endline⟩
    else Except.error (1 + EXIT_SUCCESS)
  else if opt = 'v' then
    if temp > 0 ∧ temp < 100 then
      Except.ok ⟨cfg.time, cfg.infiniteMode, cfg.numCycles, cfg.dimensions,
        cfg.strengthThreshold, temp, cfg.endline⟩
    else Except.error (1 + EXIT_FAILURE)
  else if opt = 'e' then
    if temp > 0 ∧ temp < 100 then
      Except.ok ⟨cfg.time, cfg.infiniteMode, cfg.numCycles, cfg.dimensions,
        cfg.strengthThreshold, cfg.vacant, temp⟩
    else Except.error (1 + EXIT_FAILURE)
  else Except.error EXIT_FAILURE

/-- The `while` loop of `main` over the options that `getopt` returns, in order. -/
def handleOptions : List (Char × Int) → Config → Except Int Config
  | [], cfg => Except.ok cfg
  | (opt, temp) :: rest, cfg =>
    match handleOption opt temp cfg with
    | Except.error code => Except.error code
    | Except.ok cfg2 => handleOptions rest cfg2

/-- A board of side 5 whose 25 cells hold the distinct letters `a` to `y` in row-major
order. -/
def lettersBoard : Board := fun i j => Char.ofNat (97 + 5 * i + j)

/-- The arrangement of `lettersBoard` in which the last two cells, `(4,3)` and `(4,4)`,
are exchanged and every other cell is in place. -/
def lettersSwapped : Board := fun i j =>
  if i = 4 ∧ j = 3 then 'y' else if i = 4 ∧ j = 4 then 'x' else lettersBoard i j

/-! ## Logs, variants and measures used by the later theorems -/

/-- The index `swapIndex` that iteration `i` of `shuffle` computes from the value `r`
returned by `random()`. -/
def swapIndex (dimensions i r : Nat) : Nat := r % (dimensions * dimensions - i) + i

/-- The loop of `shuffle` with a log: next to the board, the pair `(i, swapIndex)` of every
iteration the loop runs, in the order they run.  The bound `dimensions * dimensions - 2` is
an `int` expression: the run is undefined (`none`) when the product overflows. -/
def shuffleLogged (dimensions : Nat) (board : Board) (random : Nat → Nat) :
    Option (Board × List (Nat × Nat)) :=
  match intMul dimensions dimensions with
  | none => none
  | some total =>
    some ((List.range (total - 2).toNat).foldl
      (fun st i => (shuffleStep dimensions st.1 i (random i),
        st.2 ++ [(i, swapIndex dimensions i (random i))]))
      (board, []))

/-- The in-grid cells at which two boards differ. -/
def diffCells (dimensions : Nat) (b1 b2 : Board) : List (Nat × Nat) :=
  (cells dimensions).filter fun q => b1 q.1 q.2 ≠ b2 q.1 q.2

/-- The loop body of `gameMove` with the guard `tempBoard[i][j] != '.'` only, the test
`tempBoard[i][j] == board[i][j]` being left out. -/
def gameMoveCellUnguarded (dimensions : Nat) (tempBoard : Board) (strengthThreshold : Int)
    (st : MoveState) (p : Nat × Nat) : MoveState :=
  if tempBoard p.1 p.2 ≠ '.' then
    let happiness : Int := toInt (getHappiness dimensions tempBoard p.1 p.2)
    if happiness < strengthThreshold then
      let r := moveAgent dimensions st.board tempBoard p.1 p.2 st.first
      if r.2 ≠ 0 then ⟨r.1, st.numMoves + 1, (st.first + 1) % 2⟩
      else ⟨r.1, st.numMoves, st.first⟩
    else st
  else st

/-- The variant of `gameMove` whose loop body is `gameMoveCellUnguarded`. -/
def gameMoveUnguarded (dimensions : Nat) (board : Board) (strengthThreshold : Int) :
    MoveState :=
  let tempBoard : Board := fun i j => board i j
  (cells dimensions).foldl (gameMoveCellUnguarded dimensions tempBoard strengthThreshold)
    ⟨board, 0, 0⟩

/-- The agents of `board` whose happiness in `board` is below the threshold, in row-major
order. -/
def unhappy (dimensions : Nat) (board : Board) (strengthThreshold : Int) :
    List (Nat × Nat) :=
  (cells dimensions).filter fun q =>
    board q.1 q.2 ≠ '.' ∧ getHappiness dimensions board q.1 q.2 < ofInt strengthThreshold

/-- The board that holds `k` in every cell. -/
def fullBoard (k : Char) : Board := fun _ _ => k

/-! ## Lemmas on cells and boards -/

theorem mem_cells {D : Nat} {p : Nat × Nat} : p ∈ cells D ↔ p.1 < D ∧ p.2 < D := by
  obtain ⟨a, b⟩ := p
  simp only [cells, List.mem_flatMap, List.mem_map, List.mem_range, Prod.mk.injEq]
  constructor
  · rintro ⟨i, hi, j, hj, rfl, rfl⟩
    exact ⟨hi, hj⟩
  · rintro ⟨hi, hj⟩
    exact ⟨a, hi, b, hj, rfl, rfl⟩

theorem cells_pairwise (D : Nat) : (cells D).Pairwise cellLt := by
  unfold cells
  rw [List.pairwise_flatMap]
  constructor
  · intro i _
    rw [List.pairwise_map]
    exact (List.pairwise_lt_range D).imp fun h => Or.inr ⟨rfl, h⟩
  · refine (List.pairwise_lt_range D).imp ?_
    intro i i2 h x hx y hy
    simp only [List.mem_map] at hx hy
    obtain ⟨_, _, rfl⟩ := hx
    obtain ⟨_, _, rfl⟩ := hy
    exact Or.inl h

theorem cellLt_irrefl (p : Nat × Nat) : ¬ cellLt p p := by
  unfold cellLt
  omega

theorem cellLt_asymm {p q : Nat × Nat} (h : cellLt p q) : ¬ cellLt q p := by
  unfold cellLt at *
  omega

theorem cells_nodup (D : Nat) : (cells D).Nodup := by
  refine (cells_pairwise D).imp ?_
  intro a b h e
  subst e
  exact cellLt_irrefl _ h

theorem cellsRev_eq (D : Nat) : cellsRev D = (cells D).reverse := by
  unfold cellsRev cells
  rw [List.reverse_flatMap]
  congr 1
  funext i
  simp [List.map_reverse]

theorem Board.set_same (b : Board) (i j : Nat) (v : Char) : b.set i j v i j = v := by
  simp [Board.set]

theorem Board.set_other (b : Board) {i j r c : Nat} (v : Char) (h : (r, c) ≠ (i, j)) :
    b.set i j v r c = b r c := by
  unfold Board.set
  rw [if_neg]
  rintro ⟨rfl, rfl⟩
  exact h rfl

/-- Exchanging the contents of two cells of a duplicate-free list of cells does not change
how many of its cells hold `k`. -/
theorem countP_swap (l : List (Nat × Nat)) (hl : l.Nodup) (b : Board) (x y : Nat × Nat)
    (hx : x ∈ l) (hy : y ∈ l) (k : Char) :
    l.countP (fun c => ((b.set x.1 x.2 (b y.1 y.2)).set y.1 y.2 (b x.1 x.2)) c.1 c.2 = k)
      = l.countP (fun c => b c.1 c.2 = k) := by
  have hfun : (fun c : Nat × Nat =>
      decide (((b.set x.1 x.2 (b y.1 y.2)).set y.1 y.2 (b x.1 x.2)) c.1 c.2 = k))
      = (fun c : Nat × Nat => decide (b c.1 c.2 = k)) ∘ (Equiv.swap x y) := by
    funext c
    simp only [Function.comp]
    by_cases hcy : c = y
    · subst hcy
      simp [Equiv.swap_apply_right, Board.set_same]
    · by_cases hcx : c = x
      · subst hcx
        rw [Board.set_other _ _ hcy]
        simp [Equiv.swap_apply_left, Board.set_same]
      · rw [Board.set_other _ _ hcy, Board.set_other _ _ hcx,
          Equiv.swap_apply_of_ne_of_ne hcx hcy]
  rw [hfun, ← List.countP_map]
  apply List.Perm.countP_eq
  rw [List.perm_ext_iff_of_nodup (hl.map (Equiv.swap x y).injective) hl]
  intro c
  rw [List.mem_map]
  constructor
  · rintro ⟨a, ha, rfl⟩
    by_cases hax : a = x
    · subst hax
      rwa [Equiv.swap_apply_left]
    · by_cases hay : a = y
      · subst hay
        rwa [Equiv.swap_apply_right]
      · rwa [Equiv.swap_apply_of_ne_of_ne hax hay]
  · intro hc
    refine ⟨Equiv.swap x y c, ?_, by simp⟩
    by_cases hax : c = x
    · subst hax
      rwa [Equiv.swap_apply_left]
    · by_cases hay : c = y
      · subst hay
        rwa [Equiv.swap_apply_right]
      · rwa [Equiv.swap_apply_of_ne_of_ne hax hay]

/-! ## The loop body of gameMove -/

theorem findVacant_some {D : Nat} {board temp : Board} {first : Int} {d : Nat × Nat}
    (h : findVacant D board temp first = some d) :
    d ∈ cells D ∧ temp d.1 d.2 = '.' ∧ board d.1 d.2 = '.' := by
  unfold findVacant at h
  split at h
  · have h1 := List.find?_some h
    have h2 := List.mem_of_find?_eq_some h
    simp only [decide_eq_true_eq] at h1
    exact ⟨h2, h1⟩
  · have h1 := List.find?_some h
    have h2 := List.mem_of_find?_eq_some h
    simp only [decide_eq_true_eq] at h1
    rw [cellsRev_eq, List.mem_reverse] at h2
    exact ⟨h2, h1⟩

theorem moveAgent_none {D : Nat} {board temp : Board} {first : Int} (r c : Nat)
    (h : findVacant D board temp first = none) :
    moveAgent D board temp r c first = (board, 0) := by
  simp [moveAgent, h]

theorem moveAgent_some {D : Nat} {board temp : Board} {first : Int} (r c : Nat)
    {d : Nat × Nat} (h : findVacant D board temp first = some d) :
    moveAgent D board temp r c first
      = ((board.set d.1 d.2 (board r c)).set r c '.', 1) := by
  obtain ⟨i, j⟩ := d
  simp [moveAgent, h]

theorem gameMoveCell_none {D : Nat} {temp : Board} {T : Int} {st : MoveState}
    {p : Nat × Nat} (h : relocation D temp T st p = none) :
    gameMoveCell D temp T st p = st := by
  unfold relocation at h
  unfold gameMoveCell
  by_cases h1 : temp p.1 p.2 ≠ '.' ∧ temp p.1 p.2 = st.board p.1 p.2
  · by_cases h2 : toInt (getHappiness D temp p.1 p.2) < T
    · rw [if_pos ⟨h1, h2⟩] at h
      rw [if_pos h1]
      simp only [h2, if_true, moveAgent_none p.1 p.2 h]
      rfl
    · rw [if_pos h1]
      simp only [h2, if_false]
  · rw [if_neg h1]

theorem gameMoveCell_some {D : Nat} {temp : Board} {T : Int} {st : MoveState}
    {p d : Nat × Nat} (h : relocation D temp T st p = some d) :
    gameMoveCell D temp T st p
      = ⟨(st.board.set d.1 d.2 (st.board p.1 p.2)).set p.1 p.2 '.', st.numMoves + 1,
          (st.first + 1) % 2⟩ := by
  unfold relocation at h
  unfold gameMoveCell
  split at h
  · rename_i hg
    rw [if_pos hg.1]
    simp only [hg.2, if_true, moveAgent_some p.1 p.2 h]
    rfl
  · exact absurd h (by simp)

/-- What is known when the loop body relocates the agent at `p` to `d`. -/
theorem relocation_some {D : Nat} {temp : Board} {T : Int} {st : MoveState}
    {p d : Nat × Nat} (h : relocation D temp T st p = some d) :
    (temp p.1 p.2 ≠ '.' ∧ temp p.1 p.2 = st.board p.1 p.2) ∧
      toInt (getHappiness D temp p.1 p.2) < T ∧
      findVacant D st.board temp st.first = some d := by
  unfold relocation at h
  split at h
  · rename_i hg
    exact ⟨hg.1, hg.2, h⟩
  · exact absurd h (by simp)

theorem gameMoveLoop_cons (D : Nat) (temp : Board) (T : Int) (st : MoveState)
    (p : Nat × Nat) (l : List (Nat × Nat)) :
    gameMoveLoop D temp T st (p :: l) = gameMoveLoop D temp T (gameMoveCell D temp T st p) l :=
  rfl

theorem gameMoveLoop_append (D : Nat) (temp : Board) (T : Int) (st : MoveState)
    (l1 l2 : List (Nat × Nat)) :
    gameMoveLoop D temp T st (l1 ++ l2) = gameMoveLoop D temp T (gameMoveLoop D temp T st l1) l2 := by
  simp [gameMoveLoop, List.foldl_append]

/-! ## Conservation -/

theorem gameMoveCell_countKind (D : Nat) (temp : Board) (T : Int) (st : MoveState)
    (p : Nat × Nat) (hp : p ∈ cells D) (k : Char) :
    countKind D (gameMoveCell D temp T st p).board k = countKind D st.board k := by
  cases h : relocation D temp T st p with
  | none => rw [gameMoveCell_none h]
  | some d =>
    rw [gameMoveCell_some h]
    obtain ⟨_, _, hf⟩ := relocation_some h
    obtain ⟨hd, _, hbd⟩ := findVacant_some hf
    have := countP_swap (cells D) (cells_nodup D) st.board d p hd hp k
    rw [hbd] at this
    exact this

theorem gameMoveLoop_countKind (D : Nat) (temp : Board) (T : Int) (l : List (Nat × Nat))
    (hl : ∀ p ∈ l, p ∈ cells D) (k : Char) (st : MoveState) :
    countKind D (gameMoveLoop D temp T st l).board k = countKind D st.board k := by
  induction l generalizing st with
  | nil => rfl
  | cons p l ih =>
    rw [gameMoveLoop_cons, ih (fun q hq => hl q (List.mem_cons_of_mem _ hq)),
      gameMoveCell_countKind D temp T st p (hl p (List.mem_cons_self _ _))]

theorem gameMove_countKind (D : Nat) (G : Board) (T : Int) (k : Char) :
    countKind D (gameMove D G T).board k = countKind D G k :=
  gameMoveLoop_countKind D _ T (cells D) (fun _ h => h) k _

theorem cycles_countKind (D : Nat) (T : Int) (k : Char) (t : Nat) (G : Board) :
    countKind D (cycles D T t G) k = countKind D G k := by
  induction t generalizing G with
  | zero => rfl
  | succ t ih =>
    unfold cycles at ih ⊢
    rw [Function.iterate_succ_apply, ih, gameMove_countKind]

/-- C1. Conservation: after any number `t` of cycles of `gameMove`, the numbers of vacant
cells, of `e` cells and of `n` cells of the board are the ones of the initial board. -/
theorem C1_conservation (D : Nat) (G : Board) (T : Int) (t : Nat) :
    countKind D (cycles D T t G) '.' = countKind D G '.' ∧
    countKind D (cycles D T t G) 'e' = countKind D G 'e' ∧
    countKind D (cycles D T t G) 'n' = countKind D G 'n' :=
  ⟨cycles_countKind D T '.' t G, cycles_countKind D T 'e' t G, cycles_countKind D T 'n' t G⟩

/-! ## Binary64 rounding: bounds -/

theorem bitLenAux_zero (fuel : Nat) : bitLenAux fuel 0 = 0 := by
  cases fuel <;> simp [bitLenAux]

theorem two_pow_bitLenAux_le (fuel : Nat) : ∀ x : Nat, x ≠ 0 → 2 ^ (bitLenAux fuel x - 1) ≤ x := by
  induction fuel with
  | zero =>
    intro x hx
    simp only [bitLenAux, Nat.zero_sub, pow_zero]
    omega
  | succ f ih =>
    intro x hx
    simp only [bitLenAux, if_neg hx, Nat.add_sub_cancel]
    by_cases h2 : x / 2 = 0
    · rw [h2, bitLenAux_zero, pow_zero]
      omega
    · have h := ih (x / 2) h2
      by_cases hb : bitLenAux f (x / 2) = 0
      · rw [hb, pow_zero]
        omega
      · have e : bitLenAux f (x / 2) = (bitLenAux f (x / 2) - 1) + 1 := by omega
        rw [e, pow_succ]
        generalize 2 ^ (bitLenAux f (x / 2) - 1) = y at h
        omega

theorem lt_two_pow_bitLenAux (fuel : Nat) : ∀ x : Nat, x ≤ fuel → x < 2 ^ bitLenAux fuel x := by
  induction fuel with
  | zero =>
    intro x hx
    simp only [bitLenAux, pow_zero]
    omega
  | succ f ih =>
    intro x hx
    by_cases h0 : x = 0
    · rw [h0]
      positivity
    · simp only [bitLenAux, if_neg h0]
      have h := ih (x / 2) (by omega)
      rw [pow_succ]
      generalize 2 ^ bitLenAux f (x / 2) = y at h
      omega

/-- The bit length brackets its argument: `2^(bitLen x - 1) ≤ x < 2^(bitLen x)`. -/
theorem lt_two_pow_bitLen (x : Nat) : x < 2 ^ bitLen x :=
  lt_two_pow_bitLenAux x x (Nat.le_refl x)

theorem bitLen_zero : bitLen 0 = 0 := rfl

theorem two_pow_bitLen_le {x : Nat} (hx : x ≠ 0) : 2 ^ (bitLen x - 1) ≤ x :=
  two_pow_bitLenAux_le x x hx

theorem scale_eq : scale = 2 ^ 1074 := by
  have h : ∀ n, (1 <<< n : Nat) = 2 ^ n := Nat.one_shiftLeft
  exact h 1074

theorem scale_pos : 0 < scale := by
  rw [scale_eq]
  positivity

/-- The two possible results of `roundNat`: the quotient rounded down, or rounded up when
the remainder is at least half of the divisor. -/
theorem roundNat_cases (n d : Nat) :
    roundNat n d = n / (d * 2 ^ (bitLen (n / d) - 53)) * 2 ^ (bitLen (n / d) - 53) ∨
    (roundNat n d = (n / (d * 2 ^ (bitLen (n / d) - 53)) + 1) * 2 ^ (bitLen (n / d) - 53) ∧
      d * 2 ^ (bitLen (n / d) - 53) ≤ 2 * (n % (d * 2 ^ (bitLen (n / d) - 53)))) := by
  unfold roundNat
  simp only [Nat.shiftLeft_eq, one_mul]
  split_ifs with h1 h2 h3
  · exact Or.inl rfl
  · exact Or.inr ⟨rfl, by omega⟩
  · exact Or.inl rfl
  · exact Or.inr ⟨rfl, by omega⟩

/-- Rounding never crosses an integer value below `2^53`: if `n / d ≤ m` (in units, `m` an
integer that binary64 represents exactly) then the rounded quotient is at most `m`. -/
theorem roundNat_le (n d m : Nat) (hd : 0 < d) (hm : m < 2 ^ 53) (h : n ≤ m * scale * d) :
    roundNat n d ≤ m * scale := by
  have hx : n / d ≤ m * scale := by
    apply Nat.div_le_of_le_mul
    rw [Nat.mul_comm]
    exact h
  have hs : bitLen (n / d) - 53 ≤ 1074 := by
    by_contra hlt
    push_neg at hlt
    have hx0 : n / d ≠ 0 := by
      intro h0
      rw [h0, bitLen_zero] at hlt
      omega
    have h1 := two_pow_bitLen_le hx0
    have hmono : ∀ a b : Nat, a ≤ b → (2 : Nat) ^ a ≤ 2 ^ b :=
      fun a b hab => Nat.pow_le_pow_right (by norm_num) hab
    have h2 : 2 ^ 1127 ≤ 2 ^ (bitLen (n / d) - 1) := hmono 1127 _ (by omega)
    have h3 : m * scale < 2 ^ 53 * 2 ^ 1074 := by
      rw [scale_eq]
      exact Nat.mul_lt_mul_of_pos_right hm (by positivity)
    have hadd : ∀ a b c : Nat, a + b = c → (2 : Nat) ^ a * 2 ^ b = 2 ^ c := by
      intro a b c e
      rw [← e, pow_add]
    have h4 : (2 : Nat) ^ 53 * 2 ^ 1074 = 2 ^ 1127 := hadd 53 1074 1127 rfl
    have h5 : (2 : Nat) ^ 1127 < 2 ^ 1127 :=
      calc (2 : Nat) ^ 1127 ≤ 2 ^ (bitLen (n / d) - 1) := h2
        _ ≤ n / d := h1
        _ ≤ m * scale := hx
        _ < 2 ^ 53 * 2 ^ 1074 := h3
        _ = 2 ^ 1127 := h4
    exact lt_irrefl _ h5
  have hc := roundNat_cases n d
  generalize bitLen (n / d) - 53 = s at hs hc
  have hB : m * scale = m * 2 ^ (1074 - s) * 2 ^ s := by
    rw [mul_assoc, ← pow_add, scale_eq]
    congr 2
    omega
  have hu : 0 < 2 ^ s := by positivity
  have hdu : 0 < d * 2 ^ s := Nat.mul_pos hd hu
  have hn : n ≤ d * 2 ^ s * (m * 2 ^ (1074 - s)) := by
    calc n ≤ m * scale * d := h
      _ = d * 2 ^ s * (m * 2 ^ (1074 - s)) := by rw [hB]; ring
  have hq : n / (d * 2 ^ s) ≤ m * 2 ^ (1074 - s) := Nat.div_le_of_le_mul hn
  rcases hc with h1 | ⟨h1, h2⟩
  · rw [h1, hB]
    exact Nat.mul_le_mul_right _ hq
  · rw [h1, hB]
    apply Nat.mul_le_mul_right
    by_contra hcon
    have hge : m * 2 ^ (1074 - s) ≤ n / (d * 2 ^ s) := by omega
    have hmul := Nat.mul_le_mul_left (d * 2 ^ s) hge
    have hdm := Nat.div_add_mod n (d * 2 ^ s)
    have hr : n % (d * 2 ^ s) = 0 := by omega
    rw [hr] at h2
    omega

theorem round_nonneg (num den : Int) (h : 0 ≤ num * den) : 0 ≤ (round num den).units := by
  unfold round
  rw [if_pos h]
  exact Int.natCast_nonneg _

theorem round_le (num den : Int) (m : Nat) (h0 : 0 ≤ num) (hd : 0 < den) (hm : m < 2 ^ 53)
    (h : num ≤ m * scale * den) : round num den ≤ ofInt m := by
  unfold round
  rw [if_pos (Int.mul_nonneg h0 hd.le)]
  show ((roundNat num.natAbs den.natAbs : Nat) : Int) ≤ (m : Int) * (scale : Int)
  have key : roundNat num.natAbs den.natAbs ≤ m * scale := by
    apply roundNat_le _ _ _ (by omega) hm
    have e1 : (num.natAbs : Int) = num := Int.natAbs_of_nonneg h0
    have e2 : (den.natAbs : Int) = den := Int.natAbs_of_nonneg hd.le
    rw [← e1, ← e2] at h
    exact_mod_cast h
  exact_mod_cast key

/-! ## getHappiness against its reference definition -/

theorem checkNeighbor_eq (g : Prop) [Decidable g] (cell current : Char) (st : Nat × Nat) :
    checkNeighbor (decide g) cell current st
      = (st.1 + (if g ∧ (cell ≠ '.' ∧ cell = current) then 1 else 0),
         st.2 + (if g ∧ cell ≠ '.' then 1 else 0)) := by
  unfold checkNeighbor
  by_cases hg : g
  · by_cases hc : cell = '.'
    · simp [hg, hc]
    · by_cases he : cell = current
      · rw [if_pos ⟨by simpa using hg, hc⟩, if_pos he, if_pos ⟨hg, hc, he⟩, if_pos ⟨hg, hc⟩]
      · rw [if_pos ⟨by simpa using hg, hc⟩, if_neg he, if_neg (fun h => he h.2.2),
          if_pos ⟨hg, hc⟩]
        rfl
  · simp [hg]

theorem countP_map_filter_cons {α β : Type} (P : β → Prop) [DecidablePred P] (f : α → β)
    (G : α → Prop) [DecidablePred G] (o : α) (l : List α) :
    (((o :: l).filter fun x => G x).map f).countP (fun q => P q)
      = (if G o ∧ P (f o) then 1 else 0) + ((l.filter fun x => G x).map f).countP fun q => P q := by
  by_cases hg : G o <;> by_cases hp : P (f o) <;>
    simp [List.filter_cons, hg, hp, List.countP_cons, Nat.add_comm]

/-- One of the eight checks of the source against the corresponding offset. -/
theorem indicator_eq (D r c : Nat) (b : Board) (P : Char → Prop) [DecidablePred P]
    (o : Int × Int) (g : Prop) [Decidable g] (r2 c2 : Nat)
    (hg : g ↔ inGrid D (r + o.1) (c + o.2))
    (hr : g → ((r : Int) + o.1).toNat = r2) (hc : g → ((c : Int) + o.2).toNat = c2) :
    (if inGrid D (r + o.1) (c + o.2) ∧ P (b ((r : Int) + o.1).toNat ((c : Int) + o.2).toNat)
      then 1 else 0) = (if g ∧ P (b r2 c2) then 1 else 0) := by
  by_cases h : g
  · rw [hr h, hc h]
    simp [h, hg.mp h]
  · have h2 : ¬ inGrid D (r + o.1) (c + o.2) := fun h3 => h (hg.mpr h3)
    simp [h, h2]

/-- The count of the in-grid Moore neighbours whose content satisfies `P`, as the sum of
the eight guarded checks of the source. -/
theorem countP_mooreNeighbors (D r c : Nat) (b : Board) (P : Char → Prop) [DecidablePred P]
    (hr : r < D) (hc : c < D) :
    (mooreNeighbors D r c).countP (fun q => P (b q.1 q.2))
      = (if r > 0 ∧ P (b (r - 1) c) then 1 else 0)
        + (if c > 0 ∧ P (b r (c - 1)) then 1 else 0)
        + (if r < D - 1 ∧ P (b (r + 1) c) then 1 else 0)
        + (if c < D - 1 ∧ P (b r (c + 1)) then 1 else 0)
        + (if (r > 0 ∧ c > 0) ∧ P (b (r - 1) (c - 1)) then 1 else 0)
        + (if (r > 0 ∧ c < D - 1) ∧ P (b (r - 1) (c + 1)) then 1 else 0)
        + (if (r < D - 1 ∧ c > 0) ∧ P (b (r + 1) (c - 1)) then 1 else 0)
        + (if (r < D - 1 ∧ c < D - 1) ∧ P (b (r + 1) (c + 1)) then 1 else 0) := by
  have hperm : mooreOffsets.Perm sourceOffsets := by decide
  have h1 : (mooreNeighbors D r c).countP (fun q => P (b q.1 q.2))
      = ((sourceOffsets.filter fun o => inGrid D (r + o.1) (c + o.2)).map
          fun o => (((r : Int) + o.1).toNat, ((c : Int) + o.2).toNat)).countP
            (fun q => P (b q.1 q.2)) :=
    List.Perm.countP_eq _ ((hperm.filter _).map _)
  rw [h1]
  unfold sourceOffsets
  simp only [countP_map_filter_cons (fun q : Nat × Nat => P (b q.1 q.2))
    (fun o : Int × Int => (((r : Int) + o.1).toNat, ((c : Int) + o.2).toNat))
    (fun o : Int × Int => inGrid D (r + o.1) (c + o.2))]
  simp only [List.filter_nil, List.map_nil, List.countP_nil, Nat.add_zero]
  rw [indicator_eq D r c b P (-1, 0) (r > 0) (r - 1) c
        (by unfold inGrid; simp only; omega) (by simp only; omega) (by simp only; omega),
    indicator_eq D r c b P (0, -1) (c > 0) r (c - 1)
        (by unfold inGrid; simp only; omega) (by simp only; omega) (by simp only; omega),
    indicator_eq D r c b P (1, 0) (r < D - 1) (r + 1) c
        (by unfold inGrid; simp only; omega) (by simp only; omega) (by simp only; omega),
    indicator_eq D r c b P (0, 1) (c < D - 1) r (c + 1)
        (by unfold inGrid; simp only; omega) (by simp only; omega) (by simp only; omega),
    indicator_eq D r c b P (-1, -1) (r > 0 ∧ c > 0) (r - 1) (c - 1)
        (by unfold inGrid; simp only; omega) (by simp only; omega) (by simp only; omega),
    indicator_eq D r c b P (-1, 1) (r > 0 ∧ c < D - 1) (r - 1) (c + 1)
        (by unfold inGrid; simp only; omega) (by simp only; omega) (by simp only; omega),
    indicator_eq D r c b P (1, -1) (r < D - 1 ∧ c > 0) (r + 1) (c - 1)
        (by unfold inGrid; simp only; omega) (by simp only; omega) (by simp only; omega),
    indicator_eq D r c b P (1, 1) (r < D - 1 ∧ c < D - 1) (r + 1) (c + 1)
        (by unfold inGrid; simp only; omega) (by simp only; omega) (by simp only; omega)]
  omega

theorem neighborCounts_eq (D : Nat) (b : Board) (r c : Nat) (hr : r < D) (hc : c < D) :
    neighborCounts D b r c = (refSame D b r c, refTotal D b r c) := by
  unfold neighborCounts refSame refTotal
  simp only [checkNeighbor_eq]
  rw [countP_mooreNeighbors D r c b (fun x => x ≠ '.' ∧ x = b r c) hr hc,
    countP_mooreNeighbors D r c b (fun x => x ≠ '.') hr hc]
  simp only [Nat.zero_add]

theorem refSame_le_refTotal (D : Nat) (b : Board) (r c : Nat) :
    refSame D b r c ≤ refTotal D b r c := by
  unfold refSame refTotal
  apply List.countP_mono_left
  intro q _ h
  simp only [decide_eq_true_eq] at h ⊢
  exact h.1

theorem ofInt_units (n : Int) : (ofInt n).units = n * scale := rfl

theorem scale_nonneg_int : (0 : Int) ≤ (scale : Int) := Int.natCast_nonneg _

theorem scale_pos_int : (0 : Int) < (scale : Int) := by
  exact_mod_cast scale_pos

theorem fdiv_ofInt_nonneg (S N : Nat) : 0 ≤ (fdiv (ofInt S) (ofInt N)).units := by
  unfold fdiv
  apply round_nonneg
  rw [ofInt_units, ofInt_units]
  have hs := scale_nonneg_int
  have hS : (0 : Int) ≤ (S : Int) := Int.natCast_nonneg _
  have hN : (0 : Int) ≤ (N : Int) := Int.natCast_nonneg _
  exact Int.mul_nonneg (Int.mul_nonneg (Int.mul_nonneg hS hs) hs) (Int.mul_nonneg hN hs)

theorem fdiv_ofInt_le_one (S N : Nat) (hN : 0 < N) (h : S ≤ N) :
    fdiv (ofInt S) (ofInt N) ≤ ofInt 1 := by
  unfold fdiv
  have hs := scale_nonneg_int
  have hS : (0 : Int) ≤ (S : Int) := Int.natCast_nonneg _
  have hN2 : (0 : Int) < (N : Int) := by exact_mod_cast hN
  have h2 : (S : Int) ≤ N := by exact_mod_cast h
  have h1 : ofInt 1 = ofInt ((1 : Nat) : Int) := rfl
  rw [h1, ofInt_units, ofInt_units]
  apply round_le _ _ 1 (Int.mul_nonneg (Int.mul_nonneg hS hs) hs)
    (Int.mul_pos hN2 scale_pos_int) (by norm_num)
  calc (S : Int) * scale * scale ≤ N * scale * scale := by
        apply Int.mul_le_mul_of_nonneg_right _ hs
        exact Int.mul_le_mul_of_nonneg_right h2 hs
    _ = ((1 : Nat) : Int) * scale * (N * scale) := by push_cast; ring

theorem fmul_hundred_le (x : Double) (h0 : 0 ≤ x.units) (h1 : x ≤ ofInt 1) :
    fmul x (ofInt 100) ≤ ofInt 100 := by
  unfold fmul
  have hs := scale_nonneg_int
  have e : ofInt 100 = ofInt ((100 : Nat) : Int) := rfl
  have hx : x.units ≤ 1 * scale := h1
  have h100 : (0 : Int) ≤ ((100 : Nat) : Int) * scale := Int.mul_nonneg (by norm_num) hs
  rw [e, ofInt_units]
  apply round_le _ _ 100 (Int.mul_nonneg h0 h100) scale_pos_int (by norm_num)
  calc x.units * (((100 : Nat) : Int) * scale) ≤ (1 * scale) * (((100 : Nat) : Int) * scale) :=
        Int.mul_le_mul_of_nonneg_right hx h100
    _ = ((100 : Nat) : Int) * scale * scale := by ring

theorem getHappiness_nonneg (D : Nat) (b : Board) (r c : Nat) :
    0 ≤ (getHappiness D b r c).units := by
  unfold getHappiness
  simp only
  split
  · unfold fmul
    apply round_nonneg
    have := fdiv_ofInt_nonneg (neighborCounts D b r c).1 (neighborCounts D b r c).2
    rw [ofInt_units]
    exact Int.mul_nonneg (Int.mul_nonneg this (Int.mul_nonneg (by norm_num) scale_nonneg_int))
      scale_nonneg_int
  · rw [ofInt_units]
    exact Int.mul_nonneg (by norm_num) scale_nonneg_int

/-- C2. For an in-grid agent cell `(r, c)`, with `N = refTotal` the number of non-vacant
in-grid Moore neighbours and `S = refSame` the number of those of the agent's kind,
`getHappiness` returns `100.0` when `N = 0` and `(S / N) * 100` otherwise, and the result
lies in `[0, 100]`. -/
theorem C2_getHappiness_reference (D : Nat) (b : Board) (r c : Nat) (hr : r < D) (hc : c < D)
    (_hk : b r c ≠ '.') :
    (refTotal D b r c = 0 → getHappiness D b r c = ofInt 100) ∧
    (refTotal D b r c ≠ 0 → getHappiness D b r c
      = fmul (fdiv (ofInt (refSame D b r c)) (ofInt (refTotal D b r c))) (ofInt 100)) ∧
    ofInt 0 ≤ getHappiness D b r c ∧ getHappiness D b r c ≤ ofInt 100 := by
  have hget : getHappiness D b r c
      = if refTotal D b r c > 0 then
          fmul (fdiv (ofInt (refSame D b r c)) (ofInt (refTotal D b r c))) (ofInt 100)
        else ofInt 100 := by
    unfold getHappiness
    simp only [neighborCounts_eq D b r c hr hc]
  refine ⟨?_, ?_, ?_, ?_⟩
  · intro h0
    rw [hget, if_neg (by omega)]
  · intro h0
    rw [hget, if_pos (by omega)]
  · have h := getHappiness_nonneg D b r c
    have e : (ofInt 0).units = 0 := by rw [ofInt_units, Int.zero_mul]
    show (ofInt 0).units ≤ (getHappiness D b r c).units
    rw [e]
    exact h
  · rw [hget]
    split
    · rename_i hpos
      exact fmul_hundred_le _ (fdiv_ofInt_nonneg _ _)
        (fdiv_ofInt_le_one _ _ hpos (refSame_le_refTotal D b r c))
    · exact le_refl (ofInt 100).units

/-! ## Threshold test -/

/-- The test of `gameMove` on the happiness truncated to `int` is the test on the
happiness itself. -/
theorem toInt_lt_iff (x : Double) (h0 : 0 ≤ x.units) (T : Int) : toInt x < T ↔ x < ofInt T := by
  unfold toInt
  rw [Int.tdiv_eq_ediv h0 scale_nonneg_int, Int.ediv_lt_iff_lt_mul scale_pos_int]
  rfl

theorem happiness_test (D : Nat) (b : Board) (r c : Nat) (T : Int) :
    toInt (getHappiness D b r c) < T ↔ getHappiness D b r c < ofInt T :=
  toInt_lt_iff _ (getHappiness_nonneg D b r c) T

theorem relocation_none_of_not_unhappy {D : Nat} {temp : Board} {T : Int} (st : MoveState)
    {p : Nat × Nat}
    (h : ¬ (temp p.1 p.2 ≠ '.' ∧ getHappiness D temp p.1 p.2 < ofInt T)) :
    relocation D temp T st p = none := by
  unfold relocation
  rw [if_neg]
  rintro ⟨⟨h1, _⟩, h2⟩
  exact h ⟨h1, (happiness_test D temp p.1 p.2 T).mp h2⟩

theorem gameMoveLoop_of_not_unhappy {D : Nat} {temp : Board} {T : Int} (l : List (Nat × Nat))
    (h : ∀ p ∈ l, ¬ (temp p.1 p.2 ≠ '.' ∧ getHappiness D temp p.1 p.2 < ofInt T))
    (st : MoveState) : gameMoveLoop D temp T st l = st := by
  induction l generalizing st with
  | nil => rfl
  | cons p l ih =>
    rw [gameMoveLoop_cons,
      gameMoveCell_none (relocation_none_of_not_unhappy st (h p (List.mem_cons_self _ _)))]
    exact ih (fun q hq => h q (List.mem_cons_of_mem _ hq)) st

/-- C3. Step fixpoint: when no agent of the grid has happiness below `T`, `gameMove`
returns 0 and leaves the board unchanged. -/
theorem C3_step_fixpoint (D : Nat) (G : Board) (T : Int)
    (h : ∀ r c, r < D → c < D → G r c ≠ '.' → ¬ getHappiness D G r c < ofInt T) :
    (gameMove D G T).numMoves = 0 ∧ (gameMove D G T).board = G := by
  have key : gameMove D G T = ⟨G, 0, 0⟩ := by
    unfold gameMove
    apply gameMoveLoop_of_not_unhappy
    intro p hp hu
    rw [mem_cells] at hp
    exact h p.1 p.2 hp.1 hp.2 hu.1 hu.2
  rw [key]
  exact ⟨rfl, rfl⟩

/-! ## Frame properties of the loop body -/

theorem gameMoveCell_board_other {D : Nat} {temp : Board} {T : Int} {st : MoveState}
    {p d : Nat × Nat} (h : relocation D temp T st p = some d) (q : Nat × Nat)
    (hqp : q ≠ p) (hqd : q ≠ d) :
    (gameMoveCell D temp T st p).board q.1 q.2 = st.board q.1 q.2 := by
  rw [gameMoveCell_some h]
  show ((st.board.set d.1 d.2 (st.board p.1 p.2)).set p.1 p.2 '.') q.1 q.2 = _
  rw [Board.set_other _ _ hqp, Board.set_other _ _ hqd]

theorem gameMoveCell_board_source {D : Nat} {temp : Board} {T : Int} {st : MoveState}
    {p d : Nat × Nat} (h : relocation D temp T st p = some d) :
    (gameMoveCell D temp T st p).board p.1 p.2 = '.' := by
  rw [gameMoveCell_some h]
  show ((st.board.set d.1 d.2 (st.board p.1 p.2)).set p.1 p.2 '.') p.1 p.2 = _
  rw [Board.set_same]

theorem relocation_ne {D : Nat} {temp : Board} {T : Int} {st : MoveState}
    {p d : Nat × Nat} (h : relocation D temp T st p = some d) : d ≠ p := by
  obtain ⟨⟨h1, _⟩, _, hf⟩ := relocation_some h
  obtain ⟨_, h2, _⟩ := findVacant_some hf
  intro e
  rw [e] at h2
  exact h1 h2

theorem gameMoveCell_board_dest {D : Nat} {temp : Board} {T : Int} {st : MoveState}
    {p d : Nat × Nat} (h : relocation D temp T st p = some d) :
    (gameMoveCell D temp T st p).board d.1 d.2 = temp p.1 p.2 := by
  rw [gameMoveCell_some h]
  show ((st.board.set d.1 d.2 (st.board p.1 p.2)).set p.1 p.2 '.') d.1 d.2 = _
  rw [Board.set_other _ _ (relocation_ne h), Board.set_same]
  exact ((relocation_some h).1.2).symm

/-- A happy agent is not touched by the loop body. -/
theorem gameMoveCell_keeps_happy {D : Nat} {temp : Board} {T : Int} (st : MoveState)
    (p : Nat × Nat) (q : Nat × Nat) (hq : temp q.1 q.2 ≠ '.')
    (hh : ¬ getHappiness D temp q.1 q.2 < ofInt T) :
    (gameMoveCell D temp T st p).board q.1 q.2 = st.board q.1 q.2 := by
  cases h : relocation D temp T st p with
  | none => rw [gameMoveCell_none h]
  | some d =>
    obtain ⟨_, h2, hf⟩ := relocation_some h
    obtain ⟨_, h3, _⟩ := findVacant_some hf
    apply gameMoveCell_board_other h
    · intro e
      rw [e] at hh
      exact hh ((happiness_test D temp p.1 p.2 T).mp h2)
    · intro e
      rw [e] at hq
      exact hq h3

theorem gameMoveLoop_keeps_happy {D : Nat} {temp : Board} {T : Int} (l : List (Nat × Nat))
    (q : Nat × Nat) (hq : temp q.1 q.2 ≠ '.') (hh : ¬ getHappiness D temp q.1 q.2 < ofInt T)
    (st : MoveState) : (gameMoveLoop D temp T st l).board q.1 q.2 = st.board q.1 q.2 := by
  induction l generalizing st with
  | nil => rfl
  | cons p l ih => rw [gameMoveLoop_cons, ih, gameMoveCell_keeps_happy st p q hq hh]

/-- C4. An agent whose happiness in the pre-step grid is at or above the threshold is
still in its cell after `gameMove`. -/
theorem C4_happy_agent_stays (D : Nat) (G : Board) (T : Int) (r c : Nat)
    (hk : G r c ≠ '.') (hh : ¬ getHappiness D G r c < ofInt T) :
    (gameMove D G T).board r c = G r c :=
  gameMoveLoop_keeps_happy (cells D) (r, c) hk hh ⟨G, 0, 0⟩

/-! ## The first relocation of a cycle -/

theorem cells_split {D : Nat} {p : Nat × Nat} (hp : p ∈ cells D) :
    ∃ pre post, cells D = pre ++ p :: post ∧ (∀ q ∈ pre, cellLt q p) ∧
      (∀ q ∈ post, cellLt p q) := by
  obtain ⟨pre, post, h⟩ := List.append_of_mem hp
  have hpw := cells_pairwise D
  rw [h, List.pairwise_append] at hpw
  refine ⟨pre, post, h, ?_, ?_⟩
  · intro q hq
    exact hpw.2.2 q hq p (List.mem_cons_self _ _)
  · have h2 := hpw.2.1
    rw [List.pairwise_cons] at h2
    exact h2.1

theorem find?_reverse_split {α : Type} (P : α → Bool) (pre post : List α) (v : α)
    (hv : P v = true) (hpost : ∀ q ∈ post, ¬ P q = true) :
    (pre ++ v :: post).reverse.find? P = some v := by
  have h1 : post.reverse.find? P = none := by
    rw [List.find?_eq_none]
    intro x hx
    exact hpost x (List.mem_reverse.mp hx)
  rw [List.reverse_append, List.reverse_cons, List.append_assoc, List.find?_append,
    List.find?_append, h1]
  simp [hv]

theorem gameMoveCell_vacated_stays {D : Nat} {temp : Board} {T : Int} (st : MoveState)
    (p c : Nat × Nat) (hc : temp c.1 c.2 ≠ '.') (hb : st.board c.1 c.2 = '.') :
    (gameMoveCell D temp T st p).board c.1 c.2 = '.' := by
  cases h : relocation D temp T st p with
  | none => rw [gameMoveCell_none h]; exact hb
  | some d =>
    by_cases hcp : c = p
    · rw [hcp]
      exact gameMoveCell_board_source h
    · obtain ⟨_, _, hf⟩ := relocation_some h
      obtain ⟨_, h3, _⟩ := findVacant_some hf
      rw [gameMoveCell_board_other h c hcp, hb]
      intro e
      rw [e] at hc
      exact hc h3

theorem gameMoveCell_filled_stays {D : Nat} {temp : Board} {T : Int} (st : MoveState)
    (p c : Nat × Nat) (hc : temp c.1 c.2 = '.') (hb : st.board c.1 c.2 ≠ '.') :
    (gameMoveCell D temp T st p).board c.1 c.2 = st.board c.1 c.2 := by
  cases h : relocation D temp T st p with
  | none => rw [gameMoveCell_none h]
  | some d =>
    obtain ⟨⟨h1, _⟩, _, hf⟩ := relocation_some h
    obtain ⟨_, _, h4⟩ := findVacant_some hf
    apply gameMoveCell_board_other h
    · intro e
      rw [e] at hc
      exact h1 hc
    · intro e
      rw [e] at hb
      exact hb h4

theorem gameMoveLoop_vacated_stays {D : Nat} {temp : Board} {T : Int} (l : List (Nat × Nat))
    (c : Nat × Nat) (hc : temp c.1 c.2 ≠ '.') (st : MoveState) (hb : st.board c.1 c.2 = '.') :
    (gameMoveLoop D temp T st l).board c.1 c.2 = '.' := by
  induction l generalizing st with
  | nil => exact hb
  | cons p l ih =>
    rw [gameMoveLoop_cons]
    exact ih _ (gameMoveCell_vacated_stays st p c hc hb)

theorem gameMoveLoop_filled_stays {D : Nat} {temp : Board} {T : Int} (l : List (Nat × Nat))
    (c : Nat × Nat) (hc : temp c.1 c.2 = '.') (st : MoveState) (hb : st.board c.1 c.2 ≠ '.') :
    (gameMoveLoop D temp T st l).board c.1 c.2 = st.board c.1 c.2 := by
  induction l generalizing st with
  | nil => rfl
  | cons p l ih =>
    have h1 := @gameMoveCell_filled_stays D temp T st p c hc hb
    rw [gameMoveLoop_cons, ih _ (by rw [h1]; exact hb), h1]

theorem relocations_cons_some {D : Nat} {temp : Board} {T : Int} {st : MoveState}
    {p d : Nat × Nat} (l : List (Nat × Nat)) (h : relocation D temp T st p = some d) :
    relocations D temp T st (p :: l)
      = (p, d) :: relocations D temp T (gameMoveCell D temp T st p) l := by
  conv_lhs => unfold relocations
  rw [h]

theorem relocations_cons_none {D : Nat} {temp : Board} {T : Int} {st : MoveState}
    {p : Nat × Nat} (l : List (Nat × Nat)) (h : relocation D temp T st p = none) :
    relocations D temp T st (p :: l)
      = relocations D temp T (gameMoveCell D temp T st p) l := by
  conv_lhs => unfold relocations
  rw [h]

theorem relocations_append (D : Nat) (temp : Board) (T : Int) (l1 l2 : List (Nat × Nat))
    (st : MoveState) :
    relocations D temp T st (l1 ++ l2)
      = relocations D temp T st l1 ++ relocations D temp T (gameMoveLoop D temp T st l1) l2 := by
  induction l1 generalizing st with
  | nil => rfl
  | cons p l ih =>
    rw [List.cons_append, gameMoveLoop_cons]
    cases h : relocation D temp T st p with
    | none => rw [relocations_cons_none _ h, relocations_cons_none _ h, ih]
    | some d => rw [relocations_cons_some _ h, relocations_cons_some _ h, ih, List.cons_append]

theorem relocations_of_not_unhappy {D : Nat} {temp : Board} {T : Int} (l : List (Nat × Nat))
    (h : ∀ p ∈ l, ¬ (temp p.1 p.2 ≠ '.' ∧ getHappiness D temp p.1 p.2 < ofInt T))
    (st : MoveState) : relocations D temp T st l = [] := by
  induction l generalizing st with
  | nil => rfl
  | cons p l ih =>
    unfold relocations
    rw [relocation_none_of_not_unhappy st (h p (List.mem_cons_self _ _))]
    exact ih (fun q hq => h q (List.mem_cons_of_mem _ hq)) _

/-- The first relocation of the cycle, for given first unhappy agent `p` and last vacant
cell `v`. -/
theorem first_relocation (D : Nat) (G : Board) (T : Int) (p v : Nat × Nat)
    (hp : p.1 < D ∧ p.2 < D)
    (hpu : G p.1 p.2 ≠ '.' ∧ getHappiness D G p.1 p.2 < ofInt T)
    (hpfirst : ∀ q : Nat × Nat, q.1 < D → q.2 < D → cellLt q p →
      ¬ (G q.1 q.2 ≠ '.' ∧ getHappiness D G q.1 q.2 < ofInt T))
    (hv : v.1 < D ∧ v.2 < D) (hvv : G v.1 v.2 = '.')
    (hvlast : ∀ q : Nat × Nat, q.1 < D → q.2 < D → cellLt v q → G q.1 q.2 ≠ '.') :
    (relocations D G T ⟨G, 0, 0⟩ (cells D)).head? = some (p, v) ∧
    (gameMove D G T).board p.1 p.2 = '.' ∧
    (gameMove D G T).board v.1 v.2 = G p.1 p.2 := by
  obtain ⟨pre, post, hsplit, hpre, _⟩ := cells_split (mem_cells.mpr hp)
  obtain ⟨pre2, post2, hsplit2, _, hpost2⟩ := cells_split (mem_cells.mpr hv)
  have hmem : ∀ q ∈ pre, q ∈ cells D := fun q hq => by
    rw [hsplit]
    exact List.mem_append_left _ hq
  have hmem2 : ∀ q ∈ post2, q ∈ cells D := fun q hq => by
    rw [hsplit2]
    exact List.mem_append_right _ (List.mem_cons_of_mem _ hq)
  have hpre2 : ∀ q ∈ pre, ¬ (G q.1 q.2 ≠ '.' ∧ getHappiness D G q.1 q.2 < ofInt T) :=
    fun q hq => hpfirst q (mem_cells.mp (hmem q hq)).1 (mem_cells.mp (hmem q hq)).2 (hpre q hq)
  have hreloc : relocation D G T ⟨G, 0, 0⟩ p = some v := by
    unfold relocation
    rw [if_pos ⟨⟨hpu.1, rfl⟩, (happiness_test D G p.1 p.2 T).mpr hpu.2⟩]
    unfold findVacant
    rw [if_neg (by simp), cellsRev_eq, hsplit2]
    apply find?_reverse_split
    · simp [hvv]
    · intro q hq
      have := hvlast q (mem_cells.mp (hmem2 q hq)).1 (mem_cells.mp (hmem2 q hq)).2 (hpost2 q hq)
      simp [this]
  refine ⟨?_, ?_, ?_⟩
  · rw [hsplit, relocations_append, relocations_of_not_unhappy pre hpre2,
      gameMoveLoop_of_not_unhappy pre hpre2, List.nil_append, relocations_cons_some _ hreloc]
    rfl
  · unfold gameMove
    simp only
    rw [hsplit, gameMoveLoop_append, gameMoveLoop_of_not_unhappy pre hpre2, gameMoveLoop_cons]
    exact gameMoveLoop_vacated_stays post p hpu.1 _ (gameMoveCell_board_source hreloc)
  · unfold gameMove
    simp only
    rw [hsplit, gameMoveLoop_append, gameMoveLoop_of_not_unhappy pre hpre2, gameMoveLoop_cons]
    have h1 := gameMoveCell_board_dest hreloc
    rw [gameMoveLoop_filled_stays post v hvv _ (by rw [h1]; exact hpu.1), h1]

theorem exists_first_of_pairwise {α : Type} (R : α → α → Prop) (hirr : ∀ a, ¬ R a a)
    (hasym : ∀ a b, R a b → ¬ R b a) (l : List α) (hl : l.Pairwise R) (P : α → Prop)
    [DecidablePred P] (h : ∃ q ∈ l, P q) :
    ∃ p ∈ l, P p ∧ ∀ q ∈ l, R q p → ¬ P q := by
  have hs : (l.find? fun x => decide (P x)).isSome := by
    rw [List.find?_isSome]
    obtain ⟨q, hq, hP⟩ := h
    exact ⟨q, hq, by simpa using hP⟩
  obtain ⟨p, hp⟩ := Option.isSome_iff_exists.mp hs
  rw [List.find?_eq_some] at hp
  obtain ⟨hPp, as, bs, hsplit, has⟩ := hp
  refine ⟨p, by rw [hsplit]; simp, by simpa using hPp, ?_⟩
  intro q hq hR
  rw [hsplit, List.pairwise_append] at hl
  rw [hsplit, List.mem_append, List.mem_cons] at hq
  rcases hq with hq | hq | hq
  · simpa using has q hq
  · rw [hq] at hR
    exact absurd hR (hirr p)
  · have h2 := hl.2.1
    rw [List.pairwise_cons] at h2
    exact absurd hR (hasym _ _ (h2.1 q hq))

/-- C5. When at least one agent has happiness below `T` and at least one cell is vacant,
the first relocation of `gameMove` moves the row-major-first unhappy agent `p` into the
row-major-last vacant cell `v` of the grid; after the call the cell `p` is vacant and the
cell `v` holds the kind of that agent. -/
theorem C5_first_relocation_backward (D : Nat) (G : Board) (T : Int)
    (hu : ∃ q : Nat × Nat, (q.1 < D ∧ q.2 < D) ∧
      (G q.1 q.2 ≠ '.' ∧ getHappiness D G q.1 q.2 < ofInt T))
    (hvac : ∃ q : Nat × Nat, (q.1 < D ∧ q.2 < D) ∧ G q.1 q.2 = '.') :
    ∃ p v : Nat × Nat, isFirstUnhappy D G T p ∧ isLastVacant D G v ∧
      (relocations D G T ⟨G, 0, 0⟩ (cells D)).head? = some (p, v) ∧
      (gameMove D G T).board p.1 p.2 = '.' ∧
      (gameMove D G T).board v.1 v.2 = G p.1 p.2 := by
  obtain ⟨p, hp, hPp, hfirst⟩ := exists_first_of_pairwise cellLt cellLt_irrefl
    (fun _ _ h => cellLt_asymm h) (cells D) (cells_pairwise D)
    (fun q => G q.1 q.2 ≠ '.' ∧ getHappiness D G q.1 q.2 < ofInt T)
    (by
      obtain ⟨q, hq, hP⟩ := hu
      exact ⟨q, mem_cells.mpr hq, hP⟩)
  obtain ⟨v, hv, hPv, hlast⟩ := exists_first_of_pairwise (fun a b => cellLt b a)
    cellLt_irrefl (fun _ _ h => cellLt_asymm h) (cells D).reverse
    (List.pairwise_reverse.mpr (cells_pairwise D)) (fun q => G q.1 q.2 = '.')
    (by
      obtain ⟨q, hq, hP⟩ := hvac
      exact ⟨q, List.mem_reverse.mpr (mem_cells.mpr hq), hP⟩)
  rw [List.mem_reverse] at hv
  have hpf : ∀ q : Nat × Nat, q.1 < D → q.2 < D → cellLt q p →
      ¬ (G q.1 q.2 ≠ '.' ∧ getHappiness D G q.1 q.2 < ofInt T) :=
    fun q h1 h2 h3 => hfirst q (mem_cells.mpr ⟨h1, h2⟩) h3
  have hvl : ∀ q : Nat × Nat, q.1 < D → q.2 < D → cellLt v q → G q.1 q.2 ≠ '.' :=
    fun q h1 h2 h3 => hlast q (List.mem_reverse.mpr (mem_cells.mpr ⟨h1, h2⟩)) h3
  exact ⟨p, v, ⟨mem_cells.mp hp, hPp, hpf⟩, ⟨mem_cells.mp hv, hPv, hvl⟩,
    first_relocation D G T p v (mem_cells.mp hp) hPp hpf (mem_cells.mp hv) hPv hvl⟩

/-! ## Invariants of the trace of relocations -/

/-- Induction over the loop of `gameMove` together with its trace of relocations. -/
theorem relocations_invariant {D : Nat} {temp : Board} {T : Int}
    (Inv : MoveState → List ((Nat × Nat) × (Nat × Nat)) → Prop)
    (hstep : ∀ st tr p d, Inv st tr → relocation D temp T st p = some d →
      Inv (gameMoveCell D temp T st p) (tr ++ [(p, d)]))
    (l : List (Nat × Nat)) (st : MoveState) (tr : List ((Nat × Nat) × (Nat × Nat)))
    (h0 : Inv st tr) :
    Inv (gameMoveLoop D temp T st l) (tr ++ relocations D temp T st l) := by
  induction l generalizing st tr with
  | nil =>
    show Inv st (tr ++ [])
    rw [List.append_nil]
    exact h0
  | cons p l ih =>
    rw [gameMoveLoop_cons]
    cases h : relocation D temp T st p with
    | none =>
      rw [relocations_cons_none _ h, gameMoveCell_none h]
      exact ih st tr h0
    | some d =>
      rw [relocations_cons_some _ h]
      have := ih _ _ (hstep st tr p d h0 h)
      rw [List.append_assoc] at this
      exact this

theorem find?_eq_head?_filter {α : Type} (P : α → Bool) (l : List α) :
    l.find? P = (l.filter P).head? := by
  induction l with
  | nil => rfl
  | cons a l ih =>
    by_cases h : P a = true
    · rw [List.find?_cons_of_pos _ h, List.filter_cons_of_pos h]
      rfl
    · rw [List.find?_cons_of_neg _ h, List.filter_cons_of_neg h]
      exact ih

theorem find?_reverse_eq_getLast?_filter {α : Type} (P : α → Bool) (l : List α) :
    l.reverse.find? P = (l.filter P).getLast? := by
  rw [find?_eq_head?_filter, List.filter_reverse, List.head?_reverse]

theorem findVacant_backward {D : Nat} {board temp : Board} :
    findVacant D board temp 0 = (available D temp board).getLast? := by
  unfold findVacant available
  rw [if_neg (by simp), cellsRev_eq, find?_reverse_eq_getLast?_filter]

theorem findVacant_forward {D : Nat} {board temp : Board} {first : Int} (h : first ≠ 0) :
    findVacant D board temp first = (available D temp board).head? := by
  unfold findVacant available
  rw [if_pos h, find?_eq_head?_filter]

theorem available_nodup (D : Nat) (temp board : Board) : (available D temp board).Nodup :=
  (cells_nodup D).filter _

theorem vacancies_nodup (D : Nat) (G : Board) : (vacancies D G).Nodup :=
  (cells_nodup D).filter _

theorem available_initial (D : Nat) (G : Board) : available D G G = vacancies D G := by
  unfold available vacancies
  congr 1
  funext q
  simp

/-- A relocation removes its destination from the available cells and nothing else. -/
theorem available_step {D : Nat} {temp : Board} {T : Int} {st : MoveState}
    {p d : Nat × Nat} (h : relocation D temp T st p = some d) :
    available D temp (gameMoveCell D temp T st p).board
      = (available D temp st.board).filter fun q => q ≠ d := by
  unfold available
  rw [List.filter_filter]
  apply List.filter_congr
  intro q _
  obtain ⟨⟨h1, h2⟩, _, _⟩ := relocation_some h
  by_cases hq : temp q.1 q.2 = '.'
  · have hqp : q ≠ p := by
      intro e
      rw [e] at hq
      exact h1 hq
    by_cases hqd : q = d
    · have hb := gameMoveCell_board_dest h
      rw [← hqd] at hb
      simp [hqd, hb, h1]
      intro _
      rw [← hqd, hb]
      exact h1
    · rw [gameMoveCell_board_other h q hqp hqd]
      simp [hqd]
  · simp [hq]

/-- The trace describes the final board: every relocation `(p, d)` of the trace took an
agent of the initial grid from `p` to a cell `d` vacant in the initial grid, and after the
loop `p` is vacant and `d` holds that agent. -/
theorem relocations_effect (D : Nat) (G : Board) (T : Int) (l : List (Nat × Nat)) :
    ∀ pd ∈ relocations D G T ⟨G, 0, 0⟩ l,
      G pd.1.1 pd.1.2 ≠ '.' ∧ G pd.2.1 pd.2.2 = '.' ∧
      (gameMoveLoop D G T ⟨G, 0, 0⟩ l).board pd.1.1 pd.1.2 = '.' ∧
      (gameMoveLoop D G T ⟨G, 0, 0⟩ l).board pd.2.1 pd.2.2 = G pd.1.1 pd.1.2 := by
  have key := @relocations_invariant D G T
    (fun st tr => ∀ pd ∈ tr, G pd.1.1 pd.1.2 ≠ '.' ∧ G pd.2.1 pd.2.2 = '.' ∧
      st.board pd.1.1 pd.1.2 = '.' ∧ st.board pd.2.1 pd.2.2 = G pd.1.1 pd.1.2)
    (by
      intro st tr p d hall h
      obtain ⟨⟨h1, _⟩, _, hf⟩ := relocation_some h
      obtain ⟨_, hd2, _⟩ := findVacant_some hf
      intro pd hpd
      rw [List.mem_append, List.mem_singleton] at hpd
      rcases hpd with hpd | hpd
      · obtain ⟨a, b, c, e⟩ := hall pd hpd
        refine ⟨a, b, gameMoveCell_vacated_stays st p pd.1 a c, ?_⟩
        rw [gameMoveCell_filled_stays st p pd.2 b (by rw [e]; exact a)]
        exact e
      · rw [hpd]
        exact ⟨h1, hd2, gameMoveCell_board_source h, gameMoveCell_board_dest h⟩)
    l ⟨G, 0, 0⟩ [] (by simp)
  simpa using key

/-- Destinations are distinct in-grid cells, vacant at the start of the call and occupied
from their relocation on. -/
theorem destinations_invariant (D : Nat) (G : Board) (T : Int) (l : List (Nat × Nat)) :
    ((relocations D G T ⟨G, 0, 0⟩ l).map Prod.snd).Nodup ∧
    ∀ d ∈ (relocations D G T ⟨G, 0, 0⟩ l).map Prod.snd,
      d ∈ cells D ∧ G d.1 d.2 = '.' ∧ (gameMoveLoop D G T ⟨G, 0, 0⟩ l).board d.1 d.2 ≠ '.' := by
  have key := @relocations_invariant D G T
    (fun st tr => (tr.map Prod.snd).Nodup ∧
      ∀ d ∈ tr.map Prod.snd, d ∈ cells D ∧ G d.1 d.2 = '.' ∧ st.board d.1 d.2 ≠ '.')
    (by
      intro st tr p d ⟨hnd, hall⟩ h
      obtain ⟨⟨h1, _⟩, _, hf⟩ := relocation_some h
      obtain ⟨hd1, hd2, hd3⟩ := findVacant_some hf
      have hnew : d ∉ tr.map Prod.snd := fun hmem => (hall d hmem).2.2 hd3
      constructor
      · rw [List.map_append, List.map_singleton]
        exact List.Nodup.append hnd (List.nodup_singleton d)
          (by
            intro x hx hx2
            rw [List.mem_singleton] at hx2
            have hx3 : x = d := hx2
            rw [hx3] at hx
            exact hnew hx)
      · intro x hx
        rw [List.map_append, List.map_singleton, List.mem_append, List.mem_singleton] at hx
        rcases hx with hx | hx
        · obtain ⟨a, b, c⟩ := hall x hx
          refine ⟨a, b, ?_⟩
          rw [gameMoveCell_filled_stays st p x b c]
          exact c
        · rw [hx]
          refine ⟨hd1, hd2, ?_⟩
          rw [gameMoveCell_board_dest h]
          exact h1)
    l ⟨G, 0, 0⟩ [] (by simp)
  simpa using key

/-- C7. Snapshot independence: the destination cells of the relocations of one call of
`gameMove` are pairwise distinct, and each of them is an in-grid cell that was vacant in
the grid at the start of the call. -/
theorem C7_snapshot_independence (D : Nat) (G : Board) (T : Int) :
    (destinations D G T).Nodup ∧
    ∀ d ∈ destinations D G T, (d.1 < D ∧ d.2 < D) ∧ G d.1 d.2 = '.' := by
  obtain ⟨h1, h2⟩ := destinations_invariant D G T (cells D)
  refine ⟨h1, ?_⟩
  intro d hd
  obtain ⟨a, b, _⟩ := h2 d hd
  exact ⟨mem_cells.mp a, b⟩

theorem filter_ne_concat {α : Type} [DecidableEq α] (A : List α) (d : α)
    (h : (A ++ [d]).Nodup) : (A ++ [d]).filter (fun q => q ≠ d) = A := by
  have hd : d ∉ A := by
    intro hmem
    rw [List.nodup_append] at h
    exact h.2.2 hmem (List.mem_singleton_self d)
  rw [List.filter_append]
  have h1 : A.filter (fun q => q ≠ d) = A := by
    rw [List.filter_eq_self]
    intro a ha
    simp only [ne_eq, decide_eq_true_eq]
    intro e
    exact hd (e ▸ ha)
  rw [h1]
  simp

theorem filter_ne_cons {α : Type} [DecidableEq α] (A : List α) (d : α)
    (h : (d :: A).Nodup) : (d :: A).filter (fun q => q ≠ d) = A := by
  rw [List.nodup_cons] at h
  rw [List.filter_cons_of_neg (by simp), List.filter_eq_self]
  intro a ha
  simp only [ne_eq, decide_eq_true_eq]
  intro e
  exact h.1 (e ▸ ha)

theorem getElem?_append_cons_length {α : Type} (l1 l2 : List α) (d : α) (i : Nat)
    (hi : i = l1.length) : (l1 ++ d :: l2)[i]? = some d := by
  subst hi
  rw [List.getElem?_append_right (Nat.le_refl _), Nat.sub_self]
  exact List.getElem?_cons_zero

/-- The index in the row-major list of the `V` initial vacancies of the destination of the
relocation number `k` (counted from 0): `V-1, 0, V-2, 1, ...`. -/
theorem alternation_invariant (D : Nat) (G : Board) (T : Int) (l : List (Nat × Nat)) :
    (gameMoveLoop D G T ⟨G, 0, 0⟩ l).first
        = (((relocations D G T ⟨G, 0, 0⟩ l).length % 2 : Nat) : Int) ∧
    (gameMoveLoop D G T ⟨G, 0, 0⟩ l).numMoves
        = ((relocations D G T ⟨G, 0, 0⟩ l).length : Int) ∧
    (∃ front back, vacancies D G
        = front ++ available D G (gameMoveLoop D G T ⟨G, 0, 0⟩ l).board ++ back ∧
      front.length = (relocations D G T ⟨G, 0, 0⟩ l).length / 2 ∧
      back.length = ((relocations D G T ⟨G, 0, 0⟩ l).length + 1) / 2) ∧
    ∀ m, m < (relocations D G T ⟨G, 0, 0⟩ l).length →
      ((relocations D G T ⟨G, 0, 0⟩ l).map Prod.snd)[m]?
        = (vacancies D G)[if m % 2 = 0 then (vacancies D G).length - 1 - m / 2 else m / 2]? := by
  have key := @relocations_invariant D G T
    (fun st tr => st.first = (((tr.length % 2 : Nat)) : Int) ∧
      st.numMoves = (tr.length : Int) ∧
      (∃ front back, vacancies D G = front ++ available D G st.board ++ back ∧
        front.length = tr.length / 2 ∧ back.length = (tr.length + 1) / 2) ∧
      ∀ m, m < tr.length → (tr.map Prod.snd)[m]?
        = (vacancies D G)[if m % 2 = 0 then (vacancies D G).length - 1 - m / 2 else m / 2]?)
    (by
      intro st tr p d ⟨hfirst, hnum, ⟨front, back, hvs, hfl, hbl⟩, hidx⟩ h
      obtain ⟨_, _, hf⟩ := relocation_some h
      have hav := available_step h
      have hnd := available_nodup D G st.board
      have hlen : (tr ++ [(p, d)]).length = tr.length + 1 := by simp
      have hst : gameMoveCell D G T st p
          = ⟨(st.board.set d.1 d.2 (st.board p.1 p.2)).set p.1 p.2 '.', st.numMoves + 1,
              (st.first + 1) % 2⟩ := gameMoveCell_some h
      have hold : ∀ m, m < tr.length → ((tr ++ [(p, d)]).map Prod.snd)[m]?
          = (vacancies D G)[if m % 2 = 0 then (vacancies D G).length - 1 - m / 2
              else m / 2]? := by
        intro m hm
        rw [List.map_append, List.getElem?_append_left (by simpa using hm)]
        exact hidx m hm
      have hnew : ((tr ++ [(p, d)]).map Prod.snd)[tr.length]? = some d := by
        rw [List.map_append]
        exact getElem?_append_cons_length _ [] d _ (by simp)
      rw [hlen]
      refine ⟨?_, ?_, ?_, ?_⟩
      · rw [hst]
        show (st.first + 1) % 2 = _
        rw [hfirst]
        omega
      · rw [hst]
        show st.numMoves + 1 = _
        rw [hnum]
        push_cast
        rfl
      · by_cases hk : tr.length % 2 = 0
        · have h0 : st.first = 0 := by rw [hfirst]; omega
          rw [h0, findVacant_backward, List.getLast?_eq_some_iff] at hf
          obtain ⟨A, hA⟩ := hf
          rw [hA] at hnd hvs
          rw [hA, filter_ne_concat A d hnd] at hav
          refine ⟨front, d :: back, ?_, (by omega), ?_⟩
          swap
          · simp only [List.length_cons]
            omega
          rw [hav, hvs]
          simp [List.append_assoc]
        · have h1 : st.first ≠ 0 := by rw [hfirst]; omega
          rw [findVacant_forward h1, List.head?_eq_some_iff] at hf
          obtain ⟨A, hA⟩ := hf
          rw [hA] at hnd hvs
          rw [hA, filter_ne_cons A d hnd] at hav
          refine ⟨front ++ [d], back, ?_, ?_, (by omega)⟩
          swap
          · simp only [List.length_append, List.length_singleton]
            omega
          rw [hav, hvs]
          simp [List.append_assoc]
      · intro m hm
        by_cases hmk : m < tr.length
        · exact hold m hmk
        · have hmeq : m = tr.length := by omega
          rw [hmeq, hnew]
          symm
          by_cases hk : tr.length % 2 = 0
          · have h0 : st.first = 0 := by rw [hfirst]; omega
            rw [h0, findVacant_backward, List.getLast?_eq_some_iff] at hf
            obtain ⟨A, hA⟩ := hf
            rw [hA] at hvs
            have hvs2 : vacancies D G = (front ++ A) ++ d :: back := by
              rw [hvs]
              simp [List.append_assoc]
            have hV : (vacancies D G).length = front.length + A.length + 1 + back.length := by
              rw [hvs2]
              simp only [List.length_append, List.length_cons]
              omega
            rw [if_pos hk, hV]
            rw [hvs2]
            apply getElem?_append_cons_length
            simp only [List.length_append]
            omega
          · have h1 : st.first ≠ 0 := by rw [hfirst]; omega
            rw [findVacant_forward h1, List.head?_eq_some_iff] at hf
            obtain ⟨A, hA⟩ := hf
            rw [hA] at hvs
            have hvs2 : vacancies D G = front ++ d :: (A ++ back) := by
              rw [hvs]
              simp [List.append_assoc]
            rw [if_neg hk]
            rw [hvs2]
            apply getElem?_append_cons_length
            omega)
    l ⟨G, 0, 0⟩ []
    (by
      refine ⟨rfl, rfl, ⟨[], [], ?_, rfl, rfl⟩, ?_⟩
      · show vacancies D G = [] ++ available D G G ++ []
        rw [available_initial]
        simp
      · intro m hm
        simp at hm)
  simpa using key

/-- C6. Alternating destinations: with `v_1 < ... < v_V` the cells vacant at the start of
the call, the relocation number `k` (counted from 0) lands on the cell of index
`V - 1 - k/2` of that list when `k` is even (backward scan) and on the cell of index `k/2`
when `k` is odd (forward scan): `v_V, v_1, v_{V-1}, v_2, ...`.  The toggle `first` starts
at 0, is flipped by the loop body exactly when it relocates an agent, and ends as the
parity of the number of relocations, which is the value `gameMove` returns. -/
theorem C6_alternating_destinations (D : Nat) (G : Board) (T : Int) :
    (destinations D G T).length ≤ (vacancies D G).length ∧
    (gameMove D G T).numMoves = ((destinations D G T).length : Int) ∧
    (∀ k, k < (destinations D G T).length →
      (destinations D G T)[k]?
        = (vacancies D G)[if k % 2 = 0 then (vacancies D G).length - 1 - k / 2 else k / 2]?) ∧
    (gameMove D G T).first = (((destinations D G T).length % 2 : Nat) : Int) ∧
    ∀ (st : MoveState) (p : Nat × Nat), (gameMoveCell D G T st p).first
      = if (relocation D G T st p).isSome then (st.first + 1) % 2 else st.first := by
  obtain ⟨h1, h2, ⟨front, back, h3, h4, h5⟩, h6⟩ := alternation_invariant D G T (cells D)
  have hlen : (destinations D G T).length = (relocations D G T ⟨G, 0, 0⟩ (cells D)).length := by
    unfold destinations
    rw [List.length_map]
  refine ⟨?_, ?_, ?_, ?_, ?_⟩
  · rw [hlen, h3]
    simp only [List.length_append]
    omega
  · rw [hlen]
    exact h2
  · intro k hk
    rw [hlen] at hk
    exact h6 k hk
  · rw [hlen]
    exact h1
  · intro st p
    cases h : relocation D G T st p with
    | none =>
      rw [gameMoveCell_none h]
      rfl
    | some d =>
      rw [gameMoveCell_some h]
      rfl

/-! ## populateBoard -/

theorem length_flatMap_map (l1 l2 : List Nat) :
    (l1.flatMap fun i => l2.map fun j => (i, j)).length = l1.length * l2.length := by
  induction l1 with
  | nil => simp
  | cons a l ih =>
    rw [List.flatMap_cons, List.length_append, ih, List.length_map, List.length_cons]
    ring

theorem length_cells (D : Nat) : (cells D).length = D * D := by
  unfold cells
  rw [length_flatMap_map, List.length_range]

theorem populate_foldl_other (l : List (Nat × Nat)) (q : Nat × Nat) (hq : q ∉ l)
    (st : PopulateState) : (l.foldl populateCell st).board q.1 q.2 = st.board q.1 q.2 := by
  induction l generalizing st with
  | nil => rfl
  | cons p l ih =>
    rw [List.foldl_cons, ih (fun h => hq (List.mem_cons_of_mem _ h))]
    have hne : q ≠ p := fun e => hq (e ▸ List.mem_cons_self _ _)
    unfold populateCell
    split_ifs <;> exact Board.set_other _ _ hne

theorem populate_foldl_map (l : List (Nat × Nat)) (hl : l.Nodup) (st : PopulateState) :
    l.map (fun p => (l.foldl populateCell st).board p.1 p.2)
      = populateValues st.numVacant st.numEndline l.length := by
  induction l generalizing st with
  | nil => rfl
  | cons p l ih =>
    rw [List.nodup_cons] at hl
    rw [List.map_cons, List.foldl_cons, populate_foldl_other l p hl.1, ih hl.2]
    unfold populateCell
    rw [List.length_cons, populateValues]
    split_ifs <;> simp [Board.set_same]

theorem layout_vacant (a b c : Nat) : layout (a + 1) b c = '.' :: layout a b c := by
  simp [layout, List.replicate_succ]

theorem layout_endline (b c : Nat) : layout 0 (b + 1) c = 'e' :: layout 0 b c := by
  simp [layout, List.replicate_succ]

theorem layout_newline (c : Nat) : layout 0 0 (c + 1) = 'n' :: layout 0 0 c := by
  simp [layout, List.replicate_succ]

theorem populateValues_eq (n : Nat) : ∀ nv ne : Int,
    populateValues nv ne n
      = layout (min nv.toNat n) (min ne.toNat (n - min nv.toNat n))
          (n - min nv.toNat n - min ne.toNat (n - min nv.toNat n)) := by
  induction n with
  | zero =>
    intro nv ne
    simp [populateValues, layout]
  | succ n ih =>
    intro nv ne
    rw [populateValues]
    split_ifs with h1 h2
    · rw [ih]
      have e1 : min nv.toNat (n + 1) = min (nv - 1).toNat n + 1 := by omega
      have e2 : n + 1 - (min (nv - 1).toNat n + 1) = n - min (nv - 1).toNat n := by omega
      rw [e1, e2, layout_vacant]
    · rw [ih]
      have e1 : min nv.toNat (n + 1) = 0 := by omega
      have e0 : min nv.toNat n = 0 := by omega
      rw [e1, e0]
      simp only [Nat.sub_zero]
      have e2 : min ne.toNat (n + 1) = min (ne - 1).toNat n + 1 := by omega
      have e3 : n + 1 - (min (ne - 1).toNat n + 1) = n - min (ne - 1).toNat n := by omega
      rw [e2, e3, layout_endline]
    · rw [ih]
      have e1 : min nv.toNat (n + 1) = 0 := by omega
      have e0 : min nv.toNat n = 0 := by omega
      have e2 : min ne.toNat (n + 1) = 0 := by omega
      have e3 : min ne.toNat n = 0 := by omega
      rw [e1, e0]
      simp only [Nat.sub_zero]
      rw [e2, e3]
      simp only [Nat.sub_zero]
      rw [layout_newline]

/-- The board written by `populateBoard`, read in row-major order: the three blocks, their
lengths clipped to the size of the board. -/
theorem rowMajor_populateBoard (D : Nat) (b : Board) (v e : Int) :
    rowMajor D (populateBoard D b v e)
      = layout (min (initNumVacant D v).toNat (D * D))
          (min (initNumEndline D v e).toNat (D * D - min (initNumVacant D v).toNat (D * D)))
          (D * D - min (initNumVacant D v).toNat (D * D)
            - min (initNumEndline D v e).toNat (D * D - min (initNumVacant D v).toNat (D * D))) := by
  unfold rowMajor populateBoard
  rw [populate_foldl_map (cells D) (cells_nodup D), populateValues_eq, length_cells]

theorem countKind_eq_count (D : Nat) (b : Board) (k : Char) :
    countKind D b k = (rowMajor D b).count k := by
  unfold countKind rowMajor
  rw [List.count, List.countP_map]
  congr 1

theorem count_layout (a b c : Nat) :
    (layout a b c).count '.' = a ∧ (layout a b c).count 'e' = b ∧ (layout a b c).count 'n' = c := by
  unfold layout
  simp [List.count_append, List.count_replicate]

/-! ## Bounds on the counters of populateBoard -/

theorem fmul_ofInt_nonneg (m : Nat) (x : Double) (h0 : 0 ≤ x.units) :
    0 ≤ (fmul (ofInt m) x).units := by
  unfold fmul
  apply round_nonneg
  rw [ofInt_units]
  exact Int.mul_nonneg (Int.mul_nonneg (Int.mul_nonneg (Int.natCast_nonneg _) scale_nonneg_int)
    h0) scale_nonneg_int

theorem fmul_ofInt_le (m : Nat) (hm : m < 2 ^ 53) (x : Double) (h0 : 0 ≤ x.units)
    (h1 : x ≤ ofInt 1) : fmul (ofInt m) x ≤ ofInt m := by
  unfold fmul
  have hs := scale_nonneg_int
  have hx : x.units ≤ 1 * scale := h1
  have hm0 : (0 : Int) ≤ (m : Int) * scale := Int.mul_nonneg (Int.natCast_nonneg _) hs
  rw [ofInt_units]
  apply round_le _ _ m (Int.mul_nonneg hm0 h0) scale_pos_int hm
  calc (m : Int) * scale * x.units ≤ (m : Int) * scale * (1 * scale) :=
        Int.mul_le_mul_of_nonneg_left hx hm0
    _ = (m : Int) * scale * scale := by ring

theorem toInt_bounds (y : Double) (m : Nat) (h0 : 0 ≤ y.units) (h : y ≤ ofInt m) :
    0 ≤ toInt y ∧ toInt y ≤ m := by
  unfold toInt
  rw [Int.tdiv_eq_ediv h0 scale_nonneg_int]
  have hy : y.units ≤ m * scale := h
  constructor
  · exact Int.ediv_nonneg h0 scale_nonneg_int
  · exact Int.ediv_le_of_le_mul scale_pos_int hy

/-- For a count `m` of cells and a percentage in `[0, 100]`, the truncated product
`m * (pct / 100.0)` lies in `[0, m]`. -/
theorem percentage_bounds (m : Nat) (hm : m < 2 ^ 53) (pct : Int) (h0 : 0 ≤ pct)
    (h100 : pct ≤ 100) :
    0 ≤ toInt (fmul (ofInt m) (fdiv (ofInt pct) (ofInt 100))) ∧
    toInt (fmul (ofInt m) (fdiv (ofInt pct) (ofInt 100))) ≤ m := by
  have e : pct = ((pct.toNat : Nat) : Int) := (Int.toNat_of_nonneg h0).symm
  have e100 : (100 : Int) = ((100 : Nat) : Int) := rfl
  rw [e, e100]
  have hx0 := fdiv_ofInt_nonneg pct.toNat 100
  have hx1 := fdiv_ofInt_le_one pct.toNat 100 (by norm_num) (by omega)
  exact toInt_bounds _ m (fmul_ofInt_nonneg m _ hx0) (fmul_ofInt_le m hm _ hx0 hx1)

theorem initNumVacant_bounds (D : Nat) (hD : D * D < 2 ^ 31) (v : Int) (h0 : 0 ≤ v)
    (h100 : v ≤ 100) : 0 ≤ initNumVacant D v ∧ initNumVacant D v ≤ D * D := by
  unfold initNumVacant
  have h := percentage_bounds (D * D) (by omega) v h0 h100
  simp only
  push_cast at h
  exact h

theorem initNumEndline_bounds (D : Nat) (hD : D * D < 2 ^ 31) (v e : Int) (h0 : 0 ≤ v)
    (h100 : v ≤ 100) (he0 : 0 ≤ e) (he100 : e ≤ 100) :
    0 ≤ initNumEndline D v e ∧ initNumEndline D v e ≤ D * D - initNumVacant D v := by
  obtain ⟨hv0, hv1⟩ := initNumVacant_bounds D hD v h0 h100
  unfold initNumEndline
  simp only
  have em : (D : Int) * D - initNumVacant D v = ((D * D - (initNumVacant D v).toNat : Nat) : Int) := by
    omega
  rw [em]
  exact percentage_bounds _ (by omega) e he0 he100

/-- C9 (amended). For a board whose size fits an `int` and percentages in `[0, 100]`, the
grid written by `populateBoard`, read in row-major order, is a block of `numVacant` vacant
cells, then a block of `numEndline` cells `e`, then `D*D - numVacant - numEndline` cells
`n`, for the values of `numVacant` and `numEndline` that `populateBoard` computes. -/
theorem C9_populate_order (D : Nat) (b : Board) (v e : Int) (hD : D * D < 2 ^ 31)
    (hv : 0 ≤ v ∧ v ≤ 100) (he : 0 ≤ e ∧ e ≤ 100) :
    (0 ≤ initNumVacant D v ∧ 0 ≤ initNumEndline D v e ∧
      initNumVacant D v + initNumEndline D v e ≤ D * D) ∧
    rowMajor D (populateBoard D b v e)
      = layout (initNumVacant D v).toNat (initNumEndline D v e).toNat
          (D * D - (initNumVacant D v).toNat - (initNumEndline D v e).toNat) := by
  obtain ⟨hv0, hv1⟩ := initNumVacant_bounds D hD v hv.1 hv.2
  obtain ⟨he0, he1⟩ := initNumEndline_bounds D hD v e hv.1 hv.2 he.1 he.2
  refine ⟨⟨hv0, he0, by omega⟩, ?_⟩
  rw [rowMajor_populateBoard]
  have e1 : min (initNumVacant D v).toNat (D * D) = (initNumVacant D v).toNat := by omega
  rw [e1]
  have e2 : min (initNumEndline D v e).toNat (D * D - (initNumVacant D v).toNat)
      = (initNumEndline D v e).toNat := by omega
  rw [e2]

set_option maxRecDepth 100000 in
theorem initNumVacant_scenarioA : initNumVacant 10 20 = 20 ∧ initNumEndline 10 20 60 = 48 := by
  decide

/-- Scenario A: `D = 10`, 20% vacant, 60% endline gives 20 `.`, then 48 `e`, then 32 `n`. -/
theorem C9_populate_order_witness :
    ((10 : Nat) * 10 < 2 ^ 31 ∧ ((0 : Int) ≤ 20 ∧ (20 : Int) ≤ 100) ∧
      ((0 : Int) ≤ 60 ∧ (60 : Int) ≤ 100)) ∧
    rowMajor 10 (populateBoard 10 (fun _ _ => 'x') 20 60) = layout 20 48 32 := by
  have h := (C9_populate_order 10 (fun _ _ => 'x') 20 60 (by norm_num) (by norm_num)
    (by norm_num)).2
  rw [initNumVacant_scenarioA.1, initNumVacant_scenarioA.2] at h
  exact ⟨by norm_num, h⟩

set_option maxRecDepth 100000 in
theorem initNumVacant_out_of_range : initNumVacant 5 200 = 50 := by
  decide

/-- C9 as stated fails outside the percentages that `main` accepts: with `D = 5` and 200%
vacant, `populateBoard` computes `numVacant = 50` but the board has only 25 cells. -/
theorem C9_populate_order_counterexample :
    rowMajor 5 (populateBoard 5 (fun _ _ => 'x') 200 50)
      ≠ layout (initNumVacant 5 200).toNat (initNumEndline 5 200 50).toNat
          (5 * 5 - (initNumVacant 5 200).toNat - (initNumEndline 5 200 50).toNat) := by
  intro h
  have hl := congrArg List.length h
  rw [initNumVacant_out_of_range] at hl
  simp only [rowMajor, List.length_map, length_cells, layout, List.length_append,
    List.length_replicate] at hl
  omega

set_option maxRecDepth 100000 in
theorem initNumVacant_divergence : initNumVacant 10 29 = 28 ∧ initNumEndline 10 29 60 = 43 := by
  decide

/-- C8 (divergence). With `D = 10`, 29% vacant and 60% endline, `populateBoard` writes 28
vacant cells, 43 `e` and 29 `n`, while `floor(10*10*29/100) = 29` and
`floor((100 - 29)*60/100) = 42`: the product `100 * (29 / 100.0)` is
`28.999999999999996` in binary64 and is truncated to 28. -/
theorem C8_populate_counts_divergence (b : Board) :
    (countKind 10 (populateBoard 10 b 29 60) '.' = 28 ∧
      countKind 10 (populateBoard 10 b 29 60) 'e' = 43 ∧
      countKind 10 (populateBoard 10 b 29 60) 'n' = 29) ∧
    (10 * 10 * 29 / 100 = 29 ∧ (10 * 10 - 29) * 60 / 100 = 42) := by
  have h := rowMajor_populateBoard 10 b 29 60
  rw [initNumVacant_divergence.1, initNumVacant_divergence.2] at h
  have h2 : rowMajor 10 (populateBoard 10 b 29 60) = layout 28 43 29 := by
    rw [h]
    rfl
  refine ⟨?_, by norm_num⟩
  rw [countKind_eq_count, countKind_eq_count, countKind_eq_count, h2]
  exact count_layout 28 43 29

/-! ## shuffle -/

theorem linear_mem_cells {D i : Nat} (hi : i < D * D) : (i / D, i % D) ∈ cells D := by
  rw [mem_cells]
  have hD : 0 < D := by
    rcases Nat.eq_zero_or_pos D with h | h
    · subst h
      simp at hi
    · exact h
  exact ⟨(Nat.div_lt_iff_lt_mul hD).mpr hi, Nat.mod_lt _ hD⟩

theorem shuffleStep_countKind (D : Nat) (b : Board) (i r : Nat) (hi : i < D * D) (k : Char) :
    countKind D (shuffleStep D b i r) k = countKind D b k := by
  have hs : r % (D * D - i) + i < D * D := by
    have := Nat.mod_lt r (show 0 < D * D - i by omega)
    omega
  exact countP_swap (cells D) (cells_nodup D) b (i / D, i % D)
    ((r % (D * D - i) + i) / D, (r % (D * D - i) + i) % D)
    (linear_mem_cells hi) (linear_mem_cells hs) k

theorem shuffle_foldl_countKind (D : Nat) (random : Nat → Nat) (k : Char) (l : List Nat)
    (hl : ∀ i ∈ l, i < D * D) (b : Board) :
    countKind D (l.foldl (fun b i => shuffleStep D b i (random i)) b) k = countKind D b k := by
  induction l generalizing b with
  | nil => rfl
  | cons i l ih =>
    rw [List.foldl_cons, ih (fun j hj => hl j (List.mem_cons_of_mem _ hj)),
      shuffleStep_countKind D b i (random i) (hl i (List.mem_cons_self _ _))]

theorem shuffle_countKind (D : Nat) (b : Board) (random : Nat → Nat) (k : Char) :
    countKind D (shuffle D b random) k = countKind D b k := by
  unfold shuffle
  apply shuffle_foldl_countKind
  intro i hi
  rw [List.mem_range] at hi
  omega

/-- C10. Whatever values the random source returns, `shuffle` only permutes the cells: the
board holds as many vacant cells, `e` cells and `n` cells after it as before, and its
row-major contents are a permutation of the former contents. -/
theorem C10_shuffle_permutation (D : Nat) (b : Board) (random : Nat → Nat) :
    countKind D (shuffle D b random) '.' = countKind D b '.' ∧
    countKind D (shuffle D b random) 'e' = countKind D b 'e' ∧
    countKind D (shuffle D b random) 'n' = countKind D b 'n' ∧
    (rowMajor D (shuffle D b random)).Perm (rowMajor D b) := by
  refine ⟨shuffle_countKind D b random '.', shuffle_countKind D b random 'e',
    shuffle_countKind D b random 'n', ?_⟩
  rw [List.perm_iff_count]
  intro k
  rw [← countKind_eq_count, ← countKind_eq_count]
  exact shuffle_countKind D b random k

/-! ## getBoardHappiness -/

theorem boardHappiness_foldl (D : Nat) (G : Board) (l : List (Nat × Nat))
    (st : HappinessState) :
    l.foldl (boardHappinessCell D G) st
      = ⟨((l.filter fun p => G p.1 p.2 ≠ '.').map fun p => getHappiness D G p.1 p.2).foldl fadd
          st.totalHappiness,
        st.numCounted + ((l.filter fun p => G p.1 p.2 ≠ '.').length : Int)⟩ := by
  induction l generalizing st with
  | nil => simp
  | cons p l ih =>
    rw [List.foldl_cons, ih]
    unfold boardHappinessCell
    by_cases h : G p.1 p.2 ≠ '.'
    · rw [if_pos h, List.filter_cons_of_pos (by simpa using h)]
      simp only [List.map_cons, List.foldl_cons, List.length_cons]
      congr 1
      push_cast
      ring
    · rw [if_neg h, List.filter_cons_of_neg (by simpa using h)]

theorem boardHappinessLoop_eq (D : Nat) (G : Board) :
    boardHappinessLoop D G = ⟨refSum D G, ((agents D G).length : Int)⟩ := by
  unfold boardHappinessLoop
  rw [boardHappiness_foldl]
  simp [refSum, agents]

theorem agents_length_pos (D : Nat) (G : Board)
    (h : ∃ r c, r < D ∧ c < D ∧ G r c ≠ '.') : 0 < (agents D G).length := by
  obtain ⟨r, c, hr, hc, hg⟩ := h
  apply List.length_pos_of_mem (a := (r, c))
  unfold agents
  rw [List.mem_filter]
  exact ⟨mem_cells.mpr ⟨hr, hc⟩, by simpa using hg⟩

/-- C11. For a grid with at least one agent, `getBoardHappiness` returns the mean of
`getHappiness` over exactly the non-vacant cells of the grid, divided by 100: the sum of
the happiness of these cells (added in row-major order, in binary64), divided by their
number, divided by 100; the loop counts exactly these cells. -/
theorem C11_getBoardHappiness_reference (D : Nat) (G : Board)
    (_h : ∃ r c, r < D ∧ c < D ∧ G r c ≠ '.') :
    getBoardHappiness D G = refBoardHappiness D G ∧
    (boardHappinessLoop D G).numCounted = ((agents D G).length : Int) ∧
    (∀ p : Nat × Nat, p ∈ agents D G ↔ (p.1 < D ∧ p.2 < D) ∧ G p.1 p.2 ≠ '.') := by
  refine ⟨?_, ?_, ?_⟩
  · unfold getBoardHappiness refBoardHappiness
    rw [boardHappinessLoop_eq]
  · rw [boardHappinessLoop_eq]
  · intro p
    unfold agents
    rw [List.mem_filter, mem_cells]
    simp

theorem checkNeighbor_le (g : Bool) (cell current : Char) (st : Nat × Nat) (h : st.1 ≤ st.2) :
    (checkNeighbor g cell current st).1 ≤ (checkNeighbor g cell current st).2 := by
  unfold checkNeighbor
  split_ifs <;> (try simp only) <;> omega

theorem neighborCounts_le (D : Nat) (b : Board) (r c : Nat) :
    (neighborCounts D b r c).1 ≤ (neighborCounts D b r c).2 := by
  unfold neighborCounts
  simp only
  repeat apply checkNeighbor_le
  exact Nat.le_refl 0

theorem getHappiness_le (D : Nat) (b : Board) (r c : Nat) :
    getHappiness D b r c ≤ ofInt 100 := by
  unfold getHappiness
  simp only
  split
  · rename_i hpos
    exact fmul_hundred_le _ (fdiv_ofInt_nonneg _ _)
      (fdiv_ofInt_le_one _ _ hpos (neighborCounts_le D b r c))
  · exact le_refl (ofInt 100).units

theorem fadd_nonneg (x y : Double) (hx : 0 ≤ x.units) (hy : 0 ≤ y.units) :
    0 ≤ (fadd x y).units := by
  unfold fadd
  apply round_nonneg
  rw [Int.mul_one]
  exact Int.add_nonneg hx hy

theorem fadd_le (x y : Double) (m1 m2 : Nat) (hm : m1 + m2 < 2 ^ 53) (hx0 : 0 ≤ x.units)
    (hy0 : 0 ≤ y.units) (hx : x ≤ ofInt m1) (hy : y ≤ ofInt m2) :
    fadd x y ≤ ofInt ((m1 + m2 : Nat) : Int) := by
  unfold fadd
  apply round_le _ _ (m1 + m2) (Int.add_nonneg hx0 hy0) (by norm_num) hm
  have h1 : x.units ≤ m1 * scale := hx
  have h2 : y.units ≤ m2 * scale := hy
  push_cast
  rw [Int.mul_one]
  calc x.units + y.units ≤ m1 * scale + m2 * scale := Int.add_le_add h1 h2
    _ = ((m1 : Int) + m2) * scale := by ring

/-- The binary64 sum of `hs.length` values in `[0, 100]`, started from a value in
`[0, 100 * k]`, is in `[0, 100 * (k + hs.length)]`. -/
theorem foldl_fadd_bounds (hs : List Double) (h : ∀ y ∈ hs, 0 ≤ y.units ∧ y ≤ ofInt 100) :
    ∀ (x : Double) (k : Nat), 100 * (k + hs.length) < 2 ^ 53 → 0 ≤ x.units →
      x ≤ ofInt ((100 * k : Nat) : Int) →
      0 ≤ (hs.foldl fadd x).units ∧
      hs.foldl fadd x ≤ ofInt ((100 * (k + hs.length) : Nat) : Int) := by
  induction hs with
  | nil =>
    intro x k _ hx0 hx
    exact ⟨hx0, hx⟩
  | cons y hs ih =>
    intro x k hk hx0 hx
    obtain ⟨hy0, hy⟩ := h y (List.mem_cons_self _ _)
    rw [List.length_cons] at hk
    have hstep := fadd_le x y (100 * k) 100 (by omega) hx0 hy0 hx hy
    have e : 100 * k + 100 = 100 * (k + 1) := by ring
    rw [e] at hstep
    have := ih (fun z hz => h z (List.mem_cons_of_mem _ hz)) (fadd x y) (k + 1)
      (by omega) (fadd_nonneg x y hx0 hy0) hstep
    rw [List.foldl_cons, List.length_cons]
    have e2 : k + 1 + hs.length = k + (hs.length + 1) := by ring
    rw [e2] at this
    exact this

theorem refSum_bounds (D : Nat) (G : Board) (hD : D * D < 2 ^ 31) :
    0 ≤ (refSum D G).units ∧
    refSum D G ≤ ofInt ((100 * (agents D G).length : Nat) : Int) := by
  have hlen : (agents D G).length ≤ D * D := by
    unfold agents
    exact (List.length_filter_le _ _).trans (le_of_eq (length_cells D))
  have h := foldl_fadd_bounds ((agents D G).map fun p => getHappiness D G p.1 p.2)
    (by
      intro y hy
      rw [List.mem_map] at hy
      obtain ⟨p, _, rfl⟩ := hy
      exact ⟨getHappiness_nonneg D G p.1 p.2, getHappiness_le D G p.1 p.2⟩)
    (ofInt 0) 0
    (by rw [List.length_map]; omega)
    (by rw [ofInt_units, Int.zero_mul])
    (le_refl (ofInt 0).units)
  rw [List.length_map, Nat.zero_add] at h
  exact h

/-- C12. For a grid with at least one agent (and a number of cells within the range of
the `int` counter `numCounted`), `0.0 ≤ getBoardHappiness ≤ 1.0`. -/
theorem C12_getBoardHappiness_range (D : Nat) (G : Board) (hD : D * D < 2 ^ 31)
    (h : ∃ r c, r < D ∧ c < D ∧ G r c ≠ '.') :
    ofInt 0 ≤ getBoardHappiness D G ∧ getBoardHappiness D G ≤ ofInt 1 := by
  have hpos := agents_length_pos D G h
  obtain ⟨hs0, hs1⟩ := refSum_bounds D G hD
  have hs2 : (refSum D G).units ≤ ((100 * (agents D G).length : Nat) : Int) * scale := hs1
  have hn : (0 : Int) < ((agents D G).length : Int) := by exact_mod_cast hpos
  have hsc := scale_nonneg_int
  have hget : getBoardHappiness D G
      = fdiv (fdiv (refSum D G) (ofInt (agents D G).length)) (ofInt 100) := by
    unfold getBoardHappiness
    rw [boardHappinessLoop_eq]
  -- the mean is in [0, 100]
  have hm0 : 0 ≤ (fdiv (refSum D G) (ofInt (agents D G).length)).units := by
    unfold fdiv
    apply round_nonneg
    rw [ofInt_units]
    exact Int.mul_nonneg (Int.mul_nonneg hs0 hsc) (Int.mul_nonneg hn.le hsc)
  have hm1 : fdiv (refSum D G) (ofInt (agents D G).length) ≤ ofInt ((100 : Nat) : Int) := by
    unfold fdiv
    rw [ofInt_units]
    apply round_le _ _ 100 (Int.mul_nonneg hs0 hsc) (Int.mul_pos hn scale_pos_int)
      (by norm_num)
    calc (refSum D G).units * scale
        ≤ ((100 * (agents D G).length : Nat) : Int) * scale * scale :=
          Int.mul_le_mul_of_nonneg_right hs2 hsc
      _ = ((100 : Nat) : Int) * scale * (((agents D G).length : Int) * scale) := by
          push_cast
          ring
  have hm2 : (fdiv (refSum D G) (ofInt (agents D G).length)).units
      ≤ ((100 : Nat) : Int) * scale := hm1
  have h100 : (0 : Int) < (100 : Int) * scale := Int.mul_pos (by norm_num) scale_pos_int
  rw [hget]
  constructor
  · show (ofInt 0).units ≤ _
    rw [ofInt_units, Int.zero_mul]
    unfold fdiv
    apply round_nonneg
    rw [ofInt_units]
    exact Int.mul_nonneg (Int.mul_nonneg hm0 hsc) h100.le
  · have e1 : ofInt 1 = ofInt ((1 : Nat) : Int) := rfl
    rw [e1]
    unfold fdiv
    rw [ofInt_units]
    apply round_le _ _ 1 (Int.mul_nonneg hm0 hsc) h100 (by norm_num)
    calc (fdiv (refSum D G) (ofInt (agents D G).length)).units * scale
        ≤ ((100 : Nat) : Int) * scale * scale := Int.mul_le_mul_of_nonneg_right hm2 hsc
      _ = ((1 : Nat) : Int) * scale * (100 * scale) := by
          push_cast
          ring

/-! ## The cells getHappiness reads -/

theorem countP_ite_singleton {α : Type} (P : α → Prop) [DecidablePred P] (g : Prop)
    [Decidable g] (x : α) :
    (if g then [x] else []).countP (fun q => P q) = if g ∧ P x then 1 else 0 := by
  by_cases hg : g <;> by_cases hp : P x <;> simp [hg, hp]

/-- The eight checks of the source count over the inspected neighbours. -/
theorem countP_inspectedNeighbors (D r c : Nat) (b : Board) (P : Char → Prop)
    [DecidablePred P] :
    (inspectedNeighbors D r c).countP (fun q => P (b q.1 q.2))
      = (if r > 0 ∧ P (b (r - 1) c) then 1 else 0)
        + (if c > 0 ∧ P (b r (c - 1)) then 1 else 0)
        + (if r < D - 1 ∧ P (b (r + 1) c) then 1 else 0)
        + (if c < D - 1 ∧ P (b r (c + 1)) then 1 else 0)
        + (if (r > 0 ∧ c > 0) ∧ P (b (r - 1) (c - 1)) then 1 else 0)
        + (if (r > 0 ∧ c < D - 1) ∧ P (b (r - 1) (c + 1)) then 1 else 0)
        + (if (r < D - 1 ∧ c > 0) ∧ P (b (r + 1) (c - 1)) then 1 else 0)
        + (if (r < D - 1 ∧ c < D - 1) ∧ P (b (r + 1) (c + 1)) then 1 else 0) := by
  unfold inspectedNeighbors
  simp only [List.countP_append, countP_ite_singleton (fun q : Nat × Nat => P (b q.1 q.2))]

theorem neighborCounts_inspected (D : Nat) (b : Board) (r c : Nat) :
    neighborCounts D b r c
      = ((inspectedNeighbors D r c).countP (fun q => b q.1 q.2 ≠ '.' ∧ b q.1 q.2 = b r c),
         (inspectedNeighbors D r c).countP (fun q => b q.1 q.2 ≠ '.')) := by
  unfold neighborCounts
  simp only [checkNeighbor_eq]
  rw [countP_inspectedNeighbors D r c b (fun x => x ≠ '.' ∧ x = b r c),
    countP_inspectedNeighbors D r c b (fun x => x ≠ '.')]
  simp only [Nat.zero_add]

theorem inspectedNeighbors_perm (D r c : Nat) (hr : r < D) (hc : c < D) :
    (inspectedNeighbors D r c).Perm (mooreNeighbors D r c) := by
  rw [List.perm_iff_count]
  intro q
  have h1 := countP_inspectedNeighbors D r c (fun x y => if (x, y) = q then 'a' else '.')
    (fun x => x = 'a')
  have h2 := countP_mooreNeighbors D r c (fun x y => if (x, y) = q then 'a' else '.')
    (fun x => x = 'a') hr hc
  rw [← h2] at h1
  have key : ∀ p : Nat × Nat, decide (p = q)
      = decide ((if (p.1, p.2) = q then 'a' else '.') = 'a') := by
    intro p
    by_cases hp : p = q
    · subst hp
      simp
    · have : ¬ (p.1, p.2) = q := hp
      simp [hp, this]
  unfold List.count
  refine (List.countP_congr ?_).trans (h1.trans (List.countP_congr ?_))
  · intro p _
    show decide (p = q) = true ↔ _
    rw [key p]
  · intro p _
    show _ ↔ decide (p = q) = true
    rw [key p]

theorem mem_mooreOffsets (o : Int × Int) :
    o ∈ mooreOffsets ↔ (o.1 = -1 ∨ o.1 = 0 ∨ o.1 = 1) ∧ (o.2 = -1 ∨ o.2 = 0 ∨ o.2 = 1) ∧
      o ≠ (0, 0) := by
  obtain ⟨x, y⟩ := o
  unfold mooreOffsets
  simp only [List.mem_filter, List.mem_flatMap, List.mem_map, List.mem_cons, List.mem_singleton,
    List.not_mem_nil, or_false, Prod.mk.injEq, decide_eq_true_eq, ne_eq]
  constructor
  · rintro ⟨⟨a, ha, b, hb, rfl, rfl⟩, hne⟩
    exact ⟨ha, hb, hne⟩
  · rintro ⟨ha, hb, hne⟩
    exact ⟨⟨x, ha, y, hb, rfl, rfl⟩, hne⟩

theorem mem_mooreNeighbors (D r c : Nat) (q : Nat × Nat) :
    q ∈ mooreNeighbors D r c ↔
      ∃ dr dc : Int, (dr = -1 ∨ dr = 0 ∨ dr = 1) ∧ (dc = -1 ∨ dc = 0 ∨ dc = 1) ∧
        (dr, dc) ≠ (0, 0) ∧ (0 ≤ (r : Int) + dr ∧ (r : Int) + dr < D) ∧
        (0 ≤ (c : Int) + dc ∧ (c : Int) + dc < D) ∧
        ((q.1 : Int) = r + dr ∧ (q.2 : Int) = c + dc) := by
  unfold mooreNeighbors
  simp only [List.mem_map, List.mem_filter, mem_mooreOffsets, decide_eq_true_eq, inGrid]
  constructor
  · rintro ⟨⟨dr, dc⟩, ⟨⟨h1, h2, h3⟩, h4, h5, h6, h7⟩, rfl⟩
    refine ⟨dr, dc, h1, h2, h3, ⟨h4, h5⟩, ⟨h6, h7⟩, ?_, ?_⟩
    · exact Int.toNat_of_nonneg h4
    · exact Int.toNat_of_nonneg h6
  · rintro ⟨dr, dc, h1, h2, h3, ⟨h4, h5⟩, ⟨h6, h7⟩, h8, h9⟩
    refine ⟨(dr, dc), ⟨⟨h1, h2, h3⟩, h4, h5, h6, h7⟩, ?_⟩
    apply Prod.ext
    · simp only
      omega
    · simp only
      omega

theorem mooreNeighbors_nodup (D r c : Nat) : (mooreNeighbors D r c).Nodup := by
  unfold mooreNeighbors
  apply List.Nodup.map_on
  · intro x hx y hy hxy
    rw [List.mem_filter] at hx hy
    have hx2 := hx.2
    have hy2 := hy.2
    simp only [decide_eq_true_eq, inGrid] at hx2 hy2
    simp only [Prod.mk.injEq] at hxy
    apply Prod.ext
    · omega
    · omega
  · exact List.Nodup.filter _ (by decide)

theorem length_inspectedNeighbors (D r c : Nat) :
    (inspectedNeighbors D r c).length + 1
      = ((if r > 0 then 1 else 0) + (if r < D - 1 then 1 else 0) + 1)
        * ((if c > 0 then 1 else 0) + (if c < D - 1 then 1 else 0) + 1) := by
  unfold inspectedNeighbors
  by_cases h1 : r > 0 <;> by_cases h2 : r < D - 1 <;> by_cases h3 : c > 0 <;>
    by_cases h4 : c < D - 1 <;> simp [h1, h2, h3, h4]

theorem adjacent_of_mem_inspectedNeighbors {D r c : Nat} (hr : r < D) (hc : c < D)
    {q : Nat × Nat} (hq : q ∈ inspectedNeighbors D r c) :
    (q.1 < D ∧ q.2 < D) ∧ adjacent r c q := by
  have hq2 := ((inspectedNeighbors_perm D r c hr hc).mem_iff).mp hq
  obtain ⟨dr, dc, h1, h2, h3, h4, h5, h6, h7⟩ := (mem_mooreNeighbors D r c q).mp hq2
  refine ⟨by omega, ?_, by omega, by omega⟩
  intro e
  rw [e] at h6 h7
  simp only at h6 h7
  apply h3
  apply Prod.ext
  · simp only
    omega
  · simp only
    omega

/-- C14. Locality: two grids of side `D` that agree at the in-grid cell `(r, c)` and at
every in-grid cell adjacent to it, orthogonally or diagonally, give `getHappiness` the same
value at `(r, c)`. -/
theorem C14_happiness_locality (D : Nat) (G1 G2 : Board) (r c : Nat) (hr : r < D) (hc : c < D)
    (h0 : G1 r c = G2 r c)
    (hadj : ∀ q : Nat × Nat, q.1 < D → q.2 < D → adjacent r c q → G1 q.1 q.2 = G2 q.1 q.2) :
    getHappiness D G1 r c = getHappiness D G2 r c := by
  have hq : ∀ q ∈ inspectedNeighbors D r c, G1 q.1 q.2 = G2 q.1 q.2 := by
    intro q hq
    obtain ⟨h1, h2⟩ := adjacent_of_mem_inspectedNeighbors hr hc hq
    exact hadj q h1.1 h1.2 h2
  have hcounts : neighborCounts D G1 r c = neighborCounts D G2 r c := by
    rw [neighborCounts_inspected, neighborCounts_inspected]
    congr 1
    · apply List.countP_congr
      intro q hq1
      rw [hq q hq1, h0]
    · apply List.countP_congr
      intro q hq1
      rw [hq q hq1]
  unfold getHappiness
  rw [hcounts]

/-! ## Binary64 rounding: representable values -/

theorem bitLen_sub_le (x m t : Nat) (hm : m < 2 ^ 53) (hx : x ≤ m * 2 ^ t) :
    bitLen x - 53 ≤ t := by
  by_contra hlt
  push_neg at hlt
  have hx0 : x ≠ 0 := by
    intro h0
    rw [h0, bitLen_zero] at hlt
    omega
  have h1 := two_pow_bitLen_le hx0
  have h2 : 2 ^ (53 + t) ≤ 2 ^ (bitLen x - 1) := Nat.pow_le_pow_right (by norm_num) (by omega)
  have h3 : m * 2 ^ t < 2 ^ 53 * 2 ^ t := Nat.mul_lt_mul_of_pos_right hm (by positivity)
  have h5 : (2 : Nat) ^ (53 + t) < 2 ^ (53 + t) :=
    calc (2 : Nat) ^ (53 + t) ≤ 2 ^ (bitLen x - 1) := h2
      _ ≤ x := h1
      _ ≤ m * 2 ^ t := hx
      _ < 2 ^ 53 * 2 ^ t := h3
      _ = 2 ^ (53 + t) := (pow_add 2 53 t).symm
  exact lt_irrefl _ h5

/-- Rounding never crosses a binary64 value `m * 2^t` (`m < 2^53`) from below. -/
theorem roundNat_le_pow (n d m t : Nat) (hd : 0 < d) (hm : m < 2 ^ 53)
    (h : n ≤ m * 2 ^ t * d) : roundNat n d ≤ m * 2 ^ t := by
  have hx : n / d ≤ m * 2 ^ t := by
    apply Nat.div_le_of_le_mul
    rw [Nat.mul_comm]
    exact h
  have hs := bitLen_sub_le (n / d) m t hm hx
  have hc := roundNat_cases n d
  generalize bitLen (n / d) - 53 = s at hs hc
  have hB : m * 2 ^ t = m * 2 ^ (t - s) * 2 ^ s := by
    rw [mul_assoc, ← pow_add]
    congr 2
    omega
  have hu : 0 < 2 ^ s := by positivity
  have hdu : 0 < d * 2 ^ s := Nat.mul_pos hd hu
  have hn : n ≤ d * 2 ^ s * (m * 2 ^ (t - s)) := by
    calc n ≤ m * 2 ^ t * d := h
      _ = d * 2 ^ s * (m * 2 ^ (t - s)) := by rw [hB]; ring
  have hq : n / (d * 2 ^ s) ≤ m * 2 ^ (t - s) := Nat.div_le_of_le_mul hn
  rcases hc with h1 | ⟨h1, h2⟩
  · rw [h1, hB]
    exact Nat.mul_le_mul_right _ hq
  · rw [h1, hB]
    apply Nat.mul_le_mul_right
    by_contra hcon
    have hge : m * 2 ^ (t - s) ≤ n / (d * 2 ^ s) := by omega
    have hmul := Nat.mul_le_mul_left (d * 2 ^ s) hge
    have hdm := Nat.div_add_mod n (d * 2 ^ s)
    have hr : n % (d * 2 ^ s) = 0 := by omega
    rw [hr] at h2
    omega

/-- A quotient that is a binary64 value `m * 2^t` (`m < 2^53`) is not changed by rounding. -/
theorem roundNat_exact (d m t : Nat) (hd : 0 < d) (hm : m < 2 ^ 53) :
    roundNat (m * 2 ^ t * d) d = m * 2 ^ t := by
  apply Nat.le_antisymm (roundNat_le_pow _ d m t hd hm (Nat.le_refl _))
  have hx : m * 2 ^ t * d / d = m * 2 ^ t := Nat.mul_div_cancel _ hd
  have hs := bitLen_sub_le (m * 2 ^ t * d / d) m t hm (le_of_eq hx)
  have hc := roundNat_cases (m * 2 ^ t * d) d
  generalize bitLen (m * 2 ^ t * d / d) - 53 = s at hs hc
  have hB : m * 2 ^ t = m * 2 ^ (t - s) * 2 ^ s := by
    rw [mul_assoc, ← pow_add]
    congr 2
    omega
  have hu : 0 < 2 ^ s := by positivity
  have hdu : 0 < d * 2 ^ s := Nat.mul_pos hd hu
  have hq : m * 2 ^ t * d / (d * 2 ^ s) = m * 2 ^ (t - s) := by
    have e : m * 2 ^ t * d = m * 2 ^ (t - s) * (d * 2 ^ s) := by rw [hB]; ring
    rw [e]
    exact Nat.mul_div_cancel _ hdu
  rw [hq] at hc
  rcases hc with h1 | ⟨h1, _⟩
  · rw [h1, ← hB]
  · rw [h1, add_mul, ← hB]
    omega

theorem round_natCast (n d : Nat) : round (n : Int) (d : Int) = ⟨(roundNat n d : Nat)⟩ := by
  unfold round
  rw [if_pos (Int.mul_nonneg (Int.natCast_nonneg n) (Int.natCast_nonneg d)), Int.natAbs_ofNat,
    Int.natAbs_ofNat]

/-- `N / N` is `1.0`. -/
theorem fdiv_self (N : Nat) (hN : 0 < N) : fdiv (ofInt N) (ofInt N) = ofInt 1 := by
  unfold fdiv
  rw [ofInt_units]
  have e1 : (N : Int) * scale * scale = ((1 * 2 ^ 1074 * (N * scale) : Nat) : Int) := by
    rw [← scale_eq]
    push_cast
    ring
  have e2 : (N : Int) * scale = ((N * scale : Nat) : Int) := by push_cast; ring
  rw [e1, e2, round_natCast, roundNat_exact _ 1 1074 (Nat.mul_pos hN scale_pos) (by norm_num),
    ← scale_eq]
  unfold ofInt
  push_cast
  rfl

/-- `1.0 * 100` is `100.0`. -/
theorem fmul_one_hundred : fmul (ofInt 1) (ofInt 100) = ofInt 100 := by
  unfold fmul
  rw [ofInt_units, ofInt_units]
  have e1 : (1 : Int) * scale * (100 * scale) = ((100 * 2 ^ 1074 * scale : Nat) : Int) := by
    rw [← scale_eq]
    push_cast
    ring
  rw [e1, round_natCast, roundNat_exact _ 100 1074 scale_pos (by norm_num), ← scale_eq]
  unfold ofInt
  push_cast
  rfl

/-! ## Grids with a single kind of agent -/

/-- On a grid whose agents are all of the kind `k`, every in-grid agent has happiness
`100.0`. -/
theorem getHappiness_single_kind (D : Nat) (G : Board) (k : Char)
    (hk : ∀ r c, r < D → c < D → G r c = '.' ∨ G r c = k) (r c : Nat) (hr : r < D)
    (hc : c < D) (ha : G r c ≠ '.') : getHappiness D G r c = ofInt 100 := by
  have hrc : G r c = k := (hk r c hr hc).resolve_left ha
  have hcounts : (neighborCounts D G r c).1 = (neighborCounts D G r c).2 := by
    rw [neighborCounts_inspected]
    simp only
    apply List.countP_congr
    intro q hq
    obtain ⟨h1, _⟩ := adjacent_of_mem_inspectedNeighbors hr hc hq
    simp only [decide_eq_true_eq]
    constructor
    · intro h
      exact h.1
    · intro h
      refine ⟨h, ?_⟩
      rw [hrc]
      exact (hk q.1 q.2 h1.1 h1.2).resolve_left h
  unfold getHappiness
  simp only
  split
  · rename_i hpos
    rw [hcounts, fdiv_self _ hpos, fmul_one_hundred]
  · rfl

theorem ofInt_lt_ofInt (a b : Int) : ofInt a < ofInt b ↔ a < b := by
  show a * scale < b * scale ↔ a < b
  constructor
  · intro h
    exact lt_of_mul_lt_mul_right h scale_nonneg_int
  · intro h
    exact Int.mul_lt_mul_of_pos_right h scale_pos_int

/-- On a grid whose agents are all of one kind, a step with a threshold of at most 100
leaves the state of `gameMove` as it is initially. -/
theorem gameMove_single_kind (D : Nat) (G : Board) (k : Char) (T : Int)
    (hk : ∀ r c, r < D → c < D → G r c = '.' ∨ G r c = k) (hT : T ≤ 100) :
    gameMove D G T = ⟨G, 0, 0⟩ := by
  unfold gameMove
  apply gameMoveLoop_of_not_unhappy
  intro p hp hu
  rw [mem_cells] at hp
  rw [getHappiness_single_kind D G k hk p.1 p.2 hp.1 hp.2 hu.1, ofInt_lt_ofInt] at hu
  omega

/-- C16. Scenario C: on a grid whose non-vacant cells are all of one kind `k`, with a
threshold `T ≤ 100`, every agent has happiness `100.0`, `gameMove` returns 0 and the grid is
unchanged. -/
theorem C16_single_kind_fixpoint (D : Nat) (G : Board) (k : Char) (T : Int)
    (hk : ∀ r c, r < D → c < D → G r c = '.' ∨ G r c = k) (hT : T ≤ 100) :
    (∀ r c, r < D → c < D → G r c ≠ '.' → getHappiness D G r c = ofInt 100) ∧
    (gameMove D G T).numMoves = 0 ∧ (gameMove D G T).board = G := by
  refine ⟨fun r c hr hc ha => getHappiness_single_kind D G k hk r c hr hc ha, ?_, ?_⟩
  · rw [gameMove_single_kind D G k T hk hT]
  · rw [gameMove_single_kind D G k T hk hT]

/-- C17 (amended). Scenario B: on a grid holding a single agent, at the in-grid cell
`(a, b)`, every other cell being vacant, `gameMove` called with a threshold `T ≤ 100` makes
0 moves. -/
theorem C17_isolated_agent (D : Nat) (G : Board) (T : Int) (a b : Nat) (_ha : a < D)
    (_hb : b < D) (_hagent : G a b ≠ '.')
    (hothers : ∀ r c, r < D → c < D → (r, c) ≠ (a, b) → G r c = '.') (hT : T ≤ 100) :
    (gameMove D G T).numMoves = 0 := by
  rw [gameMove_single_kind D G (G a b) T ?_ hT]
  intro r c hr hc
  by_cases h : (r, c) = (a, b)
  · right
    rw [Prod.mk.injEq] at h
    rw [h.1, h.2]
  · left
    exact hothers r c hr hc h

/-! ## An agent always exists -/

theorem scale_eq_mul : scale = 128 * 2 ^ 1067 := by
  have hadd : ∀ a b c : Nat, a + b = c → (2 : Nat) ^ a * 2 ^ b = 2 ^ c := by
    intro a b c e
    rw [← e, pow_add]
  have h := hadd 7 1067 1074 rfl
  rw [scale_eq, ← h]
  norm_num

/-- With at most 99% of vacancies, `populateBoard` computes `numVacant < totalSpaces`. -/
theorem initNumVacant_lt (D : Nat) (hD0 : 0 < D) (hD : D * D < 2 ^ 31) (v : Int) (h0 : 0 ≤ v)
    (h99 : v ≤ 99) : initNumVacant D v < D * D := by
  have ev : v = ((v.toNat : Nat) : Int) := (Int.toNat_of_nonneg h0).symm
  have hv : v.toNat ≤ 99 := by omega
  generalize v.toNat = w at ev hv
  subst ev
  have hP : 0 < 2 ^ 1067 := by positivity
  have hs := scale_eq_mul
  -- x = w / 100.0 is at most 127/128
  have hx : fdiv (ofInt w) (ofInt 100) = ⟨(roundNat (w * scale * scale) (100 * scale) : Nat)⟩ := by
    unfold fdiv
    rw [ofInt_units, ofInt_units]
    have e1 : (w : Int) * scale * scale = ((w * scale * scale : Nat) : Int) := by push_cast; ring
    have e2 : (100 : Int) * scale = ((100 * scale : Nat) : Int) := by push_cast; ring
    rw [e1, e2, round_natCast]
  have hxle : roundNat (w * scale * scale) (100 * scale) ≤ 127 * 2 ^ 1067 := by
    apply roundNat_le_pow _ _ 127 1067 (Nat.mul_pos (by norm_num) scale_pos) (by norm_num)
    have h1 : w * scale ≤ 127 * 2 ^ 1067 * 100 := by
      rw [hs]
      generalize 2 ^ 1067 = P at hP
      calc w * (128 * P) = w * 128 * P := by ring
        _ ≤ 12700 * P := Nat.mul_le_mul_right _ (by omega)
        _ = 127 * P * 100 := by ring
    calc w * scale * scale ≤ 127 * 2 ^ 1067 * 100 * scale := Nat.mul_le_mul_right _ h1
      _ = 127 * 2 ^ 1067 * (100 * scale) := by ring
  generalize roundNat (w * scale * scale) (100 * scale) = xn at hx hxle
  -- y = totalSpaces * x is at most totalSpaces * 127/128
  have hy : fmul (ofInt ((D : Int) * D)) ⟨(xn : Nat)⟩
      = ⟨(roundNat (D * D * scale * xn) scale : Nat)⟩ := by
    unfold fmul
    rw [ofInt_units]
    have e1 : (D : Int) * D * scale * (xn : Int) = ((D * D * scale * xn : Nat) : Int) := by
      push_cast
      ring
    rw [e1, round_natCast]
  have hyle : roundNat (D * D * scale * xn) scale ≤ D * D * 127 * 2 ^ 1067 := by
    apply roundNat_le_pow _ _ (D * D * 127) 1067 scale_pos (by omega)
    calc D * D * scale * xn ≤ D * D * scale * (127 * 2 ^ 1067) := Nat.mul_le_mul_left _ hxle
      _ = D * D * 127 * 2 ^ 1067 * scale := by ring
  generalize roundNat (D * D * scale * xn) scale = yn at hy hyle
  unfold initNumVacant
  simp only
  rw [hx, hy]
  unfold toInt
  simp only
  rw [Int.tdiv_eq_ediv (Int.natCast_nonneg _) scale_nonneg_int]
  have hdiv : yn / scale < D * D := by
    rw [Nat.div_lt_iff_lt_mul scale_pos, hs]
    have hDD : 0 < D * D := Nat.mul_pos hD0 hD0
    have h2 : D * D * 127 * 2 ^ 1067 < D * D * (128 * 2 ^ 1067) := by
      have : D * D * 127 < D * D * 128 := by omega
      calc D * D * 127 * 2 ^ 1067 < D * D * 128 * 2 ^ 1067 :=
            Nat.mul_lt_mul_of_pos_right this hP
        _ = D * D * (128 * 2 ^ 1067) := by ring
    exact lt_of_le_of_lt hyle h2
  exact_mod_cast hdiv

theorem exists_agent_of_countKind_lt (D : Nat) (G : Board)
    (h : countKind D G '.' < D * D) : ∃ r c, r < D ∧ c < D ∧ G r c ≠ '.' := by
  by_contra hno
  push_neg at hno
  have hall : countKind D G '.' = (cells D).length := by
    unfold countKind
    rw [List.countP_eq_length]
    intro p hp
    rw [mem_cells] at hp
    simpa using hno p.1 p.2 hp.1 hp.2
  rw [length_cells] at hall
  omega

theorem populateBoard_countKind_vacant (D : Nat) (b : Board) (v e : Int) :
    countKind D (populateBoard D b v e) '.' = min (initNumVacant D v).toNat (D * D) := by
  rw [countKind_eq_count, rowMajor_populateBoard]
  exact (count_layout _ _ _).1

/-- C20. For a valid configuration (`D` in `[5, 39]`, `vacancyPct` and `endlinePct` in
`[1, 99]`), the grid written by `populateBoard` and every grid reached from it by `shuffle`
and any number of calls of `gameMove` holds at least one agent, and the divisor
`numCounted` of `getBoardHappiness` is positive on it. -/
theorem C20_agent_exists (D : Nat) (b : Board) (v e : Int) (hD : 5 ≤ D ∧ D ≤ 39)
    (hv : 1 ≤ v ∧ v ≤ 99) (_he : 1 ≤ e ∧ e ≤ 99) :
    (∃ r c, r < D ∧ c < D ∧ populateBoard D b v e r c ≠ '.') ∧
    ∀ (random : Nat → Nat) (T : Int) (t : Nat),
      (∃ r c, r < D ∧ c < D ∧
        cycles D T t (shuffle D (populateBoard D b v e) random) r c ≠ '.') ∧
      0 < (boardHappinessLoop D
        (cycles D T t (shuffle D (populateBoard D b v e) random))).numCounted := by
  have hDD : D * D < 2 ^ 31 := by
    have : D * D ≤ 39 * 39 := Nat.mul_le_mul hD.2 hD.2
    omega
  have hlt := initNumVacant_lt D (by omega) hDD v (by omega) hv.2
  have hcount : countKind D (populateBoard D b v e) '.' < D * D := by
    rw [populateBoard_countKind_vacant]
    have hpos : 0 < D * D := Nat.mul_pos (by omega) (by omega)
    have hlt2 : initNumVacant D v < ((D * D : Nat) : Int) := by
      push_cast
      exact hlt
    omega
  refine ⟨exists_agent_of_countKind_lt D _ hcount, ?_⟩
  intro random T t
  have hex : ∃ r c, r < D ∧ c < D ∧
      cycles D T t (shuffle D (populateBoard D b v e) random) r c ≠ '.' := by
    apply exists_agent_of_countKind_lt
    rw [cycles_countKind, shuffle_countKind]
    exact hcount
  refine ⟨hex, ?_⟩
  rw [boardHappinessLoop_eq]
  simp only
  exact_mod_cast agents_length_pos D _ hex

/-! ## Print mode -/

theorem cycles_succ (D : Nat) (T : Int) (k : Nat) (G : Board) :
    cycles D T (k + 1) G = cycles D T k (gameMove D G T).board := by
  unfold cycles
  rw [Function.iterate_succ_apply]

theorem printModeLoop_succ (D : Nat) (T numCycles : Int) (fuel : Nat) (st : DriverState)
    (cycle : Int) (h1 : cycle ≤ numCycles) (h2 : cycle < INT_MAX) :
    printModeLoop D T numCycles (fuel + 1) st cycle
      = match printModeLoop D T numCycles fuel
            ⟨(gameMove D st.board T).board, (gameMove D st.board T).numMoves,
              getBoardHappiness D (gameMove D st.board T).board⟩ (cycle + 1) with
        | Except.ok rest => Except.ok (⟨st.board, cycle, st.moves, st.happiness⟩ :: rest)
        | Except.error e => Except.error e := by
  conv_lhs => unfold printModeLoop
  rw [if_pos h1]
  unfold intIncr
  rw [if_pos h2]

theorem printModeLoop_overflow (D : Nat) (T : Int) (fuel : Nat) (st : DriverState) :
    printModeLoop D T INT_MAX (fuel + 1) st INT_MAX = Except.error Fault.intOverflow := by
  conv_lhs => unfold printModeLoop
  rw [if_pos (le_refl _)]
  unfold intIncr
  rw [if_neg (lt_irrefl _)]

theorem printModeLoop_done (D : Nat) (T numCycles : Int) (fuel : Nat) (st : DriverState)
    (cycle : Int) (h : ¬ cycle ≤ numCycles) :
    printModeLoop D T numCycles (fuel + 1) st cycle = Except.ok [] := by
  conv_lhs => unfold printModeLoop
  rw [if_neg h]

/-- With `numCycles` below `INT_MAX` and enough fuel, the loop of print mode prints the
`n` snapshots of the cycles `cycle, ..., numCycles`. -/
theorem printModeLoop_ok (D : Nat) (T numCycles : Int) (hC : numCycles < INT_MAX)
    (n : Nat) :
    ∀ (fuel : Nat) (st : DriverState) (cycle : Int), cycle + n = numCycles + 1 → n < fuel →
      st.happiness = getBoardHappiness D st.board →
      ∃ snaps, printModeLoop D T numCycles fuel st cycle = Except.ok snaps ∧
        snaps.length = n ∧
        ∀ k, k < n → snaps[k]?
          = some ⟨cycles D T k st.board, cycle + k,
              (match k with
                | 0 => st.moves
                | j + 1 => (gameMove D (cycles D T j st.board) T).numMoves),
              getBoardHappiness D (cycles D T k st.board)⟩ := by
  induction n with
  | zero =>
    intro fuel st cycle hc hf _
    obtain ⟨f, rfl⟩ : ∃ f, fuel = f + 1 := ⟨fuel - 1, by omega⟩
    refine ⟨[], printModeLoop_done D T numCycles f st cycle (by omega), rfl, ?_⟩
    intro k hk
    omega
  | succ n ih =>
    intro fuel st cycle hc hf hst
    obtain ⟨f, rfl⟩ : ∃ f, fuel = f + 1 := ⟨fuel - 1, by omega⟩
    obtain ⟨rest, hrest, hlen, hget⟩ := ih f
      ⟨(gameMove D st.board T).board, (gameMove D st.board T).numMoves,
        getBoardHappiness D (gameMove D st.board T).board⟩ (cycle + 1)
      (by push_cast at hc; omega) (by omega) rfl
    refine ⟨⟨st.board, cycle, st.moves, st.happiness⟩ :: rest, ?_, ?_, ?_⟩
    · rw [printModeLoop_succ D T numCycles f st cycle (by push_cast at hc; omega)
        (by push_cast at hc; omega), hrest]
    · rw [List.length_cons, hlen]
    · intro k hk
      cases k with
      | zero =>
        rw [List.getElem?_cons_zero, hst]
        simp only [Nat.cast_zero, add_zero]
        rfl
      | succ j =>
        rw [List.getElem?_cons_succ, hget j (by omega)]
        simp only [cycles_succ]
        have e : cycle + 1 + (j : Int) = cycle + ((j + 1 : Nat) : Int) := by
          push_cast
          ring
        rw [e]
        cases j with
        | zero => rfl
        | succ i => rfl

/-- With `numCycles = INT_MAX` and enough fuel, the loop of print mode reaches
`cycle = INT_MAX`, where `cycle++` overflows. -/
theorem printModeLoop_reaches_overflow (D : Nat) (T : Int) (n : Nat) :
    ∀ (fuel : Nat) (st : DriverState) (cycle : Int), cycle + n = INT_MAX → n < fuel →
      printModeLoop D T INT_MAX fuel st cycle = Except.error Fault.intOverflow := by
  induction n with
  | zero =>
    intro fuel st cycle hc hf
    obtain ⟨f, rfl⟩ : ∃ f, fuel = f + 1 := ⟨fuel - 1, by omega⟩
    have e : cycle = INT_MAX := by simpa using hc
    rw [e]
    exact printModeLoop_overflow D T f st
  | succ n ih =>
    intro fuel st cycle hc hf
    obtain ⟨f, rfl⟩ : ∃ f, fuel = f + 1 := ⟨fuel - 1, by omega⟩
    rw [printModeLoop_succ D T INT_MAX f st cycle (by push_cast at hc; omega)
      (by push_cast at hc; omega),
      ih f _ (cycle + 1) (by push_cast at hc ⊢; omega) (by omega)]

/-- With `numCycles = INT_MAX` the loop of print mode ends normally for no fuel. -/
theorem printModeLoop_never_ok (D : Nat) (T : Int) (fuel : Nat) :
    ∀ (st : DriverState) (cycle : Int), cycle ≤ INT_MAX →
      ∀ snaps, printModeLoop D T INT_MAX fuel st cycle ≠ Except.ok snaps := by
  induction fuel with
  | zero =>
    intro st cycle _ snaps h
    unfold printModeLoop at h
    exact absurd h (by simp)
  | succ f ih =>
    intro st cycle hc snaps h
    by_cases hlt : cycle < INT_MAX
    · rw [printModeLoop_succ D T INT_MAX f st cycle hc hlt] at h
      split at h
      · rename_i rest hrest
        exact ih _ (cycle + 1) (by omega) rest hrest
      · exact absurd h (by simp)
    · have e : cycle = INT_MAX := by omega
      rw [e, printModeLoop_overflow] at h
      exact absurd h (by simp)

theorem countKind_lt_of_agent (D : Nat) (G : Board)
    (h : ∃ r c, r < D ∧ c < D ∧ G r c ≠ '.') : countKind D G '.' < D * D := by
  obtain ⟨r, c, hr, hc, hne⟩ := h
  unfold countKind
  rw [← length_cells D]
  apply lt_of_le_of_ne (List.countP_le_length _)
  intro heq
  rw [List.countP_eq_length] at heq
  have := heq (r, c) (mem_cells.mpr ⟨hr, hc⟩)
  simp only [decide_eq_true_eq] at this
  exact hne this

/-- C15. Print mode with the cycle count `C`, `0 ≤ C < INT_MAX`, from a grid `G0` that
holds an agent emits exactly `C + 1` snapshots; the snapshot number `k` (`k = 0..C`) shows
the cycle index `k`, the grid obtained from `G0` by `k` applications of `gameMove` (which
holds an agent), the move count returned by the `k`-th application (0 for `k = 0`) and
`getBoardHappiness` of the grid shown.  With `C = INT_MAX`, a value `main` accepts, the
loop test `cycle <= numCycles` never fails and `cycle++` overflows at `cycle = INT_MAX`:
the run does not end after `C + 1` snapshots. -/
theorem C15_batch_observations (D : Nat) (T : Int) (C : Nat) (G0 : Board) :
    ((C : Int) < INT_MAX → (∃ r c, r < D ∧ c < D ∧ G0 r c ≠ '.') →
      ∃ snaps, printMode D T C G0 = Except.ok snaps ∧
        (∀ fuel, C + 2 ≤ fuel →
          printModeLoop D T C fuel ⟨G0, 0, getBoardHappiness D G0⟩ 0 = Except.ok snaps) ∧
        snaps.length = C + 1 ∧
        ∀ k, k ≤ C →
          snaps[k]? = some ⟨cycles D T k G0, (k : Int), refMoves D T G0 k,
            getBoardHappiness D (cycles D T k G0)⟩ ∧
          ∃ r c, r < D ∧ c < D ∧ cycles D T k G0 r c ≠ '.') ∧
    ((C : Int) = INT_MAX →
      printMode D T C G0 = Except.error Fault.intOverflow ∧
      ∀ (fuel : Nat) (snaps : List Snapshot),
        printModeLoop D T C fuel ⟨G0, 0, getBoardHappiness D G0⟩ 0 ≠ Except.ok snaps) := by
  constructor
  · intro hC hagent
    have hfuel : ((C : Int) + 2).toNat = C + 2 := by omega
    obtain ⟨snaps, hrun, hlen, hget⟩ := printModeLoop_ok D T C hC (C + 1) (C + 2)
      ⟨G0, 0, getBoardHappiness D G0⟩ 0 (by push_cast; ring) (by omega) rfl
    refine ⟨snaps, ?_, ?_, hlen, ?_⟩
    · unfold printMode
      rw [hfuel]
      exact hrun
    · intro fuel hf
      obtain ⟨snaps2, hrun2, hlen2, hget2⟩ := printModeLoop_ok D T C hC (C + 1) fuel
        ⟨G0, 0, getBoardHappiness D G0⟩ 0 (by push_cast; ring) (by omega) rfl
      rw [hrun2]
      congr 1
      apply List.ext_getElem?
      intro k
      by_cases hk : k < C + 1
      · rw [hget k hk, hget2 k hk]
      · rw [List.getElem?_eq_none (by omega), List.getElem?_eq_none (by omega)]
    · intro k hk
      refine ⟨?_, ?_⟩
      · rw [hget k (by omega)]
        simp only [zero_add]
        cases k with
        | zero => rfl
        | succ j => rfl
      · apply exists_agent_of_countKind_lt
        rw [cycles_countKind]
        exact countKind_lt_of_agent D G0 hagent
  · intro hC
    rw [hC]
    refine ⟨?_, ?_⟩
    · unfold printMode
      exact printModeLoop_reaches_overflow D T 2147483647 _ _ 0 (by decide) (by decide)
    · intro fuel snaps
      exact printModeLoop_never_ok D T fuel _ 0 (by decide) snaps

/-! ## Options of main -/

/-- C18. Option validation and exit codes: a `-c` value below 0, a `-d` value outside
`[5, 39]` and a `-v` or `-e` value outside `[1, 99]` end the run with exit code 2; a `-s`
value outside `[1, 99]` ends the run with exit code 1; a value inside its range is stored
in the configuration and the run goes on. -/
theorem C18_option_validation (temp : Int) (cfg : Config) :
    (temp < 0 → handleOption 'c' temp cfg = Except.error 2) ∧
    (¬ (5 ≤ temp ∧ temp ≤ 39) → handleOption 'd' temp cfg = Except.error 2) ∧
    (¬ (1 ≤ temp ∧ temp ≤ 99) → handleOption 'v' temp cfg = Except.error 2) ∧
    (¬ (1 ≤ temp ∧ temp ≤ 99) → handleOption 'e' temp cfg = Except.error 2) ∧
    (¬ (1 ≤ temp ∧ temp ≤ 99) → handleOption 's' temp cfg = Except.error 1) ∧
    (0 ≤ temp → handleOption 'c' temp cfg
      = Except.ok ⟨cfg.time, 0, temp, cfg.dimensions, cfg.strengthThreshold, cfg.vacant,
          cfg.endline⟩) ∧
    (5 ≤ temp ∧ temp ≤ 39 → handleOption 'd' temp cfg
      = Except.ok ⟨cfg.time, cfg.infiniteMode, cfg.numCycles, temp, cfg.strengthThreshold,
          cfg.vacant, cfg.endline⟩) ∧
    (1 ≤ temp ∧ temp ≤ 99 → handleOption 'v' temp cfg
      = Except.ok ⟨cfg.time, cfg.infiniteMode, cfg.numCycles, cfg.dimensions,
          cfg.strengthThreshold, temp, cfg.endline⟩) ∧
    (1 ≤ temp ∧ temp ≤ 99 → handleOption 'e' temp cfg
      = Except.ok ⟨cfg.time, cfg.infiniteMode, cfg.numCycles, cfg.dimensions,
          cfg.strengthThreshold, cfg.vacant, temp⟩) ∧
    (1 ≤ temp ∧ temp ≤ 99 → handleOption 's' temp cfg
      = Except.ok ⟨cfg.time, cfg.infiniteMode, cfg.numCycles, cfg.dimensions, temp,
          cfg.vacant, cfg.endline⟩) := by
  have hc : ('c' : Char) ≠ 'h' ∧ ('c' : Char) ≠ 't' := by decide
  have hd : ('d' : Char) ≠ 'h' ∧ ('d' : Char) ≠ 't' ∧ ('d' : Char) ≠ 'c' := by decide
  have hs : ('s' : Char) ≠ 'h' ∧ ('s' : Char) ≠ 't' ∧ ('s' : Char) ≠ 'c' ∧
      ('s' : Char) ≠ 'd' := by decide
  have hv : ('v' : Char) ≠ 'h' ∧ ('v' : Char) ≠ 't' ∧ ('v' : Char) ≠ 'c' ∧
      ('v' : Char) ≠ 'd' ∧ ('v' : Char) ≠ 's' := by decide
  have he : ('e' : Char) ≠ 'h' ∧ ('e' : Char) ≠ 't' ∧ ('e' : Char) ≠ 'c' ∧
      ('e' : Char) ≠ 'd' ∧ ('e' : Char) ≠ 's' ∧ ('e' : Char) ≠ 'v' := by decide
  refine ⟨?_, ?_, ?_, ?_, ?_, ?_, ?_, ?_, ?_, ?_⟩
  · intro h
    unfold handleOption
    rw [if_neg hc.1, if_neg hc.2, if_pos rfl, if_neg (by omega)]
    rfl
  · intro h
    unfold handleOption
    rw [if_neg hd.1, if_neg hd.2.1, if_neg hd.2.2, if_pos rfl, if_neg (by omega)]
    rfl
  · intro h
    unfold handleOption
    rw [if_neg hv.1, if_neg hv.2.1, if_neg hv.2.2.1, if_neg hv.2.2.2.1, if_neg hv.2.2.2.2,
      if_pos rfl, if_neg (by omega)]
    rfl
  · intro h
    unfold handleOption
    rw [if_neg he.1, if_neg he.2.1, if_neg he.2.2.1, if_neg he.2.2.2.1, if_neg he.2.2.2.2.1,
      if_neg he.2.2.2.2.2, if_pos rfl, if_neg (by omega)]
    rfl
  · intro h
    unfold handleOption
    rw [if_neg hs.1, if_neg hs.2.1, if_neg hs.2.2.1, if_neg hs.2.2.2, if_pos rfl,
      if_neg (by omega)]
    rfl
  · intro h
    unfold handleOption
    rw [if_neg hc.1, if_neg hc.2, if_pos rfl, if_pos (by omega)]
  · intro h
    unfold handleOption
    rw [if_neg hd.1, if_neg hd.2.1, if_neg hd.2.2, if_pos rfl, if_pos (by omega)]
  · intro h
    unfold handleOption
    rw [if_neg hv.1, if_neg hv.2.1, if_neg hv.2.2.1, if_neg hv.2.2.2.1, if_neg hv.2.2.2.2,
      if_pos rfl, if_pos (by omega)]
  · intro h
    unfold handleOption
    rw [if_neg he.1, if_neg he.2.1, if_neg he.2.2.1, if_neg he.2.2.2.1, if_neg he.2.2.2.2.1,
      if_neg he.2.2.2.2.2, if_pos rfl, if_pos (by omega)]
  · intro h
    unfold handleOption
    rw [if_neg hs.1, if_neg hs.2.1, if_neg hs.2.2.1, if_neg hs.2.2.2, if_pos rfl,
      if_pos (by omega)]

/-! ## The permutations shuffle cannot produce -/

theorem linear_cell_injective {D : Nat} {p q : Nat}
    (h : (p / D, p % D) = (q / D, q % D)) : p = q := by
  rw [Prod.mk.injEq] at h
  have h1 := Nat.div_add_mod p D
  have h2 := Nat.div_add_mod q D
  rw [h.1, h.2] at h1
  omega

theorem shuffleStep_other (D : Nat) (b : Board) (i r p : Nat) (hpi : p ≠ i)
    (hpj : p ≠ r % (D * D - i) + i) :
    shuffleStep D b i r (p / D) (p % D) = b (p / D) (p % D) := by
  unfold shuffleStep
  rw [Board.set_other _ _ (fun h => hpj (linear_cell_injective h)),
    Board.set_other _ _ (fun h => hpi (linear_cell_injective h))]

theorem shuffleStep_at (D : Nat) (b : Board) (i r : Nat) :
    shuffleStep D b i r (i / D) (i % D)
      = b ((r % (D * D - i) + i) / D) ((r % (D * D - i) + i) % D) := by
  unfold shuffleStep
  by_cases h : (i / D, i % D) = ((r % (D * D - i) + i) / D, (r % (D * D - i) + i) % D)
  · rw [Prod.mk.injEq] at h
    rw [← h.1, ← h.2, Board.set_same]
  · rw [Board.set_other _ _ h, Board.set_same]

theorem Board.set_self (b : Board) (i j : Nat) : (b.set i j (b i j)).set i j (b i j) = b := by
  funext x y
  unfold Board.set
  by_cases h : x = i ∧ y = j
  · rw [if_pos h, h.1, h.2]
  · rw [if_neg h, if_neg h]

/-- The steps at indices above `p` leave the cell of linear index `p` as it is. -/
theorem shuffle_foldl_below (D : Nat) (random : Nat → Nat) (p : Nat)
    (l : List Nat) (hl : ∀ i ∈ l, p < i) (b : Board) :
    (l.foldl (fun b i => shuffleStep D b i (random i)) b) (p / D) (p % D)
      = b (p / D) (p % D) := by
  induction l generalizing b with
  | nil => rfl
  | cons i l ih =>
    rw [List.foldl_cons, ih (fun j hj => hl j (List.mem_cons_of_mem _ hj))]
    have hi := hl i (List.mem_cons_self _ _)
    exact shuffleStep_other D b i (random i) p (by omega) (by omega)

/-- If the loop of `shuffle`, run over increasing indices on a board with pairwise
distinct cells, leaves the cell of every index it visits in place, it leaves the whole
board as it is: every draw was the index itself. -/
theorem shuffle_foldl_fixed (D : Nat) (random : Nat → Nat) (b : Board)
    (hinj : ∀ p q, p < D * D → q < D * D → b (p / D) (p % D) = b (q / D) (q % D) → p = q)
    (l : List Nat) (hsorted : l.Pairwise (· < ·)) (hlt : ∀ i ∈ l, i < D * D)
    (hfix : ∀ i ∈ l, (l.foldl (fun b i => shuffleStep D b i (random i)) b) (i / D) (i % D)
      = b (i / D) (i % D)) :
    l.foldl (fun b i => shuffleStep D b i (random i)) b = b := by
  induction l with
  | nil => rfl
  | cons i l ih =>
    rw [List.pairwise_cons] at hsorted
    have hi := hlt i (List.mem_cons_self _ _)
    have hj : random i % (D * D - i) + i < D * D := by
      have := Nat.mod_lt (random i) (show 0 < D * D - i by omega)
      omega
    have h1 := hfix i (List.mem_cons_self _ _)
    rw [List.foldl_cons, shuffle_foldl_below D random i l hsorted.1, shuffleStep_at] at h1
    have hji : random i % (D * D - i) + i = i := hinj _ _ hj hi h1
    have hstep : shuffleStep D b i (random i) = b := by
      unfold shuffleStep
      rw [hji]
      exact Board.set_self b _ _
    rw [List.foldl_cons, hstep]
    apply ih hsorted.2 (fun j hj => hlt j (List.mem_cons_of_mem _ hj))
    intro j hj
    have h2 := hfix j (List.mem_cons_of_mem _ hj)
    rw [List.foldl_cons, hstep] at h2
    exact h2

/-- On a board with pairwise distinct cells, `shuffle` never produces the arrangement in
which the last two cells are exchanged and all the others are in place. -/
theorem shuffle_never_swaps_last (D : Nat) (b : Board) (random : Nat → Nat) (hD : 2 ≤ D * D)
    (hinj : ∀ p q, p < D * D → q < D * D → b (p / D) (p % D) = b (q / D) (q % D) → p = q) :
    ¬ ((∀ i, i < D * D - 2 → shuffle D b random (i / D) (i % D) = b (i / D) (i % D)) ∧
      shuffle D b random ((D * D - 2) / D) ((D * D - 2) % D)
        = b ((D * D - 1) / D) ((D * D - 1) % D)) := by
  rintro ⟨h1, h2⟩
  have hfix : shuffle D b random = b := by
    unfold shuffle
    apply shuffle_foldl_fixed D random b hinj _ (List.pairwise_lt_range _)
    · intro i hi
      rw [List.mem_range] at hi
      omega
    · intro i hi
      rw [List.mem_range] at hi
      exact h1 i hi
  rw [hfix] at h2
  have := hinj _ _ (by omega) (by omega) h2
  omega

theorem lettersBoard_distinct_aux :
    ∀ p, p < 5 * 5 → ∀ q, q < 5 * 5 →
      lettersBoard (p / 5) (p % 5) = lettersBoard (q / 5) (q % 5) → p = q := by
  decide

theorem lettersBoard_distinct :
    ∀ p q, p < 5 * 5 → q < 5 * 5 →
      lettersBoard (p / 5) (p % 5) = lettersBoard (q / 5) (q % 5) → p = q :=
  fun p q hp hq => lettersBoard_distinct_aux p hp q hq

theorem lettersSwapped_spec :
    (∀ i, i < 5 * 5 - 2 → lettersSwapped (i / 5) (i % 5) = lettersBoard (i / 5) (i % 5)) ∧
    lettersSwapped ((5 * 5 - 2) / 5) ((5 * 5 - 2) % 5)
      = lettersBoard ((5 * 5 - 1) / 5) ((5 * 5 - 1) % 5) := by
  decide

/-- C19 (divergence). On the board of side 5 holding the letters `a` to `y`, no values of
the random source make `shuffle` produce the arrangement in which the last two cells are
exchanged and the others are in place: the loop stops at index `total - 3`, so the draws
reach only half of the permutations of the cells. -/
theorem C19_shuffle_unreachable (random : Nat → Nat) :
    ¬ (∀ i j, i < 5 → j < 5 → shuffle 5 lettersBoard random i j = lettersSwapped i j) := by
  intro h
  apply shuffle_never_swaps_last 5 lettersBoard random (by norm_num) lettersBoard_distinct
  have hcell : ∀ i, i < 25 → i / 5 < 5 ∧ i % 5 < 5 := by
    intro i hi
    omega
  constructor
  · intro i hi
    rw [h _ _ (hcell i (by omega)).1 (hcell i (by omega)).2]
    exact lettersSwapped_spec.1 i hi
  · rw [h _ _ (by norm_num) (by norm_num)]
    exact lettersSwapped_spec.2

/-! ## The iterations of shuffle -/

theorem shuffleLogged_foldl (D : Nat) (random : Nat → Nat) (l : List Nat) (b : Board)
    (log : List (Nat × Nat)) :
    l.foldl (fun (st : Board × List (Nat × Nat)) i =>
        (shuffleStep D st.1 i (random i), st.2 ++ [(i, swapIndex D i (random i))])) (b, log)
      = (l.foldl (fun b i => shuffleStep D b i (random i)) b,
          log ++ l.map fun i => (i, swapIndex D i (random i))) := by
  induction l generalizing b log with
  | nil => simp
  | cons i l ih =>
    rw [List.foldl_cons, ih, List.foldl_cons, List.map_cons, List.append_assoc]
    rfl

theorem intMul_natCast (D : Nat) (h : D * D ≤ 2147483647) :
    intMul D D = some ((D * D : Nat) : Int) := by
  unfold intMul INT_MAX
  rw [if_pos]
  · push_cast
    rfl
  · constructor
    · have : (0 : Int) ≤ (D : Int) * D := Int.mul_nonneg (by omega) (by omega)
      omega
    · exact_mod_cast h

theorem shuffleLogged_eq (D : Nat) (h : D * D ≤ 2147483647) (b : Board)
    (random : Nat → Nat) :
    shuffleLogged D b random
      = some (shuffle D b random,
          (List.range (D * D - 2)).map fun i => (i, swapIndex D i (random i))) := by
  unfold shuffleLogged shuffle
  rw [intMul_natCast D h]
  simp only
  have hn : (((D * D : Nat) : Int) - 2).toNat = D * D - 2 := by omega
  rw [hn, shuffleLogged_foldl, List.nil_append]

theorem swapIndex_bounds (D i r : Nat) (hi : i < D * D) :
    i ≤ swapIndex D i r ∧ swapIndex D i r < D * D := by
  unfold swapIndex
  have := Nat.mod_lt r (show 0 < D * D - i by omega)
  omega

/-- One iteration exchanges the contents of the cells of linear indices `i` and
`swapIndex`, and leaves every other cell as it is. -/
theorem shuffleStep_exchange (D : Nat) (b : Board) (i r : Nat) :
    shuffleStep D b i r (i / D) (i % D) = b (swapIndex D i r / D) (swapIndex D i r % D) ∧
    shuffleStep D b i r (swapIndex D i r / D) (swapIndex D i r % D) = b (i / D) (i % D) ∧
    ∀ x y, (x, y) ≠ (i / D, i % D) → (x, y) ≠ (swapIndex D i r / D, swapIndex D i r % D) →
      shuffleStep D b i r x y = b x y := by
  refine ⟨shuffleStep_at D b i r, ?_, ?_⟩
  · unfold shuffleStep swapIndex
    exact Board.set_same _ _ _ _
  · intro x y h1 h2
    unfold shuffleStep
    unfold swapIndex at h2
    rw [Board.set_other _ _ h2, Board.set_other _ _ h1]

/-- C21. Shuffle loop shape and index safety: for `D * D ≥ 2` within the range of `int`
and any values of the random source, the loop of `shuffle` runs exactly `D * D - 2`
iterations, the iteration number `i` (counted from 0) being the one of linear index `i`;
its partner `j = random i % (D * D - i) + i` satisfies `i ≤ j < D * D`; the cells
`(i / D, i % D)` and `(j / D, j % D)` are inside the grid, and the iteration exchanges
their contents and changes no other cell. -/
theorem C21_shuffle_loop_shape (D : Nat) (hD : 2 ≤ D * D) (hint : D * D ≤ 2147483647)
    (board : Board) (random : Nat → Nat) :
    ∃ log : List (Nat × Nat),
      shuffleLogged D board random = some (shuffle D board random, log) ∧
      log.length = D * D - 2 ∧
      log.map Prod.fst = List.range (D * D - 2) ∧
      (∀ i, i < D * D - 2 → log[i]? = some (i, random i % (D * D - i) + i)) ∧
      (∀ ij ∈ log,
        (ij.1 ≤ ij.2 ∧ ij.2 < D * D) ∧
        (ij.1 / D < D ∧ ij.1 % D < D) ∧ (ij.2 / D < D ∧ ij.2 % D < D)) ∧
      ∀ (b : Board) (i : Nat), i < D * D - 2 →
        shuffleStep D b i (random i) (i / D) (i % D)
          = b ((random i % (D * D - i) + i) / D) ((random i % (D * D - i) + i) % D) ∧
        shuffleStep D b i (random i) ((random i % (D * D - i) + i) / D)
          ((random i % (D * D - i) + i) % D) = b (i / D) (i % D) ∧
        ∀ x y, (x, y) ≠ (i / D, i % D) →
          (x, y) ≠ ((random i % (D * D - i) + i) / D, (random i % (D * D - i) + i) % D) →
          shuffleStep D b i (random i) x y = b x y := by
  refine ⟨(List.range (D * D - 2)).map fun i => (i, swapIndex D i (random i)),
    shuffleLogged_eq D hint board random, ?_, ?_, ?_, ?_, ?_⟩
  · simp
  · rw [List.map_map]
    exact List.map_id _
  · intro i hi
    rw [List.getElem?_map, List.getElem?_range hi]
    rfl
  · intro ij hij
    rw [List.mem_map] at hij
    obtain ⟨i, hi, rfl⟩ := hij
    rw [List.mem_range] at hi
    have hb := swapIndex_bounds D i (random i) (by omega)
    exact ⟨hb, mem_cells.mp (linear_mem_cells (show i < D * D by omega)),
      mem_cells.mp (linear_mem_cells hb.2)⟩
  · intro b i _
    exact shuffleStep_exchange D b i (random i)

/-! ## The result of moveAgent -/

theorem findVacant_none_iff {D : Nat} {board temp : Board} {first : Int} :
    findVacant D board temp first = none ↔
      ∀ i j, i < D → j < D → ¬ (temp i j = '.' ∧ board i j = '.') := by
  have key : ∀ l : List (Nat × Nat), (∀ q, q ∈ l ↔ q ∈ cells D) →
      (l.find? (fun p => decide (temp p.1 p.2 = '.' ∧ board p.1 p.2 = '.')) = none ↔
        ∀ i j, i < D → j < D → ¬ (temp i j = '.' ∧ board i j = '.')) := by
    intro l hl
    rw [List.find?_eq_none]
    constructor
    · intro h i j hi hj
      have := h (i, j) ((hl _).mpr (mem_cells.mpr ⟨hi, hj⟩))
      simpa using this
    · intro h q hq
      have := h q.1 q.2 (mem_cells.mp ((hl _).mp hq)).1 (mem_cells.mp ((hl _).mp hq)).2
      simpa using this
  unfold findVacant
  split
  · exact key _ (fun _ => Iff.rfl)
  · refine key _ (fun q => ?_)
    rw [cellsRev_eq, List.mem_reverse]

theorem mem_diffCells {D : Nat} {b1 b2 : Board} {q : Nat × Nat} :
    q ∈ diffCells D b1 b2 ↔ (q.1 < D ∧ q.2 < D) ∧ b1 q.1 q.2 ≠ b2 q.1 q.2 := by
  unfold diffCells
  rw [List.mem_filter, mem_cells]
  simp

theorem diffCells_nodup (D : Nat) (b1 b2 : Board) : (diffCells D b1 b2).Nodup :=
  (cells_nodup D).filter _

/-- C22. The result of `moveAgent` for an in-grid cell `(row, col)` that holds an agent in
`board`: it returns 0 if and only if no in-grid cell is vacant in both `board` and
`tempBoard`, and then `board` is unchanged; otherwise it returns 1 and `board` changes at
exactly two cells: the chosen destination, vacant in both boards before, now holds the
former content of `(row, col)`, and `(row, col)` is vacant. -/
theorem C22_moveAgent_result (D : Nat) (board tempBoard : Board) (row col : Nat)
    (first : Int) (hrow : row < D) (hcol : col < D) (hagent : board row col ≠ '.') :
    ((moveAgent D board tempBoard row col first).2 = 0 ↔
      ∀ i j, i < D → j < D → ¬ (tempBoard i j = '.' ∧ board i j = '.')) ∧
    ((moveAgent D board tempBoard row col first).2 = 0 →
      (moveAgent D board tempBoard row col first).1 = board) ∧
    ((moveAgent D board tempBoard row col first).2 ≠ 0 →
      (moveAgent D board tempBoard row col first).2 = 1 ∧
      ∃ d : Nat × Nat, findVacant D board tempBoard first = some d ∧
        (d.1 < D ∧ d.2 < D) ∧ (tempBoard d.1 d.2 = '.' ∧ board d.1 d.2 = '.') ∧
        (moveAgent D board tempBoard row col first).1 d.1 d.2 = board row col ∧
        (moveAgent D board tempBoard row col first).1 row col = '.' ∧
        (∀ q : Nat × Nat, q ∈ diffCells D (moveAgent D board tempBoard row col first).1 board
          ↔ q = d ∨ q = (row, col)) ∧
        (diffCells D (moveAgent D board tempBoard row col first).1 board).length = 2) := by
  cases h : findVacant D board tempBoard first with
  | none =>
    rw [moveAgent_none row col h]
    exact ⟨⟨fun _ => findVacant_none_iff.mp h, fun _ => rfl⟩, fun _ => rfl,
      fun hne => absurd rfl hne⟩
  | some d =>
    rw [moveAgent_some row col h]
    obtain ⟨hd1, hd2, hd3⟩ := findVacant_some h
    have hne : d ≠ (row, col) := by
      intro e
      rw [e] at hd3
      exact hagent hd3
    have hdest : ((board.set d.1 d.2 (board row col)).set row col '.') d.1 d.2
        = board row col := by
      rw [Board.set_other _ _ hne, Board.set_same]
    have hmem : ∀ q : Nat × Nat,
        q ∈ diffCells D ((board.set d.1 d.2 (board row col)).set row col '.') board
          ↔ q = d ∨ q = (row, col) := by
      intro q
      rw [mem_diffCells]
      constructor
      · rintro ⟨_, hq⟩
        by_contra hcon
        rw [not_or] at hcon
        exact hq (by rw [Board.set_other _ _ hcon.2, Board.set_other _ _ hcon.1])
      · rintro (e | e)
        · rw [e]
          refine ⟨mem_cells.mp hd1, ?_⟩
          rw [hdest, hd3]
          exact hagent
        · rw [e]
          refine ⟨⟨hrow, hcol⟩, ?_⟩
          show ((board.set d.1 d.2 (board row col)).set row col '.') row col ≠ board row col
          rw [Board.set_same]
          exact fun e2 => hagent e2.symm
    have h10 : (1 : Int) ≠ 0 := by decide
    refine ⟨⟨fun h0 => absurd h0 h10, fun hall => ?_⟩, fun h0 => absurd h0 h10,
      fun _ => ⟨rfl, d, rfl, mem_cells.mp hd1, ⟨hd2, hd3⟩, hdest, Board.set_same _ _ _ _,
        hmem, ?_⟩⟩
    · exact absurd ⟨hd2, hd3⟩ (hall d.1 d.2 (mem_cells.mp hd1).1 (mem_cells.mp hd1).2)
    · have hperm : (diffCells D ((board.set d.1 d.2 (board row col)).set row col '.')
          board).Perm [d, (row, col)] := by
        rw [List.perm_ext_iff_of_nodup (diffCells_nodup _ _ _)
          (by simp [hne])]
        intro q
        rw [hmem q]
        simp
      rw [hperm.length_eq]
      rfl

/-! ## One relocation per agent and cycle -/

/-- The loop body leaves the agents of the cells it does not visit where they are. -/
theorem gameMoveCell_unvisited {D : Nat} {temp : Board} {T : Int} (st : MoveState)
    (p q : Nat × Nat) (hqp : q ≠ p) (hq : temp q.1 q.2 ≠ '.') :
    (gameMoveCell D temp T st p).board q.1 q.2 = st.board q.1 q.2 := by
  cases h : relocation D temp T st p with
  | none => rw [gameMoveCell_none h]
  | some d =>
    obtain ⟨_, _, hf⟩ := relocation_some h
    obtain ⟨_, h3, _⟩ := findVacant_some hf
    apply gameMoveCell_board_other h q hqp
    intro e
    rw [e] at hq
    exact hq h3

theorem gameMoveLoop_unvisited {D : Nat} {temp : Board} {T : Int} (l : List (Nat × Nat))
    (q : Nat × Nat) (hql : q ∉ l) (hq : temp q.1 q.2 ≠ '.') (st : MoveState) :
    (gameMoveLoop D temp T st l).board q.1 q.2 = st.board q.1 q.2 := by
  induction l generalizing st with
  | nil => rfl
  | cons p l ih =>
    rw [List.mem_cons, not_or] at hql
    rw [gameMoveLoop_cons, ih hql.2, gameMoveCell_unvisited st p q hql.1 hq]

/-- A cell that holds an agent in the snapshot holds that agent or is vacant, throughout
the loop. -/
theorem gameMoveCell_agent_or_vacant {D : Nat} {temp : Board} {T : Int} (st : MoveState)
    (p q : Nat × Nat) (hq : temp q.1 q.2 ≠ '.')
    (h : st.board q.1 q.2 = temp q.1 q.2 ∨ st.board q.1 q.2 = '.') :
    (gameMoveCell D temp T st p).board q.1 q.2 = temp q.1 q.2 ∨
      (gameMoveCell D temp T st p).board q.1 q.2 = '.' := by
  by_cases hqp : q = p
  · cases hr : relocation D temp T st p with
    | none =>
      rw [gameMoveCell_none hr]
      exact h
    | some d =>
      rw [hqp]
      exact Or.inr (gameMoveCell_board_source hr)
  · rw [gameMoveCell_unvisited st p q hqp hq]
    exact h

theorem gameMoveLoop_agent_or_vacant {D : Nat} {temp : Board} {T : Int}
    (l : List (Nat × Nat)) (q : Nat × Nat) (hq : temp q.1 q.2 ≠ '.') (st : MoveState)
    (h : st.board q.1 q.2 = temp q.1 q.2 ∨ st.board q.1 q.2 = '.') :
    (gameMoveLoop D temp T st l).board q.1 q.2 = temp q.1 q.2 ∨
      (gameMoveLoop D temp T st l).board q.1 q.2 = '.' := by
  induction l generalizing st with
  | nil => exact h
  | cons p l ih =>
    rw [gameMoveLoop_cons]
    exact ih _ (gameMoveCell_agent_or_vacant st p q hq h)

/-- The sources of the relocations, in the order of the relocations, are cells of the
traversal in the order of the traversal. -/
theorem relocations_sources_sublist (D : Nat) (temp : Board) (T : Int)
    (l : List (Nat × Nat)) (st : MoveState) :
    ((relocations D temp T st l).map Prod.fst).Sublist l := by
  induction l generalizing st with
  | nil => exact List.Sublist.slnil
  | cons p l ih =>
    cases h : relocation D temp T st p with
    | none =>
      rw [relocations_cons_none _ h]
      exact List.Sublist.cons _ (ih _)
    | some d =>
      rw [relocations_cons_some _ h, List.map_cons]
      exact List.Sublist.cons₂ _ (ih _)

/-- The loop body does nothing at a cell that is vacant in the snapshot. -/
theorem gameMoveCell_vacant_snapshot {D : Nat} {temp : Board} {T : Int} (st : MoveState)
    (p : Nat × Nat) (hp : temp p.1 p.2 = '.') : gameMoveCell D temp T st p = st := by
  unfold gameMoveCell
  rw [if_neg]
  exact fun h => h.1 hp

/-- C23. At most one relocation per agent per cycle: after one call of `gameMove`, every
cell that held an agent in `G` holds that same kind or is vacant; every relocation of the
call took an agent of `G` to a cell vacant in `G`, and at the end of the call that cell
still holds that agent; the loop body does nothing at such a cell (the moved agent is not
evaluated again), no destination is the source of a relocation and no cell is the source
of two relocations (no agent is moved again). -/
theorem C23_one_relocation_per_agent (D : Nat) (G : Board) (T : Int) :
    (∀ r c, G r c ≠ '.' →
      (gameMove D G T).board r c = G r c ∨ (gameMove D G T).board r c = '.') ∧
    (∀ pd ∈ relocations D G T ⟨G, 0, 0⟩ (cells D),
      G pd.1.1 pd.1.2 ≠ '.' ∧ G pd.2.1 pd.2.2 = '.' ∧
      (gameMove D G T).board pd.2.1 pd.2.2 = G pd.1.1 pd.1.2 ∧
      (∀ st : MoveState, gameMoveCell D G T st pd.2 = st) ∧
      pd.2 ∉ (relocations D G T ⟨G, 0, 0⟩ (cells D)).map Prod.fst) ∧
    ((relocations D G T ⟨G, 0, 0⟩ (cells D)).map Prod.fst).Nodup := by
  refine ⟨?_, ?_, ?_⟩
  · intro r c h
    exact gameMoveLoop_agent_or_vacant (cells D) (r, c) h ⟨G, 0, 0⟩ (Or.inl rfl)
  · intro pd hpd
    obtain ⟨h1, h2, _, h4⟩ := relocations_effect D G T (cells D) pd hpd
    refine ⟨h1, h2, h4, fun st => gameMoveCell_vacant_snapshot st pd.2 h2, ?_⟩
    intro hmem
    rw [List.mem_map] at hmem
    obtain ⟨pd2, hpd2, e⟩ := hmem
    have h5 := (relocations_effect D G T (cells D) pd2 hpd2).1
    rw [e] at h5
    exact h5 h2
  · exact (relocations_sources_sublist D G T (cells D) ⟨G, 0, 0⟩).nodup (cells_nodup D)

/-! ## The guard on the working board -/

theorem gameMoveCellUnguarded_eq {D : Nat} {temp : Board} {T : Int} (st : MoveState)
    (p : Nat × Nat) (h : temp p.1 p.2 ≠ '.' → st.board p.1 p.2 = temp p.1 p.2) :
    gameMoveCellUnguarded D temp T st p = gameMoveCell D temp T st p := by
  unfold gameMoveCellUnguarded gameMoveCell
  by_cases hp : temp p.1 p.2 ≠ '.'
  · have hg : temp p.1 p.2 ≠ '.' ∧ temp p.1 p.2 = st.board p.1 p.2 := ⟨hp, (h hp).symm⟩
    rw [if_pos hg, if_pos hp]
  · have hg : ¬ (temp p.1 p.2 ≠ '.' ∧ temp p.1 p.2 = st.board p.1 p.2) := fun hh => hp hh.1
    rw [if_neg hg, if_neg hp]

theorem gameMoveLoop_unguarded {D : Nat} {temp : Board} {T : Int} (l : List (Nat × Nat))
    (hl : l.Nodup) (st : MoveState)
    (h : ∀ q ∈ l, temp q.1 q.2 ≠ '.' → st.board q.1 q.2 = temp q.1 q.2) :
    l.foldl (gameMoveCellUnguarded D temp T) st = gameMoveLoop D temp T st l := by
  induction l generalizing st with
  | nil => rfl
  | cons p l ih =>
    rw [List.nodup_cons] at hl
    rw [List.foldl_cons, gameMoveLoop_cons,
      gameMoveCellUnguarded_eq st p (h p (List.mem_cons_self _ _))]
    apply ih hl.2
    intro q hq hqa
    have hqp : q ≠ p := fun e => hl.1 (e ▸ hq)
    rw [gameMoveCell_unvisited st p q hqp hqa]
    exact h q (List.mem_cons_of_mem _ hq) hqa

/-- C25. The guard `tempBoard[i][j] == board[i][j]` is redundant: whenever the traversal
of `gameMove` reaches a cell `p` that holds an agent in `tempBoard`, the working board
holds the same character at `p`; hence `gameMove` computes the same board and the same
number of moves as the variant whose guard is `tempBoard[i][j] != '.'` only. -/
theorem C25_guard_redundant (D : Nat) (G : Board) (T : Int) :
    (∀ (pre post : List (Nat × Nat)) (p : Nat × Nat), cells D = pre ++ p :: post →
      G p.1 p.2 ≠ '.' → (gameMoveLoop D G T ⟨G, 0, 0⟩ pre).board p.1 p.2 = G p.1 p.2) ∧
    (gameMoveUnguarded D G T).board = (gameMove D G T).board ∧
    (gameMoveUnguarded D G T).numMoves = (gameMove D G T).numMoves := by
  have heq : gameMoveUnguarded D G T = gameMove D G T :=
    gameMoveLoop_unguarded (cells D) (cells_nodup D) ⟨G, 0, 0⟩ (fun _ _ _ => rfl)
  refine ⟨?_, by rw [heq], by rw [heq]⟩
  intro pre post p hsplit hp
  have hnd := cells_nodup D
  rw [hsplit, List.nodup_append] at hnd
  have hnot : p ∉ pre := fun hmem => hnd.2.2 hmem (List.mem_cons_self _ _)
  exact gameMoveLoop_unvisited pre p hnot hp ⟨G, 0, 0⟩

/-! ## The number of moves of a cycle -/

theorem findVacant_none_iff_available {D : Nat} {board temp : Board} {first : Int} :
    findVacant D board temp first = none ↔ available D temp board = [] := by
  by_cases h : first = 0
  · subst h
    rw [findVacant_backward, List.getLast?_eq_none_iff]
  · rw [findVacant_forward h, List.head?_eq_none_iff]

theorem relocations_singleton (D : Nat) (temp : Board) (T : Int) (st : MoveState)
    (p : Nat × Nat) :
    (relocations D temp T st [p]).map Prod.fst
      = if (relocation D temp T st p).isSome then [p] else [] := by
  cases h : relocation D temp T st p with
  | none =>
    rw [relocations_cons_none _ h]
    rfl
  | some d =>
    rw [relocations_cons_some _ h]
    rfl

/-- The relocation at a cell not yet visited: it happens exactly when the cell holds an
unhappy agent and a cell is still available. -/
theorem relocation_isSome_iff {D : Nat} {G : Board} {T : Int} (l : List (Nat × Nat))
    (p : Nat × Nat) (hp : p ∉ l) :
    (relocation D G T (gameMoveLoop D G T ⟨G, 0, 0⟩ l) p).isSome ↔
      (G p.1 p.2 ≠ '.' ∧ getHappiness D G p.1 p.2 < ofInt T) ∧
      available D G (gameMoveLoop D G T ⟨G, 0, 0⟩ l).board ≠ [] := by
  unfold relocation
  constructor
  · intro h
    split at h
    · rename_i hg
      refine ⟨⟨hg.1.1, (happiness_test D G p.1 p.2 T).mp hg.2⟩, ?_⟩
      intro hav
      rw [findVacant_none_iff_available.mpr hav] at h
      exact absurd h (by simp)
    · exact absurd h (by simp)
  · rintro ⟨⟨h1, h2⟩, h3⟩
    have hb : (gameMoveLoop D G T ⟨G, 0, 0⟩ l).board p.1 p.2 = G p.1 p.2 :=
      gameMoveLoop_unvisited l p hp h1 ⟨G, 0, 0⟩
    have hg : (G p.1 p.2 ≠ '.' ∧ G p.1 p.2 = (gameMoveLoop D G T ⟨G, 0, 0⟩ l).board p.1 p.2) ∧
        toInt (getHappiness D G p.1 p.2) < T :=
      ⟨⟨h1, hb.symm⟩, (happiness_test D G p.1 p.2 T).mpr h2⟩
    rw [if_pos hg]
    rw [Option.isSome_iff_ne_none]
    exact fun hn => h3 (findVacant_none_iff_available.mp hn)

/-- The number of cells still available after the loop has visited the cells `l`. -/
theorem available_length (D : Nat) (G : Board) (T : Int) (l : List (Nat × Nat)) :
    (available D G (gameMoveLoop D G T ⟨G, 0, 0⟩ l).board).length
        + (relocations D G T ⟨G, 0, 0⟩ l).length = (vacancies D G).length := by
  obtain ⟨_, _, ⟨front, back, h3, h4, h5⟩, _⟩ := alternation_invariant D G T l
  rw [h3]
  simp only [List.length_append]
  omega

/-- The sources of the relocations over the cells `l` are the first unhappy agents of `l`,
as many as there are vacant cells. -/
theorem relocations_sources (D : Nat) (G : Board) (T : Int) (l : List (Nat × Nat))
    (hl : l.Nodup) :
    (relocations D G T ⟨G, 0, 0⟩ l).map Prod.fst
      = (l.filter fun q => G q.1 q.2 ≠ '.' ∧ getHappiness D G q.1 q.2 < ofInt T).take
          (vacancies D G).length := by
  induction l using List.reverseRecOn with
  | nil =>
    rw [List.filter_nil, List.take_nil]
    rfl
  | append_singleton l p ih =>
    rw [List.nodup_append] at hl
    have hp : p ∉ l := fun hmem => hl.2.2 hmem (List.mem_singleton_self p)
    have ih2 := ih hl.1
    have hlen := available_length D G T l
    have hk : (relocations D G T ⟨G, 0, 0⟩ l).length
        = min (vacancies D G).length
            (l.filter fun q => G q.1 q.2 ≠ '.' ∧ getHappiness D G q.1 q.2 < ofInt T).length := by
      rw [← List.length_take, ← ih2, List.length_map]
    rw [relocations_append, List.map_append, relocations_singleton, ih2, List.filter_append]
    by_cases hu : G p.1 p.2 ≠ '.' ∧ getHappiness D G p.1 p.2 < ofInt T
    · have hf : [p].filter (fun q => decide (G q.1 q.2 ≠ '.' ∧
          getHappiness D G q.1 q.2 < ofInt T)) = [p] := by
        rw [List.filter_cons_of_pos (by simpa using hu)]
        rfl
      rw [hf]
      by_cases hav : available D G (gameMoveLoop D G T ⟨G, 0, 0⟩ l).board = []
      · have hnone : ¬ (relocation D G T (gameMoveLoop D G T ⟨G, 0, 0⟩ l) p).isSome = true :=
          fun h => ((relocation_isSome_iff l p hp).mp h).2 hav
        rw [if_neg hnone, List.append_nil]
        rw [hav, List.length_nil] at hlen
        rw [List.take_append_of_le_length (by omega)]
      · have hsome : (relocation D G T (gameMoveLoop D G T ⟨G, 0, 0⟩ l) p).isSome = true :=
          (relocation_isSome_iff l p hp).mpr ⟨hu, hav⟩
        have hpos : 0 < (available D G (gameMoveLoop D G T ⟨G, 0, 0⟩ l).board).length :=
          List.length_pos.mpr hav
        rw [if_pos hsome]
        rw [List.take_of_length_le (by omega),
          List.take_of_length_le (by simp only [List.length_append, List.length_singleton]; omega)]
    · have hf : [p].filter (fun q => decide (G q.1 q.2 ≠ '.' ∧
          getHappiness D G q.1 q.2 < ofInt T)) = [] := by
        rw [List.filter_cons_of_neg (by simpa using hu)]
        rfl
      have hnone : ¬ (relocation D G T (gameMoveLoop D G T ⟨G, 0, 0⟩ l) p).isSome = true :=
        fun h => hu ((relocation_isSome_iff l p hp).mp h).1
      rw [hf, if_neg hnone, List.append_nil, List.append_nil]

/-- The loop changes the board only at the sources and the destinations of its
relocations. -/
theorem relocations_frame (D : Nat) (G : Board) (T : Int) (l : List (Nat × Nat))
    (q : Nat × Nat) (hs : q ∉ (relocations D G T ⟨G, 0, 0⟩ l).map Prod.fst)
    (hd : q ∉ (relocations D G T ⟨G, 0, 0⟩ l).map Prod.snd) :
    (gameMoveLoop D G T ⟨G, 0, 0⟩ l).board q.1 q.2 = G q.1 q.2 := by
  have key := @relocations_invariant D G T
    (fun st tr => ∀ q : Nat × Nat, q ∉ tr.map Prod.fst → q ∉ tr.map Prod.snd →
      st.board q.1 q.2 = G q.1 q.2)
    (by
      intro st tr p d hall h q hs hd
      rw [List.map_append, List.mem_append, not_or, List.map_singleton,
        List.mem_singleton] at hs hd
      rw [gameMoveCell_board_other h q hs.2 hd.2]
      exact hall q hs.1 hd.1)
    l ⟨G, 0, 0⟩ [] (by
      intro q _ _
      rfl)
  rw [List.nil_append] at key
  exact key q hs hd

/-- The board after the loop differs from the initial one at two cells per relocation. -/
theorem diffCells_length (D : Nat) (G : Board) (T : Int) :
    (diffCells D (gameMove D G T).board G).length
      = 2 * (relocations D G T ⟨G, 0, 0⟩ (cells D)).length := by
  have heff := relocations_effect D G T (cells D)
  obtain ⟨hdn, hdm⟩ := destinations_invariant D G T (cells D)
  have hsub := relocations_sources_sublist D G T (cells D) ⟨G, 0, 0⟩
  have hsn := hsub.nodup (cells_nodup D)
  have hdisj : ∀ q, q ∈ (relocations D G T ⟨G, 0, 0⟩ (cells D)).map Prod.fst →
      q ∉ (relocations D G T ⟨G, 0, 0⟩ (cells D)).map Prod.snd := by
    intro q h1 h2
    rw [List.mem_map] at h1
    obtain ⟨pd, hpd, rfl⟩ := h1
    exact (heff pd hpd).1 (hdm _ h2).2.1
  have hperm : (diffCells D (gameMove D G T).board G).Perm
      ((relocations D G T ⟨G, 0, 0⟩ (cells D)).map Prod.fst
        ++ (relocations D G T ⟨G, 0, 0⟩ (cells D)).map Prod.snd) := by
    rw [List.perm_ext_iff_of_nodup (diffCells_nodup _ _ _)
      (List.Nodup.append hsn hdn (fun q h1 h2 => hdisj q h1 h2))]
    intro q
    rw [mem_diffCells, List.mem_append]
    constructor
    · rintro ⟨_, hne⟩
      by_contra hcon
      rw [not_or] at hcon
      exact hne (relocations_frame D G T (cells D) q hcon.1 hcon.2)
    · rintro (h | h)
      · refine ⟨mem_cells.mp (hsub.subset h), ?_⟩
        rw [List.mem_map] at h
        obtain ⟨pd, hpd, rfl⟩ := h
        obtain ⟨h1, _, h3, _⟩ := heff pd hpd
        show (gameMoveLoop D G T ⟨G, 0, 0⟩ (cells D)).board pd.1.1 pd.1.2 ≠ G pd.1.1 pd.1.2
        rw [h3]
        exact fun e => h1 e.symm
      · obtain ⟨h1, h2, h3⟩ := hdm q h
        refine ⟨mem_cells.mp h1, ?_⟩
        show (gameMoveLoop D G T ⟨G, 0, 0⟩ (cells D)).board q.1 q.2 ≠ G q.1 q.2
        rw [h2]
        exact h3
  rw [hperm.length_eq, List.length_append, List.length_map, List.length_map]
  omega

/-- C24. Move count in closed form: with `U` the number of agents of `G` whose happiness
in `G` is below `T` and `V` the number of vacant cells of `G`, `gameMove` returns
`min U V`; the agents it relocates are the first `min U V` unhappy agents in row-major
order, in that order; and the board after the call differs from `G` at exactly
`2 * min U V` cells. -/
theorem C24_move_count (D : Nat) (G : Board) (T : Int) :
    (gameMove D G T).numMoves
      = ((min (unhappy D G T).length (vacancies D G).length : Nat) : Int) ∧
    (relocations D G T ⟨G, 0, 0⟩ (cells D)).map Prod.fst
      = (unhappy D G T).take (min (unhappy D G T).length (vacancies D G).length) ∧
    (diffCells D (gameMove D G T).board G).length
      = 2 * min (unhappy D G T).length (vacancies D G).length := by
  have hsrc := relocations_sources D G T (cells D) (cells_nodup D)
  have hlen : (relocations D G T ⟨G, 0, 0⟩ (cells D)).length
      = min (unhappy D G T).length (vacancies D G).length := by
    rw [← List.length_map (relocations D G T ⟨G, 0, 0⟩ (cells D)) Prod.fst, hsrc,
      List.length_take, Nat.min_comm]
    rfl
  refine ⟨?_, ?_, ?_⟩
  · rw [← hlen]
    exact (alternation_invariant D G T (cells D)).2.1
  · rw [hsrc]
    show (unhappy D G T).take _ = _
    rw [List.take_eq_take]
    omega
  · rw [diffCells_length, hlen]

/-! ## Truncation of the happiness -/

theorem checkNeighbor_snd_le (g : Bool) (cell current : Char) (st : Nat × Nat) (n : Nat)
    (h : st.2 ≤ n) : (checkNeighbor g cell current st).2 ≤ n + 1 := by
  unfold checkNeighbor
  split_ifs <;> (try simp only) <;> omega

/-- At most eight neighbours are counted. -/
theorem neighborCounts_le_eight (D : Nat) (b : Board) (r c : Nat) :
    (neighborCounts D b r c).2 ≤ 8 := by
  unfold neighborCounts
  simp only
  repeat apply checkNeighbor_snd_le
  exact Nat.le_refl 0

set_option maxRecDepth 100000 in
/-- For the neighbour counts that occur, the happiness truncated to `int` is the integer
part of `100 * S / N`. -/
theorem toInt_percentage : ∀ N, N < 9 → ∀ S, S < 9 → 0 < N → S ≤ N →
    toInt (fmul (fdiv (ofInt (S : Nat)) (ofInt (N : Nat))) (ofInt 100))
      = ((100 * S / N : Nat) : Int) := by
  decide

/-- C26. Truncating the happiness to `int` does not change the decision of `gameMove`: at
every cell, the neighbour counts `S` and `N` of `getHappiness` satisfy `S ≤ N ≤ 8`, and for
every integer threshold `T` the test on the truncated happiness holds if and only if the
happiness itself is below `T`, which is the case if and only if `100 * S < T * N` when
`N > 0`, and `100 < T` when `N = 0`. -/
theorem C26_truncation_harmless (D : Nat) (G : Board) (r c : Nat) (T : Int) :
    ((neighborCounts D G r c).1 ≤ (neighborCounts D G r c).2 ∧
      (neighborCounts D G r c).2 ≤ 8) ∧
    (toInt (getHappiness D G r c) < T ↔ getHappiness D G r c < ofInt T) ∧
    (getHappiness D G r c < ofInt T ↔
      if (neighborCounts D G r c).2 > 0 then
        100 * ((neighborCounts D G r c).1 : Int) < T * ((neighborCounts D G r c).2 : Int)
      else 100 < T) := by
  have hle := neighborCounts_le D G r c
  have h8 := neighborCounts_le_eight D G r c
  refine ⟨⟨hle, h8⟩, happiness_test D G r c T, ?_⟩
  by_cases hpos : (neighborCounts D G r c).2 > 0
  · rw [if_pos hpos, ← happiness_test]
    have hh : getHappiness D G r c
        = fmul (fdiv (ofInt ((neighborCounts D G r c).1 : Nat))
            (ofInt ((neighborCounts D G r c).2 : Nat))) (ofInt 100) := by
      unfold getHappiness
      simp only
      rw [if_pos hpos]
    rw [hh, toInt_percentage _ (by omega) _ (by omega) hpos hle, Int.natCast_div,
      Int.ediv_lt_iff_lt_mul (by omega)]
    push_cast
    rfl
  · rw [if_neg hpos]
    have hh : getHappiness D G r c = ofInt 100 := by
      unfold getHappiness
      simp only
      rw [if_neg hpos]
    rw [hh]
    exact ofInt_lt_ofInt 100 T

/-! ## The cells getHappiness depends on -/

/-- The value of `getHappiness`, computed from the inspected neighbours and the cell
itself. -/
theorem getHappiness_inspected (D : Nat) (b : Board) (r c : Nat) :
    getHappiness D b r c
      = if 0 < (inspectedNeighbors D r c).countP (fun q => b q.1 q.2 ≠ '.') then
          fmul (fdiv
            (ofInt ((inspectedNeighbors D r c).countP
              (fun q => b q.1 q.2 ≠ '.' ∧ b q.1 q.2 = b r c) : Nat))
            (ofInt ((inspectedNeighbors D r c).countP (fun q => b q.1 q.2 ≠ '.') : Nat)))
            (ofInt 100)
        else ofInt 100 := by
  unfold getHappiness
  rw [neighborCounts_inspected]

/-- Two boards that agree at the cells `getHappiness` reads give the same happiness. -/
theorem getHappiness_readCells (D : Nat) (b1 b2 : Board) (r c : Nat)
    (h : ∀ q ∈ readCells D r c, b1 q.1 q.2 = b2 q.1 q.2) :
    getHappiness D b1 r c = getHappiness D b2 r c := by
  have h0 : b1 r c = b2 r c := h (r, c) (List.mem_cons_self _ _)
  have hq : ∀ q ∈ inspectedNeighbors D r c, b1 q.1 q.2 = b2 q.1 q.2 :=
    fun q hq => h q (List.mem_cons_of_mem _ hq)
  have hcounts : neighborCounts D b1 r c = neighborCounts D b2 r c := by
    rw [neighborCounts_inspected, neighborCounts_inspected]
    congr 1
    · apply List.countP_congr
      intro q hq1
      rw [hq q hq1, h0]
    · apply List.countP_congr
      intro q hq1
      rw [hq q hq1]
  unfold getHappiness
  rw [hcounts]

/-- With fewer neighbours of the same kind than neighbours, the happiness is not
`100.0`. -/
theorem getHappiness_ne_hundred (D : Nat) (b : Board) (r c : Nat)
    (h : (neighborCounts D b r c).1 < (neighborCounts D b r c).2) :
    getHappiness D b r c ≠ ofInt 100 := by
  have h8 := neighborCounts_le_eight D b r c
  have hpos : (neighborCounts D b r c).2 > 0 := by omega
  have hlt : getHappiness D b r c < ofInt 100 := by
    rw [← happiness_test]
    have hh : getHappiness D b r c
        = fmul (fdiv (ofInt ((neighborCounts D b r c).1 : Nat))
            (ofInt ((neighborCounts D b r c).2 : Nat))) (ofInt 100) := by
      unfold getHappiness
      simp only
      rw [if_pos hpos]
    rw [hh, toInt_percentage _ (by omega) _ (by omega) hpos (by omega)]
    have : 100 * (neighborCounts D b r c).1 / (neighborCounts D b r c).2 < 100 := by
      rw [Nat.div_lt_iff_lt_mul hpos]
      omega
    exact_mod_cast this
  intro e
  rw [e] at hlt
  exact lt_irrefl (ofInt 100).units hlt

/-- Every cell `getHappiness` reads bears on its value: two boards that differ at that
cell only give different values. -/
theorem getHappiness_depends (D r c : Nat) (hD : 2 ≤ D) (hr : r < D) (hc : c < D)
    (q : Nat × Nat) (hq : q ∈ readCells D r c) :
    ∃ b1 b2 : Board, (∀ x y, (x, y) ≠ q → b1 x y = b2 x y) ∧
      getHappiness D b1 r c ≠ getHappiness D b2 r c := by
  have hset : ∀ x y, (x, y) ≠ q →
      fullBoard 'e' x y = ((fullBoard 'e').set q.1 q.2 'n') x y := by
    intro x y hxy
    rw [Board.set_other _ _ hxy]
  have hfull : ∀ x y, fullBoard 'e' x y = 'e' := fun _ _ => rfl
  have h1 : getHappiness D (fullBoard 'e') r c = ofInt 100 :=
    getHappiness_single_kind D (fullBoard 'e') 'e' (fun _ _ _ _ => Or.inr rfl) r c hr hc
      (by rw [hfull]; decide)
  refine ⟨fullBoard 'e', (fullBoard 'e').set q.1 q.2 'n', hset, ?_⟩
  rw [h1]
  apply Ne.symm
  apply getHappiness_ne_hundred
  rw [neighborCounts_inspected]
  simp only
  have hlen : 3 ≤ (inspectedNeighbors D r c).length := by
    have := length_inspectedNeighbors D r c
    split_ifs at this <;> omega
  have hall : (inspectedNeighbors D r c).countP
      (fun x => ((fullBoard 'e').set q.1 q.2 'n') x.1 x.2 ≠ '.')
        = (inspectedNeighbors D r c).length := by
    rw [List.countP_eq_length]
    intro x _
    unfold Board.set fullBoard
    split <;> simp
  rw [hall]
  apply lt_of_le_of_ne (List.countP_le_length _)
  intro heq
  rw [List.countP_eq_length] at heq
  unfold readCells at hq
  rw [List.mem_cons] at hq
  rcases hq with hq | hq
  · obtain ⟨x, hx⟩ := List.exists_mem_of_length_pos (show 0 < (inspectedNeighbors D r c).length by omega)
    have hxne : x ≠ (r, c) := (adjacent_of_mem_inspectedNeighbors hr hc hx).2.1
    have := heq x hx
    rw [hq] at this
    simp only [Board.set_same, decide_eq_true_eq] at this
    rw [Board.set_other _ _ hxne, hfull] at this
    exact absurd this.2 (by decide)
  · have hqne : q ≠ (r, c) := (adjacent_of_mem_inspectedNeighbors hr hc hq).2.1
    have := heq q hq
    simp only [Board.set_same, decide_eq_true_eq] at this
    rw [Board.set_other _ _ (Ne.symm hqne), hfull] at this
    exact absurd this.2 (by decide)

/-- C13. For a grid of side `D ≥ 2` and an in-grid cell `(r, c)`: the neighbour cells that
`getHappiness` inspects are exactly the cells `(r+dr, c+dc)` with `dr, dc` in `{-1, 0, 1}`,
`(dr, dc) ≠ (0, 0)`, `0 ≤ r+dr < D` and `0 ≤ c+dc < D`, each inspected once; every cell the
function reads (the cell itself and these) is inside the grid; there are 3 of them at a
corner, 5 on an edge that is not a corner and 8 in the interior, and on a grid without
vacant cell this is the neighbour count `totalNeighbors`.  These are the cells
`getHappiness` works on: on every board its value is computed from the counts over the
inspected neighbours; two boards that agree at the cells read give the same value; and
every cell read bears on the value, two boards that differ at that cell only giving
different values. -/
theorem C13_clipped_moore_neighbourhood (D r c : Nat) (hD : 2 ≤ D) (hr : r < D) (hc : c < D) :
    (∀ q : Nat × Nat, q ∈ inspectedNeighbors D r c ↔
      ∃ dr dc : Int, (dr = -1 ∨ dr = 0 ∨ dr = 1) ∧ (dc = -1 ∨ dc = 0 ∨ dc = 1) ∧
        (dr, dc) ≠ (0, 0) ∧ (0 ≤ (r : Int) + dr ∧ (r : Int) + dr < D) ∧
        (0 ≤ (c : Int) + dc ∧ (c : Int) + dc < D) ∧
        ((q.1 : Int) = r + dr ∧ (q.2 : Int) = c + dc)) ∧
    (inspectedNeighbors D r c).Nodup ∧
    (∀ q ∈ readCells D r c, q.1 < D ∧ q.2 < D) ∧
    (isCorner D r c → (inspectedNeighbors D r c).length = 3) ∧
    (isEdge D r c → (inspectedNeighbors D r c).length = 5) ∧
    (isInterior D r c → (inspectedNeighbors D r c).length = 8) ∧
    (∀ b : Board, (∀ i j, i < D → j < D → b i j ≠ '.') →
      (neighborCounts D b r c).2 = (inspectedNeighbors D r c).length) ∧
    (∀ b : Board, getHappiness D b r c
      = if 0 < (inspectedNeighbors D r c).countP (fun q => b q.1 q.2 ≠ '.') then
          fmul (fdiv
            (ofInt ((inspectedNeighbors D r c).countP
              (fun q => b q.1 q.2 ≠ '.' ∧ b q.1 q.2 = b r c) : Nat))
            (ofInt ((inspectedNeighbors D r c).countP (fun q => b q.1 q.2 ≠ '.') : Nat)))
            (ofInt 100)
        else ofInt 100) ∧
    (∀ b1 b2 : Board, (∀ q ∈ readCells D r c, b1 q.1 q.2 = b2 q.1 q.2) →
      getHappiness D b1 r c = getHappiness D b2 r c) ∧
    (∀ q ∈ readCells D r c, ∃ b1 b2 : Board, (∀ x y, (x, y) ≠ q → b1 x y = b2 x y) ∧
      getHappiness D b1 r c ≠ getHappiness D b2 r c) := by
  have hperm := inspectedNeighbors_perm D r c hr hc
  have hmem : ∀ q : Nat × Nat, q ∈ inspectedNeighbors D r c ↔ q ∈ mooreNeighbors D r c :=
    fun q => hperm.mem_iff
  have hin : ∀ q ∈ inspectedNeighbors D r c, q.1 < D ∧ q.2 < D := by
    intro q hq
    obtain ⟨dr, dc, _, _, _, h4, h5, h6, h7⟩ := (mem_mooreNeighbors D r c q).mp ((hmem q).mp hq)
    omega
  have hlen := length_inspectedNeighbors D r c
  refine ⟨?_, ?_, ?_, ?_, ?_, ?_, ?_, fun b => getHappiness_inspected D b r c,
    fun b1 b2 h => getHappiness_readCells D b1 b2 r c h,
    fun q hq => getHappiness_depends D r c hD hr hc q hq⟩
  · intro q
    rw [hmem q, mem_mooreNeighbors]
  · exact hperm.nodup_iff.mpr (mooreNeighbors_nodup D r c)
  · intro q hq
    unfold readCells at hq
    rw [List.mem_cons] at hq
    rcases hq with hq | hq
    · rw [hq]
      exact ⟨hr, hc⟩
    · exact hin q hq
  · intro h
    unfold isCorner at h
    split_ifs at hlen <;> omega
  · intro h
    unfold isEdge at h
    split_ifs at hlen <;> omega
  · intro h
    unfold isInterior at h
    split_ifs at hlen <;> omega
  · intro b hb
    rw [neighborCounts_inspected]
    simp only
    rw [List.countP_eq_length]
    intro q hq
    have := hin q hq
    simpa using hb q.1 q.2 this.1 this.2

/-! ## The scenarios of the specification -/

set_option maxRecDepth 100000 in
theorem scenarioD_step :
    (gameMove 5 scenarioD 50).numMoves = 1 ∧ (gameMove 5 scenarioD 50).board 0 0 = '.' ∧
    (gameMove 5 scenarioD 50).board 4 4 = 'e' := by
  decide

set_option maxRecDepth 100000 in
theorem scenarioE_destinations : destinations 5 scenarioE 50 = [(4, 4), (0, 0)] := by
  decide

theorem scenarioE_vacancies : vacancies 5 scenarioE = [(0, 0), (4, 4)] := by
  decide

set_option maxRecDepth 100000 in
theorem scenarioC_happy :
    ∀ r < 5, ∀ c < 5, scenarioC r c ≠ '.' → ¬ getHappiness 5 scenarioC r c < ofInt 50 := by
  decide

set_option maxRecDepth 100000 in
theorem scenarioD_unhappy :
    scenarioD 0 0 ≠ '.' ∧ getHappiness 5 scenarioD 0 0 < ofInt 50 := by
  decide

set_option maxRecDepth 100000 in
theorem scenarioD_happy :
    scenarioD 0 1 ≠ '.' ∧ ¬ getHappiness 5 scenarioD 0 1 < ofInt 50 := by
  decide

/-- Conservation on Scenario D run for 1000 cycles. -/
theorem C1_conservation_witness :
    countKind 5 (cycles 5 50 1000 scenarioD) '.' = countKind 5 scenarioD '.' ∧
    countKind 5 (cycles 5 50 1000 scenarioD) 'e' = countKind 5 scenarioD 'e' ∧
    countKind 5 (cycles 5 50 1000 scenarioD) 'n' = countKind 5 scenarioD 'n' :=
  C1_conservation 5 scenarioD 50 1000

/-- The happiness of the agent at `(0,0)` of Scenario D. -/
theorem C2_getHappiness_reference_witness :
    ((0 : Nat) < 5 ∧ scenarioD 0 0 ≠ '.') ∧
    ((refTotal 5 scenarioD 0 0 = 0 → getHappiness 5 scenarioD 0 0 = ofInt 100) ∧
    (refTotal 5 scenarioD 0 0 ≠ 0 → getHappiness 5 scenarioD 0 0
      = fmul (fdiv (ofInt (refSame 5 scenarioD 0 0)) (ofInt (refTotal 5 scenarioD 0 0)))
          (ofInt 100)) ∧
    ofInt 0 ≤ getHappiness 5 scenarioD 0 0 ∧ getHappiness 5 scenarioD 0 0 ≤ ofInt 100) :=
  ⟨⟨by decide, scenarioD_unhappy.1⟩,
    C2_getHappiness_reference 5 scenarioD 0 0 (by decide) (by decide) scenarioD_unhappy.1⟩

/-- Scenario C: a grid of `e` agents only is a fixpoint of the step. -/
theorem C3_step_fixpoint_witness :
    (∀ r c, r < 5 → c < 5 → scenarioC r c ≠ '.' → ¬ getHappiness 5 scenarioC r c < ofInt 50) ∧
    (gameMove 5 scenarioC 50).numMoves = 0 ∧ (gameMove 5 scenarioC 50).board = scenarioC :=
  ⟨fun r c hr hc => scenarioC_happy r hr c hc,
    C3_step_fixpoint 5 scenarioC 50 (fun r c hr hc => scenarioC_happy r hr c hc)⟩

/-- Scenario D: the `n` agent at `(0,1)` has happiness 80 and stays. -/
theorem C4_happy_agent_stays_witness :
    (scenarioD 0 1 ≠ '.' ∧ ¬ getHappiness 5 scenarioD 0 1 < ofInt 50) ∧
    (gameMove 5 scenarioD 50).board 0 1 = scenarioD 0 1 :=
  ⟨scenarioD_happy, C4_happy_agent_stays 5 scenarioD 50 0 1 scenarioD_happy.1 scenarioD_happy.2⟩

/-- Scenario D: the `e` at `(0,0)` moves to the only vacancy `(4,4)`, one move is made. -/
theorem C5_first_relocation_backward_witness :
    ((∃ q : Nat × Nat, (q.1 < 5 ∧ q.2 < 5) ∧
        (scenarioD q.1 q.2 ≠ '.' ∧ getHappiness 5 scenarioD q.1 q.2 < ofInt 50)) ∧
      (∃ q : Nat × Nat, (q.1 < 5 ∧ q.2 < 5) ∧ scenarioD q.1 q.2 = '.')) ∧
    (∃ p v : Nat × Nat, isFirstUnhappy 5 scenarioD 50 p ∧ isLastVacant 5 scenarioD v ∧
      (relocations 5 scenarioD 50 ⟨scenarioD, 0, 0⟩ (cells 5)).head? = some (p, v) ∧
      (gameMove 5 scenarioD 50).board p.1 p.2 = '.' ∧
      (gameMove 5 scenarioD 50).board v.1 v.2 = scenarioD p.1 p.2) ∧
    ((gameMove 5 scenarioD 50).numMoves = 1 ∧ (gameMove 5 scenarioD 50).board 0 0 = '.' ∧
      (gameMove 5 scenarioD 50).board 4 4 = 'e') :=
  ⟨⟨⟨(0, 0), ⟨by decide, by decide⟩, scenarioD_unhappy⟩, ⟨(4, 4), ⟨by decide, by decide⟩, by decide⟩⟩,
    C5_first_relocation_backward 5 scenarioD 50
      ⟨(0, 0), ⟨by decide, by decide⟩, scenarioD_unhappy⟩
      ⟨(4, 4), ⟨by decide, by decide⟩, by decide⟩,
    scenarioD_step⟩

/-- Scenario E: the first mover takes the bottom-right vacancy, the second the top-left. -/
theorem C6_alternating_destinations_witness :
    destinations 5 scenarioE 50 = [(4, 4), (0, 0)] ∧
    vacancies 5 scenarioE = [(0, 0), (4, 4)] ∧
    (destinations 5 scenarioE 50)[0]? = (vacancies 5 scenarioE)[1]? ∧
    (destinations 5 scenarioE 50)[1]? = (vacancies 5 scenarioE)[0]? ∧
    (gameMove 5 scenarioE 50).numMoves = 2 := by
  obtain ⟨_, h2, h3, _, _⟩ := C6_alternating_destinations 5 scenarioE 50
  have hl : (destinations 5 scenarioE 50).length = 2 := by rw [scenarioE_destinations]; rfl
  have hv : (vacancies 5 scenarioE).length = 2 := by rw [scenarioE_vacancies]; rfl
  have h30 := h3 0 (by omega)
  have h31 := h3 1 (by omega)
  rw [hv] at h30 h31
  rw [hl] at h2
  exact ⟨scenarioE_destinations, scenarioE_vacancies, h30, h31, h2⟩

/-- Scenario E: the two destinations are distinct cells, vacant at the start. -/
theorem C7_snapshot_independence_witness :
    (destinations 5 scenarioE 50).Nodup ∧
    ∀ d ∈ destinations 5 scenarioE 50, (d.1 < 5 ∧ d.2 < 5) ∧ scenarioE d.1 d.2 = '.' :=
  C7_snapshot_independence 5 scenarioE 50

set_option maxRecDepth 100000 in
theorem scenarioB_mean : getBoardHappiness 5 scenarioB = ofInt 1 := by
  decide

set_option maxRecDepth 100000 in
theorem scenarioB_step_above_100 : (gameMove 5 scenarioB 101).numMoves = 1 := by
  decide

theorem scenarioB_agent : ∃ r c, r < 5 ∧ c < 5 ∧ scenarioB r c ≠ '.' :=
  ⟨2, 2, by decide, by decide, by decide⟩

theorem scenarioB_others : ∀ r c, r < 5 → c < 5 → (r, c) ≠ (2, 2) → scenarioB r c = '.' := by
  intro r c _ _ h
  unfold scenarioB
  rw [if_neg]
  rintro ⟨rfl, rfl⟩
  exact h rfl

/-- Scenario B: the mean happiness of the isolated agent is `1.0`. -/
theorem C11_getBoardHappiness_reference_witness :
    (∃ r c, r < 5 ∧ c < 5 ∧ scenarioB r c ≠ '.') ∧
    (getBoardHappiness 5 scenarioB = refBoardHappiness 5 scenarioB ∧
      (boardHappinessLoop 5 scenarioB).numCounted = ((agents 5 scenarioB).length : Int) ∧
      (∀ p : Nat × Nat, p ∈ agents 5 scenarioB ↔ (p.1 < 5 ∧ p.2 < 5) ∧ scenarioB p.1 p.2 ≠ '.')) ∧
    getBoardHappiness 5 scenarioB = ofInt 1 :=
  ⟨scenarioB_agent, C11_getBoardHappiness_reference 5 scenarioB scenarioB_agent, scenarioB_mean⟩

/-- Scenario D: the mean happiness is in `[0, 1]`. -/
theorem C12_getBoardHappiness_range_witness :
    (5 * 5 < 2 ^ 31 ∧ ∃ r c, r < 5 ∧ c < 5 ∧ scenarioD r c ≠ '.') ∧
    (ofInt 0 ≤ getBoardHappiness 5 scenarioD ∧ getBoardHappiness 5 scenarioD ≤ ofInt 1) :=
  ⟨⟨by norm_num, 0, 0, by decide, by decide, by decide⟩,
    C12_getBoardHappiness_range 5 scenarioD (by norm_num) ⟨0, 0, by decide, by decide, by decide⟩⟩

/-- On the grid of side 5: 3 neighbours at the corner `(0,0)`, 5 at the edge cell `(0,2)`,
8 at the interior cell `(2,2)`. -/
theorem C13_clipped_moore_neighbourhood_witness :
    (2 ≤ 5 ∧ isCorner 5 0 0 ∧ isEdge 5 0 2 ∧ isInterior 5 2 2) ∧
    (inspectedNeighbors 5 0 0).length = 3 ∧ (inspectedNeighbors 5 0 2).length = 5 ∧
    (inspectedNeighbors 5 2 2).length = 8 :=
  ⟨⟨by decide, by unfold isCorner; decide, by unfold isEdge; decide,
      by unfold isInterior; decide⟩,
    (C13_clipped_moore_neighbourhood 5 0 0 (by decide) (by decide) (by decide)).2.2.2.1
      (by unfold isCorner; decide),
    (C13_clipped_moore_neighbourhood 5 0 2 (by decide) (by decide) (by decide)).2.2.2.2.1
      (by unfold isEdge; decide),
    (C13_clipped_moore_neighbourhood 5 2 2 (by decide) (by decide) (by decide)).2.2.2.2.2.1
      (by unfold isInterior; decide)⟩

/-- Scenario D and the same grid with the far cell `(4,4)` filled: the happiness at `(0,0)`
is the same. -/
theorem C14_happiness_locality_witness :
    ((0 : Nat) < 5 ∧ scenarioD 0 0 = (scenarioD.set 4 4 'n') 0 0 ∧
      ∀ q : Nat × Nat, q.1 < 5 → q.2 < 5 → adjacent 0 0 q →
        scenarioD q.1 q.2 = (scenarioD.set 4 4 'n') q.1 q.2) ∧
    getHappiness 5 scenarioD 0 0 = getHappiness 5 (scenarioD.set 4 4 'n') 0 0 := by
  have h0 : scenarioD 0 0 = (scenarioD.set 4 4 'n') 0 0 := by decide
  have hadj : ∀ q : Nat × Nat, q.1 < 5 → q.2 < 5 → adjacent 0 0 q →
      scenarioD q.1 q.2 = (scenarioD.set 4 4 'n') q.1 q.2 := by
    intro q _ _ h
    unfold adjacent at h
    rw [Board.set_other]
    intro e
    rw [Prod.mk.injEq] at e
    omega
  exact ⟨⟨by decide, h0, hadj⟩,
    C14_happiness_locality 5 scenarioD (scenarioD.set 4 4 'n') 0 0 (by decide) (by decide) h0 hadj⟩

/-- Print mode with `-c 2` on Scenario D emits 3 snapshots; with `-c 2147483647` the
increment of `cycle` overflows. -/
theorem C15_batch_observations_witness :
    ((((2 : Nat) : Int) < INT_MAX ∧ ∃ r c, r < 5 ∧ c < 5 ∧ scenarioD r c ≠ '.') ∧
      ((2147483647 : Nat) : Int) = INT_MAX) ∧
    (∃ snaps, printMode 5 50 (2 : Nat) scenarioD = Except.ok snaps ∧
      snaps.length = 2 + 1 ∧
      snaps[0]? = some ⟨cycles 5 50 0 scenarioD, ((0 : Nat) : Int), refMoves 5 50 scenarioD 0,
        getBoardHappiness 5 (cycles 5 50 0 scenarioD)⟩) ∧
    printMode 5 50 (2147483647 : Nat) scenarioD = Except.error Fault.intOverflow := by
  have hagent : ∃ r c, r < 5 ∧ c < 5 ∧ scenarioD r c ≠ '.' :=
    ⟨0, 0, by decide, by decide, by decide⟩
  obtain ⟨snaps, h1, _, h3, h4⟩ :=
    (C15_batch_observations 5 50 2 scenarioD).1 (by decide) hagent
  exact ⟨⟨⟨by decide, hagent⟩, by decide⟩, ⟨snaps, h1, h3, (h4 0 (by decide)).1⟩,
    ((C15_batch_observations 5 50 2147483647 scenarioD).2 (by decide)).1⟩

theorem scenarioC_single_kind :
    ∀ r c, r < 5 → c < 5 → scenarioC r c = '.' ∨ scenarioC r c = 'e' := by
  intro r c _ _
  unfold scenarioC
  split
  · exact Or.inl rfl
  · exact Or.inr rfl

/-- Scenario C with the threshold 100. -/
theorem C16_single_kind_fixpoint_witness :
    ((∀ r c, r < 5 → c < 5 → scenarioC r c = '.' ∨ scenarioC r c = 'e') ∧ (100 : Int) ≤ 100) ∧
    ((∀ r c, r < 5 → c < 5 → scenarioC r c ≠ '.' → getHappiness 5 scenarioC r c = ofInt 100) ∧
      (gameMove 5 scenarioC 100).numMoves = 0 ∧ (gameMove 5 scenarioC 100).board = scenarioC) :=
  ⟨⟨scenarioC_single_kind, le_refl _⟩,
    C16_single_kind_fixpoint 5 scenarioC 'e' 100 scenarioC_single_kind (le_refl _)⟩

/-- C17 as stated fails for a threshold above 100: in Scenario B the isolated agent has
happiness 100, which is below the threshold 101, and `gameMove` moves it. -/
theorem C17_isolated_agent_counterexample :
    (scenarioB 2 2 ≠ '.' ∧ ∀ r c, r < 5 → c < 5 → (r, c) ≠ (2, 2) → scenarioB r c = '.') ∧
    (gameMove 5 scenarioB 101).numMoves ≠ 0 := by
  refine ⟨⟨by decide, scenarioB_others⟩, ?_⟩
  rw [scenarioB_step_above_100]
  decide

/-- Scenario B with the threshold 99. -/
theorem C17_isolated_agent_witness :
    ((2 : Nat) < 5 ∧ scenarioB 2 2 ≠ '.' ∧
      (∀ r c, r < 5 → c < 5 → (r, c) ≠ (2, 2) → scenarioB r c = '.') ∧ (99 : Int) ≤ 100) ∧
    (gameMove 5 scenarioB 99).numMoves = 0 :=
  ⟨⟨by decide, by decide, scenarioB_others, by decide⟩,
    C17_isolated_agent 5 scenarioB 99 2 2 (by decide) (by decide) (by decide) scenarioB_others
      (by decide)⟩

/-- `-s 150` ends the run with exit code 1, `-d 4` with exit code 2, `-d 10` is stored. -/
theorem C18_option_validation_witness :
    handleOption 's' 150 (initialConfig 0) = Except.error 1 ∧
    handleOption 'd' 4 (initialConfig 0) = Except.error 2 ∧
    handleOption 'd' 10 (initialConfig 0)
      = Except.ok ⟨(initialConfig 0).time, (initialConfig 0).infiniteMode,
          (initialConfig 0).numCycles, 10, (initialConfig 0).strengthThreshold,
          (initialConfig 0).vacant, (initialConfig 0).endline⟩ :=
  ⟨(C18_option_validation 150 (initialConfig 0)).2.2.2.2.1 (by decide),
    (C18_option_validation 4 (initialConfig 0)).2.1 (by decide),
    (C18_option_validation 10 (initialConfig 0)).2.2.2.2.2.2.1 (by decide)⟩

/-- The default configuration of `main` with `-d 10`. -/
theorem C20_agent_exists_witness :
    ((5 ≤ 10 ∧ 10 ≤ 39) ∧ ((1 : Int) ≤ 20 ∧ (20 : Int) ≤ 99) ∧
      ((1 : Int) ≤ 60 ∧ (60 : Int) ≤ 99)) ∧
    ((∃ r c, r < 10 ∧ c < 10 ∧ populateBoard 10 (fun _ _ => 'x') 20 60 r c ≠ '.') ∧
    ∀ (random : Nat → Nat) (T : Int) (t : Nat),
      (∃ r c, r < 10 ∧ c < 10 ∧
        cycles 10 T t (shuffle 10 (populateBoard 10 (fun _ _ => 'x') 20 60) random) r c ≠ '.') ∧
      0 < (boardHappinessLoop 10
        (cycles 10 T t (shuffle 10 (populateBoard 10 (fun _ _ => 'x') 20 60) random))).numCounted) :=
  ⟨by norm_num,
    C20_agent_exists 10 (fun _ _ => 'x') 20 60 (by norm_num) (by norm_num) (by norm_num)⟩

/-- The loop of `shuffle` on the 5 by 5 board of letters runs 23 iterations. -/
theorem C21_shuffle_loop_shape_witness :
    (2 ≤ 5 * 5 ∧ 5 * 5 ≤ 2147483647) ∧
    ∃ log : List (Nat × Nat),
      shuffleLogged 5 lettersBoard (fun i => 7 * i + 3)
        = some (shuffle 5 lettersBoard (fun i => 7 * i + 3), log) ∧
      log.length = 5 * 5 - 2 ∧ log.map Prod.fst = List.range (5 * 5 - 2) := by
  obtain ⟨log, h1, h2, h3, _⟩ :=
    C21_shuffle_loop_shape 5 (by decide) (by decide) lettersBoard (fun i => 7 * i + 3)
  exact ⟨by decide, log, h1, h2, h3⟩

/-- C21 as stated fails for `D = 46341`: `D * D = 2147488281` is at least 2 but above
`INT_MAX`, so the `int` product `dimensions * dimensions` of the loop bound overflows and
`shuffle` has no defined run; on a two's complement machine the bound is negative and the
loop runs no iteration, where the claim has `D * D - 2 = 2147488279` of them. -/
theorem C21_shuffle_loop_shape_counterexample :
    2 ≤ 46341 * 46341 ∧ intMul 46341 46341 = none ∧
    (∀ (board : Board) (random : Nat → Nat), shuffleLogged 46341 board random = none) ∧
    intWrap (46341 * 46341) - 2 = -2147479017 := by
  have h : intMul 46341 46341 = none := by decide
  refine ⟨by decide, h, ?_, by decide⟩
  intro board random
  unfold shuffleLogged
  have h2 : intMul ((46341 : Nat) : Int) ((46341 : Nat) : Int) = none := h
  rw [h2]

/-- Scenario D: `moveAgent` on the `e` agent at `(0,0)`, the only vacancy being `(4,4)`. -/
theorem C22_moveAgent_result_witness :
    ((0 : Nat) < 5 ∧ scenarioD 0 0 ≠ '.' ∧ (moveAgent 5 scenarioD scenarioD 0 0 0).2 ≠ 0) ∧
    (moveAgent 5 scenarioD scenarioD 0 0 0).2 = 1 ∧
    ∃ d : Nat × Nat, findVacant 5 scenarioD scenarioD 0 = some d ∧
      (d.1 < 5 ∧ d.2 < 5) ∧ (scenarioD d.1 d.2 = '.' ∧ scenarioD d.1 d.2 = '.') ∧
      (moveAgent 5 scenarioD scenarioD 0 0 0).1 d.1 d.2 = scenarioD 0 0 ∧
      (moveAgent 5 scenarioD scenarioD 0 0 0).1 0 0 = '.' ∧
      (∀ q : Nat × Nat, q ∈ diffCells 5 (moveAgent 5 scenarioD scenarioD 0 0 0).1 scenarioD
        ↔ q = d ∨ q = (0, 0)) ∧
      (diffCells 5 (moveAgent 5 scenarioD scenarioD 0 0 0).1 scenarioD).length = 2 :=
  ⟨⟨by decide, by decide, by decide⟩,
    (C22_moveAgent_result 5 scenarioD scenarioD 0 0 0 (by decide) (by decide)
      (by decide)).2.2 (by decide)⟩

/-- C22 as stated fails when `(row, col)` is vacant in `board`: on Scenario B, `moveAgent`
called on the vacant cell `(0,0)` returns 1 and the board differs from the former board at
no cell. -/
theorem C22_moveAgent_result_counterexample :
    ((0 : Nat) < 5 ∧ scenarioB 0 0 = '.') ∧
    (moveAgent 5 scenarioB scenarioB 0 0 0).2 = 1 ∧
    (diffCells 5 (moveAgent 5 scenarioB scenarioB 0 0 0).1 scenarioB).length = 0 ∧
    (moveAgent 5 scenarioB scenarioB 0 0 1).2 = 1 ∧
    (diffCells 5 (moveAgent 5 scenarioB scenarioB 0 0 1).1 scenarioB).length = 0 := by
  decide

end Bracetopia
